import Mathlib

/-!
# Relevance-map engine of `image_processing::SurfaceOfInterest` and rotation angles

A shallow embedding of `include/image_processing/SurfaceOfInterest.h`, of the part of
`src/BabblingDataset.cpp` that merges, stores and cuts the frames of a dataset, and of the two
conversions of `test/test_rotation.cpp`.

* `std::map<K,V>` is the list of its entries in iteration order; it is
  well-formed (`StdMap.WF`) when the keys strictly increase.
* `double` is an arbitrary type `D` carrying the operations the engine uses
  (`*`, the literals `0` and `0.5`), so every equality below is an equality of
  the very values the classifier returned, whatever the arithmetic.
* `tbb::parallel_for` over `blocked_range(0, lbls.size())` is the sequential
  loop `for i = 0 .. lbls.size()-1` that the source keeps in a comment.
* dereferencing `_features.begin()` of an empty map and reading a vector out
  of bounds are undefined: the embedding returns `none` there.
* the member functions that the header only declares are modelled from the
  specification; each such definition says so.
* in `namespace robotsthatdream` a `float` is a real number.
-/

namespace image_processing

/-- A `std::map<K,V>`: the entries in iteration order. -/
abbrev StdMap (K V : Type) := List (K × V)

namespace StdMap

variable {K V : Type}

/-- The keys in iteration order. -/
def keys (m : StdMap K V) : List K := m.map Prod.fst

/-- Well-formed map: strictly increasing keys. -/
def WF [LT K] (m : StdMap K V) : Prop := (keys m).Sorted (fun a b => a < b)

/-- `m.find(k)`, `none` standing for `m.end()`. -/
def find [LinearOrder K] : StdMap K V → K → Option V
  | [], _ => none
  | (k', v) :: t, k => if k' = k then some v else find t k

/-- `m.insert_or_assign(k, v)`: the entry is stored at its place in key order. -/
def insert_or_assign [LinearOrder K] : StdMap K V → K → V → StdMap K V
  | [], k, v => [(k, v)]
  | (k', v') :: t, k, v =>
    if k < k' then (k, v) :: (k', v') :: t
    else if k = k' then (k, v) :: t
    else (k', v') :: insert_or_assign t k v

/-- `m.emplace(k, v)`: inserts only when `k` is not yet a key. -/
def emplace [LinearOrder K] (m : StdMap K V) (k : K) (v : V) : StdMap K V :=
  match find m k with
  | some _ => m
  | none => insert_or_assign m k v

/-- `m[k]`: the value at `k` and the map after the access; an absent key is
inserted with a value-initialised value. -/
def subscript [LinearOrder K] [Inhabited V] (m : StdMap K V) (k : K) : V × StdMap K V :=
  match find m k with
  | some v => (v, m)
  | none => (default, insert_or_assign m k default)

/-- A mutation `f` applied through the reference returned by `m[k]`. -/
def modify [LinearOrder K] [Inhabited V] (m : StdMap K V) (k : K) (f : V → V) : StdMap K V :=
  insert_or_assign (subscript m k).2 k (f (subscript m k).1)

end StdMap

open StdMap

/-- `std::string`: the characters of the string; `operator<` compares lexicographically. -/
abbrev std_string := List Char

/-- `relevance_map_t`: supervoxel label to vector of class probabilities. -/
abbrev relevance_map_t (D : Type) := StdMap Nat (List D)

/-- The feature record of one supervoxel: modality name to feature vector. -/
abbrev feature_record_t (D : Type) := StdMap std_string (List D)

/-- The members of the base class `SupervoxelSet` the engine reads. -/
structure SupervoxelSet (SV D : Type) where
  _supervoxels : StdMap Nat SV
  _features : StdMap Nat (feature_record_t D)
deriving DecidableEq

/-- The class `SurfaceOfInterest`: a `SupervoxelSet` and the relevance maps. -/
structure SurfaceOfInterest (SV D : Type) extends SupervoxelSet SV D where
  _weights : StdMap std_string (relevance_map_t D)
deriving DecidableEq

/-- What the templates require of `classifier_t`; `F` is the argument type of
`compute_estimation`. -/
structure Classifier (F D : Type) where
  get_nbr_class : Nat
  compute_estimation : F → List D

variable {SV D : Type}

/-- The expression `_features[lbl][modality]`: the value read and `_features` after
the two `operator[]` accesses. -/
def read_feature (features : StdMap Nat (feature_record_t D)) (lbl : Nat)
    (modality : std_string) : List D × StdMap Nat (feature_record_t D) :=
  let r := subscript features lbl
  let x := subscript r.1 modality
  (x.1, insert_or_assign r.2 lbl x.2)

/-- The statement `if(_weights.find(modality) != _weights.end()) _weights[modality].clear();
else _weights[modality] = relevance_map_t();`. -/
def reset_weights (weights : StdMap std_string (relevance_map_t D)) (modality : std_string) :
    StdMap std_string (relevance_map_t D) :=
  if (find weights modality).isSome then modify weights modality (fun _ => [])
  else modify weights modality (fun _ => [])

/-- The loop `for(const auto& sv : _supervoxels)` of the three variants that pre-populate:
`lbls.push_back(sv.first); _weights[modality].emplace(sv.first, init);`. -/
def prepopulate (supervoxels : StdMap Nat SV) (modality : std_string) (init : List D)
    (weights : StdMap std_string (relevance_map_t D)) :
    List Nat × StdMap std_string (relevance_map_t D) :=
  supervoxels.foldl
    (fun acc sv => (acc.1 ++ [sv.1], modify acc.2 modality (fun r => emplace r sv.1 init)))
    ([], weights)

/-- The body of the per-label loop of the single-classifier variant, run over the labels
`lbls` in the order given:
`_weights[modality][lbls[i]] = classifier.compute_estimation(_features[lbls[i]][modality]);`. -/
def per_label (modality : std_string) (classifier : Classifier (List D) D) (lbls : List Nat)
    (features : StdMap Nat (feature_record_t D)) (weights : StdMap std_string (relevance_map_t D)) :
    StdMap Nat (feature_record_t D) × StdMap std_string (relevance_map_t D) :=
  lbls.foldl
    (fun acc l =>
      let x := read_feature acc.1 l modality
      (x.2, modify acc.2 modality
        (fun r => modify r l (fun _ => classifier.compute_estimation x.1))))
    (features, weights)

/-- `compute_weights(modality, classifier)`. -/
def compute_weights [OfScientific D] (s : SurfaceOfInterest SV D) (modality : std_string)
    (classifier : Classifier (List D) D) : Option (SurfaceOfInterest SV D) :=
  match s._features with
  | [] => none
  | (_, first) :: _ =>
    if (find first modality).isNone then some s
    else
      let w0 := reset_weights s._weights modality
      let p := prepopulate s._supervoxels modality
        (List.replicate classifier.get_nbr_class (0.5 : D)) w0
      let r := per_label modality classifier p.1 s._features p.2
      some { s with _features := r.1, _weights := r.2 }

/-- The loop `for(int k = 0; k < estimations.size(); k++) estimations[k] = comp_est[k]*estimations[k];`
of the two-classifier variant; `none` when `comp_est[k]` is read out of bounds. -/
def product_loop [Mul D] (comp_est estimations : List D) : Option (List D) :=
  (List.range estimations.length).foldlM
    (fun est k =>
      match comp_est[k]?, est[k]? with
      | some a, some b => some (est.set k (a * b))
      | _, _ => none)
    estimations

/-- The body of the per-label loop of the two-classifier variant, run over the labels `lbls`
in the order given. -/
def per_label_comp [Mul D] (modality : std_string) (classifier comp_classifier : Classifier (List D) D)
    (lbls : List Nat) (features : StdMap Nat (feature_record_t D))
    (weights : StdMap std_string (relevance_map_t D)) :
    Option (StdMap Nat (feature_record_t D) × StdMap std_string (relevance_map_t D)) :=
  lbls.foldlM
    (fun acc l =>
      let x := read_feature acc.1 l modality
      let y := read_feature x.2 l modality
      match product_loop (comp_classifier.compute_estimation x.1)
          (classifier.compute_estimation y.1) with
      | none => none
      | some estimations =>
        some (y.2, modify acc.2 modality (fun r => modify r l (fun _ => estimations))))
    (features, weights)

/-- `compute_weights(modality, classifier, comp_classifier)`. -/
def compute_weights_comp [OfScientific D] [Mul D] (s : SurfaceOfInterest SV D)
    (modality : std_string) (classifier comp_classifier : Classifier (List D) D) :
    Option (SurfaceOfInterest SV D) :=
  match s._features with
  | [] => none
  | (_, first) :: _ =>
    if (find first modality).isNone then some s
    else
      let w0 := reset_weights s._weights modality
      let p := prepopulate s._supervoxels modality
        (List.replicate classifier.get_nbr_class (0.5 : D)) w0
      (per_label_comp modality classifier comp_classifier p.1 s._features p.2).map
        (fun r => { s with _features := r.1, _weights := r.2 })

/-- The body of the per-label loop of the multi-feature variant, run over the labels `lbls`
in the order given: `_weights["merge"][lbls[i]] = classifier.compute_estimation(_features[lbls[i]]);`. -/
def per_label_merge (classifier : Classifier (feature_record_t D) D) (lbls : List Nat)
    (features : StdMap Nat (feature_record_t D)) (weights : StdMap std_string (relevance_map_t D)) :
    StdMap Nat (feature_record_t D) × StdMap std_string (relevance_map_t D) :=
  lbls.foldl
    (fun acc l =>
      let x := subscript acc.1 l
      (x.2, modify acc.2 "merge".toList
        (fun r => modify r l (fun _ => classifier.compute_estimation x.1))))
    (features, weights)

/-- `compute_weights(classifier)`, the multi-feature variant writing the map "merge". -/
def compute_weights_merge [Zero D] (s : SurfaceOfInterest SV D)
    (classifier : Classifier (feature_record_t D) D) : SurfaceOfInterest SV D :=
  let w0 := reset_weights s._weights "merge".toList
  let p := prepopulate s._supervoxels "merge".toList
    (List.replicate classifier.get_nbr_class (0 : D)) w0
  let r := per_label_merge classifier p.1 s._features p.2
  { s with _features := r.1, _weights := r.2 }

/-- One iteration of `for(auto& classi: classifiers)` in `compute_weights(classifiers)`. -/
def compute_weights_map_step (s : SurfaceOfInterest SV D)
    (classi : std_string × Classifier (List D) D) : Option (SurfaceOfInterest SV D) :=
  match s._features with
  | [] => none
  | (_, first) :: _ =>
    if (find first classi.1).isNone then some s
    else
      let w0 := reset_weights s._weights classi.1
      let r := s._supervoxels.foldl
        (fun acc sv =>
          let x := read_feature acc.1 sv.1 classi.1
          (x.2, modify acc.2 classi.1
            (fun r => emplace r sv.1 (classi.2.compute_estimation x.1))))
        (s._features, w0)
      some { s with _features := r.1, _weights := r.2 }

/-- `compute_weights(std::map<std::string,classifier_t>& classifiers)`. -/
def compute_weights_map (s : SurfaceOfInterest SV D)
    (classifiers : StdMap std_string (Classifier (List D) D)) : Option (SurfaceOfInterest SV D) :=
  classifiers.foldlM compute_weights_map_step s

/-- Modelled from the spec: `init_weights(modality, nbr_class, value)` is declared in the header
and defined in the missing SurfaceOfInterest.cpp; the learning policy "initialize[s] a
modality's relevance map to a neutral constant for every supervoxel". -/
def init_weights (s : SurfaceOfInterest SV D) (modality : std_string) (nbr_class : Nat)
    (value : D) : SurfaceOfInterest SV D :=
  let init := s._supervoxels.map (fun sv => (sv.1, List.replicate nbr_class value))
  { s with _weights := insert_or_assign s._weights modality init }

/-- The learning policy `generate(modality, classifier, workspace, init_val)`.
`computeSupervoxel` is the method of the base class `SupervoxelSet` (not in the header): it
receives the base-class members and the workspace and returns its result and the members
after the call; the private `_weights` of the derived class is out of its reach. -/
def generate [OfScientific D] {W : Type}
    (computeSupervoxel : SupervoxelSet SV D → W → Bool × SupervoxelSet SV D)
    (s : SurfaceOfInterest SV D) (modality : std_string) (classifier : Classifier (List D) D)
    (workspace : W) (init_val : D) : Option (Bool × SurfaceOfInterest SV D) :=
  let b := computeSupervoxel s.toSupervoxelSet workspace
  let s1 : SurfaceOfInterest SV D := { s with toSupervoxelSet := b.2 }
  if !b.1 then some (false, s1)
  else
    let s2 := init_weights s1 modality classifier.get_nbr_class init_val
    (compute_weights s2 modality classifier).map (fun s3 => (true, s3))

/-- The value `_features[lbl][modality]` evaluates to: the stored vector, or the empty
vector that `operator[]` value-initialises. -/
def feature_at (features : StdMap Nat (feature_record_t D)) (lbl : Nat) (modality : std_string) :
    List D :=
  (find ((find features lbl).getD []) modality).getD []

/-- The feature record `_features[lbl]` evaluates to. -/
def record_at (features : StdMap Nat (feature_record_t D)) (lbl : Nat) : feature_record_t D :=
  (find features lbl).getD []

/-- The test `_features.begin()->second.find(modality) != _features.begin()->second.end()`:
the first feature record contains `modality` (false on an empty `_features`). -/
def known_modality (features : StdMap Nat (feature_record_t D)) (modality : std_string) : Bool :=
  match features with
  | [] => false
  | (_, first) :: _ => (find first modality).isSome

/-- The map `_features` after the expression `_features[l][modality]` has been evaluated for
each label `l` of `lbls` in turn. -/
def touch_features (modality : std_string) (lbls : List Nat)
    (features : StdMap Nat (feature_record_t D)) : StdMap Nat (feature_record_t D) :=
  lbls.foldl (fun f l => (read_feature f l modality).2) features

/-- The relevance map holding, for each supervoxel label `L` in key order, the vector `g L`. -/
def relevance_of (supervoxels : StdMap Nat SV) (g : Nat → List D) : relevance_map_t D :=
  supervoxels.map (fun sv => (sv.1, g sv.1))

/-- The relevance map built from the empty map by one `emplace(l, g l)` per label of `lbls`. -/
def emplaced (lbls : List Nat) (g : Nat → List D) : relevance_map_t D :=
  lbls.foldl (fun r l => emplace r l (g l)) []

/-- The map `_features` after the expression `_features[l]` has been evaluated for each
label `l` of `lbls` in turn. -/
def touch_records (lbls : List Nat) (features : StdMap Nat (feature_record_t D)) :
    StdMap Nat (feature_record_t D) :=
  lbls.foldl (fun f l => (subscript f l).2) features

instance instDecidableWF {K V : Type} [LT K] [DecidableRel (fun (a b : K) => a < b)]
    (m : StdMap K V) : Decidable (StdMap.WF m) :=
  inferInstanceAs (Decidable ((keys m).Sorted (fun a b => a < b)))

/-! ## Queries on the relevance map

The bodies of the functions below are in `SurfaceOfInterest.cpp`, which is not among the
sources; only their declarations in the header are. -/

/-- Modelled from the spec: the accessor is in the missing SurfaceOfInterest.cpp. The weight of
supervoxel `lbl` "for `classLabel` under `modality`": the entry `class_lbl` of the probability
vector that the relevance map of `modality` holds for `lbl`, `none` when there is none. -/
def weight_of (weights : StdMap std_string (relevance_map_t D)) (modality : std_string)
    (class_lbl : Nat) (lbl : Nat) : Option D :=
  match find weights modality with
  | none => none
  | some r =>
    match find r lbl with
    | none => none
    | some v => v[class_lbl]?

/-- Modelled from the spec: `extract_background` is declared in the header and defined in the
missing SurfaceOfInterest.cpp; it "returns the set of supervoxel labels whose weight for
`classLabel` under `modality` is below `threshold`". The `std::set` is the list of its labels
in increasing order. -/
def extract_background [LinearOrder D] (s : SurfaceOfInterest SV D) (modality : std_string)
    (saliency_threshold : D) (class_lbl : Nat) : List Nat :=
  (keys s._supervoxels).filter (fun l =>
    match weight_of s._weights modality class_lbl l with
    | some w => decide (w < saliency_threshold)
    | none => false)

/-- Modelled from the spec: the labels that qualify for region extraction, the "supervoxels
whose weight for `classLabel` is ≥ `threshold`", in increasing order. -/
def salient_labels [LinearOrder D] (s : SurfaceOfInterest SV D) (modality : std_string)
    (saliency_threshold : D) (class_lbl : Nat) : List Nat :=
  (keys s._supervoxels).filter (fun l =>
    match weight_of s._weights modality class_lbl l with
    | some w => decide (saliency_threshold ≤ w)
    | none => false)

/-- Modelled from the spec: one round of the breadth-first traversal, "expanding only through
neighbor edges whose endpoint also qualifies": the labels of `cand` (qualifying and not yet
visited) that are in `region` or are a neighbour of a label of `region`. -/
def grow_region (neighbors : Nat → List Nat) (cand region : List Nat) : List Nat :=
  cand.filter (fun l => decide (l ∈ region) || region.any (fun r => decide (l ∈ neighbors r)))

/-- Modelled from the spec: the traversal "seeded from any unvisited qualifying label", which
"yields one Region": as many rounds of growth from the seed as there are candidates. -/
def traverse (neighbors : Nat → List Nat) (cand : List Nat) (seed : Nat) : List Nat :=
  Nat.iterate (grow_region neighbors cand) cand.length [seed]

/-- Modelled from the spec: `extract_regions` is declared in the header and defined in the
missing SurfaceOfInterest.cpp. Each qualifying label that no earlier region holds seeds a
traversal over the qualifying labels not yet visited; "repeat until all qualifying labels are
visited". The output is the "sequence of Regions" in discovery order. `neighbors` is the
adjacency lookup of the supervoxel substrate. -/
def extract_regions [LinearOrder D] (neighbors : Nat → List Nat) (s : SurfaceOfInterest SV D)
    (modality : std_string) (saliency_threshold : D) (class_lbl : Nat) : List (List Nat) :=
  (salient_labels s modality saliency_threshold class_lbl).foldl
    (fun regions l =>
      if regions.any (fun R => decide (l ∈ R)) then regions
      else regions ++ [traverse neighbors
        ((salient_labels s modality saliency_threshold class_lbl).filter
          (fun x => !regions.any (fun R => decide (x ∈ R)))) l])
    []

/-- An adjacency edge from `a` to `b` between two labels of `S`. -/
def edge_in (neighbors : Nat → List Nat) (S : List Nat) (a b : Nat) : Prop :=
  b ∈ neighbors a ∧ a ∈ S ∧ b ∈ S

/-- Modelled from the spec: the selection rule shared by the queries that "minimize" a value,
"breaking ties by first-encountered label in iteration order": the first entry of the list
whose value no other entry is below. The queries themselves are in the missing
SurfaceOfInterest.cpp. -/
def first_min {α : Type} [LinearOrder D] : List (α × D) → Option (α × D)
  | [] => none
  | x :: t => some (t.foldl (fun best y => if y.2 < best.2 then y else best) x)

/-- Modelled from the spec: `choice_of_soi_by_uncertainty` is declared in the header and defined
in the missing SurfaceOfInterest.cpp; it chooses "the supervoxel whose weight for the target
class is closest to the decision boundary (0.5), i.e. minimizes `|weight - 0.5|`, breaking ties
by first-encountered label in iteration order", and fails when no supervoxel has a weight. The
result is the returned boolean with the values of the reference parameters `supervoxel` and
`lbl` after the call; `class_lbl` is the target class, which the header does not name. -/
def choice_of_soi_by_uncertainty [LinearOrderedField D] (s : SurfaceOfInterest SV D)
    (modality : std_string) (class_lbl : Nat) (supervoxel : SV) (lbl : Nat) : Bool × SV × Nat :=
  match first_min (s._supervoxels.filterMap (fun sv =>
      (weight_of s._weights modality class_lbl sv.1).map (fun w => (sv, |w - 0.5|)))) with
  | none => (false, supervoxel, lbl)
  | some (sv, _) => (true, sv.2, sv.1)

/-- Modelled from the spec: the interest predicate of the random selection, "interesting" =
weight ≥ 0.5; the predicate is in the missing SurfaceOfInterest.cpp. -/
def is_interesting [LinearOrderedField D] (weights : StdMap std_string (relevance_map_t D))
    (modality : std_string) (class_lbl : Nat) (lbl : Nat) : Bool :=
  match weight_of weights modality class_lbl lbl with
  | some w => decide (0.5 ≤ w)
  | none => false

/-- Modelled from the spec: `choice_of_soi` is declared in the header and defined in the missing
SurfaceOfInterest.cpp; it draws "uniformly among supervoxels whose weight (for the target class,
modality) exceeds a fixed interest threshold" ("interesting" = weight ≥ 0.5), "returns the
chosen label and its Substrate handle; fails (boolean false) if no supervoxel qualifies".
`draw` is the number the pseudo-random generator `_gen` produces for this call. -/
def choice_of_soi [LinearOrderedField D] (s : SurfaceOfInterest SV D) (modality : std_string)
    (class_lbl : Nat) (draw : Nat) (supervoxel : SV) (lbl : Nat) : Bool × SV × Nat :=
  let interesting := s._supervoxels.filter
    (fun sv => is_interesting s._weights modality class_lbl sv.1)
  match interesting[draw % interesting.length]? with
  | none => (false, supervoxel, lbl)
  | some sv => (true, sv.2, sv.1)

/-- The conversion of an integer to `size_t`. -/
def to_size_t (z : Int) : Nat := (z % 2 ^ 64).toNat

/-- The square of the Euclidean distance between two points. -/
def sq_dist {F : Type} [Ring F] (a b : F × F × F) : F :=
  (a.1 - b.1) ^ 2 + (a.2.1 - b.2.1) ^ 2 + (a.2.2 - b.2.2) ^ 2

/-- Modelled from the spec: the centroid of a region, the "mean of its member supervoxels'
centroids"; `centroid` reads the centroid of a supervoxel handle. -/
def region_centroid {F : Type} [Field F] (centroid : SV → F × F × F)
    (supervoxels : StdMap Nat SV) (region : List Nat) : F × F × F :=
  let pts := region.filterMap (fun l => (find supervoxels l).map centroid)
  ((pts.map (fun p => p.1)).sum / pts.length, (pts.map (fun p => p.2.1)).sum / pts.length,
    (pts.map (fun p => p.2.2)).sum / pts.length)

/-- Modelled from the spec: `get_closest_region` is declared in the header, with result type
`size_t`, and defined in the missing SurfaceOfInterest.cpp; it "returns the index of the region
whose centroid (mean of its member supervoxels' centroids) is nearest `center` in Euclidean
distance; returns a sentinel ("no region", e.g. -1) if `regions` is empty". -/
def get_closest_region {F : Type} [LinearOrderedField F] (centroid : SV → F × F × F)
    (s : SurfaceOfInterest SV D) (regions : List (List Nat)) (center : F × F × F) : Nat :=
  match first_min ((List.range regions.length).map (fun i =>
      (i, sq_dist (region_centroid centroid s._supervoxels (regions.getD i [])) center))) with
  | none => to_size_t (-1)
  | some (i, _) => to_size_t i

/-! ## Concrete scenes used to instantiate the theorems -/

/-- A two-class classifier answering `[0.3, 0.7]` for every feature. -/
def const_classifier : Classifier (List ℚ) ℚ := ⟨2, fun _ => [0.3, 0.7]⟩

/-- A two-class classifier whose answer depends on the feature: it prepends `3`. -/
def cons_classifier : Classifier (List ℚ) ℚ := ⟨2, fun x => 3 :: x⟩

/-- A multi-feature classifier: it answers with the number of modalities of the record. -/
def merge_classifier : Classifier (feature_record_t ℚ) ℚ :=
  ⟨1, fun record => [(record.length : ℚ)]⟩

/-- A classifier map naming two modalities the scene has ("a", "b") and two it has not
("Z" before them in key order, "c" after them). -/
def classifier_map : StdMap std_string (Classifier (List ℚ) ℚ) :=
  [("Z".toList, const_classifier), ("a".toList, cons_classifier),
   ("b".toList, const_classifier), ("c".toList, cons_classifier)]

/-- Two supervoxels with features for the modalities "a" and "b", and a stale relevance
map for "a" holding a label that is no longer a supervoxel. -/
def scene : SurfaceOfInterest Unit ℚ :=
  { _supervoxels := [(1, ()), (2, ())]
    _features := [(1, [("a".toList, [1]), ("b".toList, [5])]),
                  (2, [("a".toList, [2]), ("b".toList, [6])])]
    _weights := [("a".toList, [(9, [1, 1])])] }

/-- The adjacency of the four-supervoxel scenario: 1-2, 2-3, and 4 isolated. -/
def four_neighbors : Nat → List Nat
  | 1 => [2]
  | 2 => [1, 3]
  | 3 => [2]
  | _ => []

/-- The four-supervoxel scenario: class-0 weights 0.9, 0.8, 0.2 and 0.95 under modality "m". -/
def four : SurfaceOfInterest Unit ℚ :=
  { _supervoxels := [(1, ()), (2, ()), (3, ()), (4, ())]
    _features := []
    _weights := [("m".toList, [(1, [0.9]), (2, [0.8]), (3, [0.2]), (4, [0.95])])] }

/-- Three supervoxels of which only the first has a feature for modality "a"; the two others
have one for "b", which the first lacks. -/
def lopsided : SurfaceOfInterest Unit ℚ :=
  { _supervoxels := [(1, ()), (2, ()), (3, ())]
    _features := [(1, [("a".toList, [1])]), (2, [("b".toList, [6])]), (3, [("b".toList, [7])])]
    _weights := [] }

/-- A `computeSupervoxel` that succeeds and leaves the supervoxels as they are. -/
def computeSupervoxel_ok (b : SupervoxelSet Unit ℚ) (_ : Unit) : Bool × SupervoxelSet Unit ℚ :=
  (true, b)

/-- The two loops that end `_load_rgbd_images`, which merge `rgb_set` and `depth_set` into
`rgbd_set`. `Mat` is `cv::Mat` and `default` the empty image `cv::Mat()` that the locals
`rgb` and `depth` are before they are assigned. In the first loop `depth_set[itr->first]` is
evaluated on a key that `find` has just found, so it inserts nothing. -/
def merge_rgbd_set {T Mat : Type} [LinearOrder T] [Inhabited Mat]
    (rgb_set depth_set : StdMap T Mat) (rgbd_set : StdMap T (Mat × Mat)) :
    StdMap T (Mat × Mat) :=
  let first_loop := rgb_set.foldl
    (fun acc itr =>
      let depth : Mat :=
        if (find depth_set itr.1).isSome then (subscript depth_set itr.1).1 else default
      let rgb : Mat := itr.2
      emplace acc itr.1 (rgb, depth))
    rgbd_set
  depth_set.foldl
    (fun acc itr =>
      if (find acc itr.1).isSome then acc
      else
        let rgb : Mat := default
        let depth : Mat := itr.2
        emplace acc itr.1 (rgb, depth))
    first_loop

/-- The members of `BabblingDataset` that `load_dataset(int)` reads and writes. `Rgbd`, `Rects`
and `Arm` are `rgbd_set_t`, `rect_trajectories_t` and `arm_trajectories_t`; `default` is the
empty container. -/
structure BabblingDataset (Rgbd Rects Arm : Type) where
  _iterations_folders : StdMap Int std_string
  _per_iter_rect_set : StdMap Int Rects
  _per_iter_rgbd_set : StdMap Int Rgbd
  _per_iter_arm_traj : StdMap Int Arm
deriving DecidableEq

/-- The loop `for(auto itr = _iterations_folders.begin(); ...)` of `load_dataset(int)`, run
over the entries still to visit. `locals` are the local containers `images`, `rects` and
`arm_traj`, and `_load_data_iteration(folder, images, rects, arm_traj)` returns its result
and the three containers after the call. -/
def load_dataset_loop {Rgbd Rects Arm : Type} [Inhabited Rgbd] [Inhabited Rects] [Inhabited Arm]
    (_load_data_iteration : std_string → Rgbd × Rects × Arm → Bool × (Rgbd × Rects × Arm))
    (iteration : Int) :
    List (Int × std_string) → Rgbd × Rects × Arm → BabblingDataset Rgbd Rects Arm →
      Bool × BabblingDataset Rgbd Rects Arm
  | [], _, d => (true, d)
  | itr :: rest, locals, d =>
    let r := _load_data_iteration itr.2 locals
    if !r.1 then (false, d)
    else
      load_dataset_loop _load_data_iteration iteration rest (default, default, default)
        { d with
          _per_iter_rect_set := emplace d._per_iter_rect_set itr.1 r.2.2.1
          _per_iter_rgbd_set := emplace d._per_iter_rgbd_set itr.1 r.2.1
          _per_iter_arm_traj := emplace d._per_iter_arm_traj iteration r.2.2.2 }

/-- `load_dataset(int iteration)`: the result and the object after the call. -/
def load_dataset {Rgbd Rects Arm : Type} [Inhabited Rgbd] [Inhabited Rects] [Inhabited Arm]
    (_load_data_iteration : std_string → Rgbd × Rects × Arm → Bool × (Rgbd × Rects × Arm))
    (d : BabblingDataset Rgbd Rects Arm) (iteration : Int) :
    Bool × BabblingDataset Rgbd Rects Arm :=
  if 0 < iteration then
    let folder := subscript d._iterations_folders iteration
    let d1 := { d with _iterations_folders := folder.2 }
    let r := _load_data_iteration folder.1 (default, default, default)
    if !r.1 then (false, d1)
    else
      (true, { d1 with
        _per_iter_rect_set := emplace d1._per_iter_rect_set iteration r.2.2.1
        _per_iter_rgbd_set := emplace d1._per_iter_rgbd_set iteration r.2.1
        _per_iter_arm_traj := emplace d1._per_iter_arm_traj iteration r.2.2.2 })
  else
    load_dataset_loop _load_data_iteration iteration d._iterations_folders
      (default, default, default) d

/-- A `cv::Mat`: its numbers of rows and columns and its elements, row by row. -/
structure Mat (α : Type) where
  rows : Nat
  cols : Nat
  data : List (List α)
deriving DecidableEq

/-- `cv::Rect`. -/
structure Rect where
  x : Int
  y : Int
  width : Int
  height : Int
deriving DecidableEq

/-- The constructor `cv::Mat(m, roi)`: the sub-image of `m` inside the rectangle `roi`;
`none` when the rectangle is not inside the image, where OpenCV throws. -/
def Mat.roi {α : Type} (m : Mat α) (roi : Rect) : Option (Mat α) :=
  if 0 ≤ roi.x ∧ 0 ≤ roi.width ∧ roi.x + roi.width ≤ m.cols ∧
      0 ≤ roi.y ∧ 0 ≤ roi.height ∧ roi.y + roi.height ≤ m.rows then
    some
      { rows := roi.height.toNat
        cols := roi.width.toNat
        data := ((m.data.drop roi.y.toNat).take roi.height.toNat).map
          (fun row => (row.drop roi.x.toNat).take roi.width.toNat) }
  else none

/-- The point type `PointT`: coordinates and colour. -/
structure PointT (D : Type) where
  x : D
  y : D
  z : D
  r : Nat
  g : Nat
  b : Nat
  a : Nat
deriving DecidableEq

/-- A `pcl::PointCloud<PointT>`. -/
structure PointCloudT (D : Type) where
  width : Nat
  height : Nat
  points : List (PointT D)
deriving DecidableEq

instance instInhabitedPointCloudT {D : Type} : Inhabited (PointCloudT D) := ⟨⟨0, 0, []⟩⟩

/-- `cloud.push_back(pt)` of PCL: the point is appended, `width` becomes the number of points
and `height` becomes 1. -/
def PointCloudT.push_back {D : Type} (cloud : PointCloudT D) (pt : PointT D) : PointCloudT D :=
  { width := cloud.points.length + 1, height := 1, points := cloud.points ++ [pt] }

/-- The four entries of `_camera_parameter["depth"]` that `rgbd_to_pointcloud` reads. -/
structure CameraParameter (D : Type) where
  center_x : D
  center_y : D
  focal_x : D
  focal_y : D

/-- `rgbd_to_pointcloud(rgb, depth, ptcl)`: the cloud `*ptcl` after the call. A pixel of `rgb`
is the list of its channel bytes, an element of `depth` is a `float`, `none` standing for NaN.
The result is `none` when a read falls outside a row or outside a pixel. -/
def rgbd_to_pointcloud {D : Type} [Field D] (camera : CameraParameter D)
    (rgb : Mat (List Nat)) (depth : Mat (Option D)) (ptcl : PointCloudT D) :
    Option (PointCloudT D) :=
  (List.range rgb.rows).foldlM
    (fun cloud i =>
      (List.range rgb.cols).foldlM
        (fun (cloud : PointCloudT D) j =>
          match (depth.data.getD i [])[j]? with
          | none => none
          | some none => some cloud
          | some (some z) =>
            let px := (rgb.data.getD i []).getD j []
            match px[2]?, px[1]?, px[0]? with
            | some r, some g, some b =>
              some (cloud.push_back
                { x := ((i : D) - camera.center_x) * z / camera.focal_x
                  y := ((j : D) - camera.center_y) * z / camera.focal_y
                  z := z
                  r := r
                  g := g
                  b := b
                  a := 255 })
            | _, _, _ => none)
        cloud)
    { ptcl with width := rgb.cols, height := rgb.rows }

/-- `extract_cloud(rgbd_iter, rect_iter)`, the two iterators being given as the entries they
point to. The state of the loop is the cloud `*cloud_tmp` and the vector `res.second`. -/
def extract_cloud {T D : Type} [Field D] (camera : CameraParameter D)
    (rgbd_iter : T × (Mat (List Nat) × Mat (Option D))) (rect_iter : T × List Rect) :
    Option (T × List (PointCloudT D)) :=
  ((List.range rect_iter.2.length).foldlM
    (fun (st : PointCloudT D × List (PointCloudT D)) i =>
      match rect_iter.2[i]? with
      | none => none
      | some rect =>
        match rgbd_iter.2.1.roi rect, rgbd_iter.2.2.roi rect with
        | some rgb, some depth =>
          (rgbd_to_pointcloud camera rgb depth st.1).map
            (fun cloud_tmp => (cloud_tmp, st.2.set i cloud_tmp))
        | _, _ => none)
    (default, List.replicate rect_iter.2.length default)).map
    (fun (st : PointCloudT D × List (PointCloudT D)) => (rgbd_iter.1, st.2))

/-- A loader that succeeds on every folder and puts the folder name into each container. -/
def tag_loader (folder : std_string)
    (locals : List std_string × List std_string × List std_string) :
    Bool × (List std_string × List std_string × List std_string) :=
  (true, (folder :: locals.1, folder :: locals.2.1, folder :: locals.2.2))

/-- A dataset with the folders of iterations 1 and 2 and nothing loaded yet. -/
def two_folders : BabblingDataset (List std_string) (List std_string) (List std_string) :=
  { _iterations_folders := [(1, "iteration_1".toList), (2, "iteration_2".toList)]
    _per_iter_rect_set := []
    _per_iter_rgbd_set := []
    _per_iter_arm_traj := [] }

/-- A camera with principal point `(0, 0)` and focal lengths `1`. -/
def unit_camera : CameraParameter ℚ := ⟨0, 0, 1, 1⟩

/-- A frame taken at time 7: a colour image of one row and two pixels, and its depths 1 and 2. -/
def two_pixel_frame : ℚ × (Mat (List Nat) × Mat (Option ℚ)) :=
  (7, (⟨1, 2, [[[10, 20, 30], [40, 50, 60]]]⟩, ⟨1, 2, [[some 1, some 2]]⟩))

/-- Two rectangles at time 7, one around each pixel of `two_pixel_frame`. -/
def two_rects : ℚ × List Rect := (7, [⟨0, 0, 1, 1⟩, ⟨1, 0, 1, 1⟩])

end image_processing

namespace robotsthatdream

/-- `Eigen::Matrix3f`, `m i j` standing for `m(i, j)`. A `float` is a real number: the
arithmetic and the trigonometry are exact. -/
abbrev Matrix3f := Matrix (Fin 3) (Fin 3) ℝ

/-- `atan2(y, x)` of the C library on real numbers: the angle in `(-π, π]` of the point
`(x, y)`, and `0` at the origin. -/
noncomputable def atan2 (y x : ℝ) : ℝ := Complex.arg ⟨x, y⟩

/-- `hypot(x, y)` of the C library. -/
noncomputable def hypot (x y : ℝ) : ℝ := Real.sqrt (x ^ 2 + y ^ 2)

/-- The three angles `matrix_to_angles` writes into its reference parameters. -/
structure Angles where
  yaw : ℝ
  pitch : ℝ
  roll : ℝ

/-- `matrix_to_angles(m, yaw, pitch, roll)`. -/
noncomputable def matrix_to_angles (m : Matrix3f) : Angles :=
  { yaw := atan2 (m 1 0) (m 0 0)
    pitch := atan2 (m 2 0) (m 2 2)
    roll := atan2 (m 2 1) (hypot (m 2 0) (m 2 2)) }

/-- The rotation matrix of `Eigen::AngleAxisf(a, Eigen::Vector3f::UnitZ())`. -/
noncomputable def AngleAxisf_UnitZ (a : ℝ) : Matrix3f :=
  Matrix.of ![![Real.cos a, -Real.sin a, 0], ![Real.sin a, Real.cos a, 0], ![0, 0, 1]]

/-- The rotation matrix of `Eigen::AngleAxisf(a, Eigen::Vector3f::UnitY())`. -/
noncomputable def AngleAxisf_UnitY (a : ℝ) : Matrix3f :=
  Matrix.of ![![Real.cos a, 0, Real.sin a], ![0, 1, 0], ![-Real.sin a, 0, Real.cos a]]

/-- The rotation matrix of `Eigen::AngleAxisf(a, Eigen::Vector3f::UnitX())`. -/
noncomputable def AngleAxisf_UnitX (a : ℝ) : Matrix3f :=
  Matrix.of ![![1, 0, 0], ![0, Real.cos a, -Real.sin a], ![0, Real.sin a, Real.cos a]]

/-- `angles_to_matrix(yaw, pitch, roll, m)`: the matrix written into `m`. -/
noncomputable def angles_to_matrix (yaw pitch roll : ℝ) : Matrix3f :=
  AngleAxisf_UnitZ yaw * AngleAxisf_UnitY (-pitch) * AngleAxisf_UnitX roll

/-- The half turn about the X axis, the proper rotation that sends Y to -Y and Z to -Z. -/
noncomputable def half_turn_about_X : Matrix3f :=
  Matrix.of ![![1, 0, 0], ![0, -1, 0], ![0, 0, -1]]

end robotsthatdream

namespace image_processing
open StdMap

/-! ## Lemmas on `std::map` and on the loops of the engine -/

section MapLemmas
variable {K V : Type}

theorem find_insert_or_assign [LinearOrder K] (m : StdMap K V) (k k' : K) (v : V) :
    find (insert_or_assign m k v) k' = if k = k' then some v else find m k' := by
  induction m with
  | nil => simp [insert_or_assign, find]
  | cons e t ih =>
    obtain ⟨a, b⟩ := e
    simp only [insert_or_assign]
    by_cases hk : k = k'
    · subst hk
      by_cases h1 : k < a
      · simp [find, h1]
      · by_cases h2 : k = a
        · simp [find, h1, h2]
        · have : a ≠ k := fun h => h2 h.symm
          simp [find, h1, h2, this, ih]
    · by_cases h1 : k < a
      · simp [find, h1, hk]
      · by_cases h2 : k = a
        · subst h2; simp [find, hk]
        · simp [find, h1, h2, hk, ih]

theorem find_insert_or_assign_self [LinearOrder K] (m : StdMap K V) (k : K) (v : V) :
    find (insert_or_assign m k v) k = some v := by
  rw [find_insert_or_assign, if_pos rfl]

theorem insert_or_assign_twice [LinearOrder K] (m : StdMap K V) (k : K) (d v : V) :
    insert_or_assign (insert_or_assign m k d) k v = insert_or_assign m k v := by
  induction m with
  | nil => simp [insert_or_assign]
  | cons e t ih =>
    obtain ⟨a, b⟩ := e
    simp only [insert_or_assign]
    split_ifs with h1 h2
    · simp [insert_or_assign]
    · simp [insert_or_assign]
    · simp [insert_or_assign, h1, h2, ih]

theorem keys_insert_or_assign_lower [LinearOrder K] (m : StdMap K V) (k : K) (v : V) (b : K)
    (hb : b < k) (hm : ∀ x ∈ keys m, b < x) : ∀ x ∈ keys (insert_or_assign m k v), b < x := by
  induction m with
  | nil => simp [insert_or_assign, keys, hb]
  | cons e t ih =>
    obtain ⟨a, c⟩ := e
    simp only [keys, List.map_cons, List.mem_cons, forall_eq_or_imp] at hm
    simp only [insert_or_assign]
    split_ifs with h1 h2
    · simp only [keys, List.map_cons, List.mem_cons, forall_eq_or_imp]
      exact ⟨hb, hm.1, hm.2⟩
    · simp only [keys, List.map_cons, List.mem_cons, forall_eq_or_imp]
      exact ⟨hb, hm.2⟩
    · simp only [keys, List.map_cons, List.mem_cons, forall_eq_or_imp]
      exact ⟨hm.1, ih hm.2⟩

theorem WF_insert_or_assign [LinearOrder K] (m : StdMap K V) (k : K) (v : V) (h : WF m) :
    WF (insert_or_assign m k v) := by
  induction m with
  | nil => simp [insert_or_assign, WF, keys]
  | cons e t ih =>
    obtain ⟨a, c⟩ := e
    have h' : (∀ x ∈ keys t, a < x) ∧ WF t := by
      simpa [WF, keys, List.sorted_cons] using h
    simp only [insert_or_assign]
    split_ifs with h1 h2
    · simp only [WF, keys, List.map_cons, List.sorted_cons, List.mem_cons, forall_eq_or_imp]
      refine ⟨⟨h1, fun x hx => lt_trans h1 (h'.1 x hx)⟩, ?_⟩
      simpa [WF, keys, List.sorted_cons] using h
    · subst h2
      simpa [WF, keys, List.sorted_cons] using h
    · have hak : a < k := lt_of_le_of_ne (not_lt.mp h1) (fun e => h2 e.symm)
      have := keys_insert_or_assign_lower t k v a hak h'.1
      simp only [WF, keys, List.map_cons, List.sorted_cons]
      exact ⟨this, ih h'.2⟩

theorem find_eq_none_of_lt [LinearOrder K] (m : StdMap K V) (k : K)
    (h : ∀ x ∈ keys m, k < x) : find m k = none := by
  induction m with
  | nil => rfl
  | cons e t ih =>
    obtain ⟨a, c⟩ := e
    simp only [keys, List.map_cons, List.mem_cons, forall_eq_or_imp] at h
    have : a ≠ k := fun e => (lt_irrefl k) (e ▸ h.1)
    simp [find, this, ih h.2]

theorem find_isSome_iff [LinearOrder K] (m : StdMap K V) (k : K) :
    (find m k).isSome ↔ k ∈ keys m := by
  induction m with
  | nil => simp [find, keys]
  | cons e t ih =>
    obtain ⟨a, c⟩ := e
    by_cases h : a = k
    · simp [find, keys, h]
    · have h' : ¬ k = a := fun e => h e.symm
      simp [find, h, h', keys] at *
      exact ih

/-- Two well-formed maps with the same lookups are the same map. -/
theorem WF_ext [LinearOrder K] : ∀ (m₁ m₂ : StdMap K V), WF m₁ → WF m₂ →
    (∀ k, find m₁ k = find m₂ k) → m₁ = m₂
  | [], [], _, _, _ => rfl
  | [], (a, c) :: t, _, _, h => by have := h a; simp [find] at this
  | (a, c) :: t, [], _, _, h => by have := h a; simp [find] at this
  | (a₁, c₁) :: t₁, (a₂, c₂) :: t₂, h₁, h₂, h => by
    have w₁ : (∀ x ∈ keys t₁, a₁ < x) ∧ WF t₁ := by
      simpa [WF, keys, List.sorted_cons] using h₁
    have w₂ : (∀ x ∈ keys t₂, a₂ < x) ∧ WF t₂ := by
      simpa [WF, keys, List.sorted_cons] using h₂
    have hk : a₁ = a₂ := by
      rcases lt_trichotomy a₁ a₂ with hlt | heq | hgt
      · exfalso
        have := h a₁
        have hne : a₂ ≠ a₁ := fun e => (lt_irrefl a₁) (e ▸ hlt)
        rw [find, if_pos rfl, find, if_neg hne,
          find_eq_none_of_lt t₂ a₁ (fun x hx => lt_trans hlt (w₂.1 x hx))] at this
        cases this
      · exact heq
      · exfalso
        have := h a₂
        have hne : a₁ ≠ a₂ := fun e => (lt_irrefl a₂) (e ▸ hgt)
        rw [find, if_neg hne, find, if_pos rfl,
          find_eq_none_of_lt t₁ a₂ (fun x hx => lt_trans hgt (w₁.1 x hx))] at this
        cases this
    subst hk
    have hc : c₁ = c₂ := by
      have := h a₁
      simpa [find] using this
    subst hc
    have ht : t₁ = t₂ := by
      apply WF_ext t₁ t₂ w₁.2 w₂.2
      intro k
      by_cases hka : a₁ = k
      · subst hka
        rw [find_eq_none_of_lt t₁ a₁ w₁.1, find_eq_none_of_lt t₂ a₁ w₂.1]
      · have := h k
        simpa [find, hka] using this
    rw [ht]

theorem modify_eq [LinearOrder K] [Inhabited V] (m : StdMap K V) (k : K) (f : V → V) :
    StdMap.modify m k f = insert_or_assign m k (f ((find m k).getD default)) := by
  unfold StdMap.modify subscript
  cases hf : find m k with
  | none => simp [insert_or_assign_twice]
  | some v => simp

end MapLemmas

section MapLemmas2
variable {K V : Type}

theorem find_emplace [LinearOrder K] (m : StdMap K V) (k k' : K) (v : V) :
    find (emplace m k v) k' =
      if (find m k').isSome then find m k' else if k = k' then some v else none := by
  unfold emplace
  cases hf : find m k with
  | none =>
    simp only [find_insert_or_assign]
    by_cases hk : k = k'
    · subst hk; simp [hf]
    · cases hf' : find m k' <;> simp [hk]
  | some x =>
    simp only
    by_cases hk : k = k'
    · subst hk; simp [hf]
    · cases hf' : find m k' <;> simp [hk]

theorem WF_emplace [LinearOrder K] (m : StdMap K V) (k : K) (v : V) (h : WF m) :
    WF (emplace m k v) := by
  unfold emplace
  cases find m k with
  | none => exact WF_insert_or_assign m k v h
  | some x => exact h

theorem modify_insert_or_assign [LinearOrder K] [Inhabited V] (m : StdMap K V) (k : K) (r : V)
    (f : V → V) :
    StdMap.modify (insert_or_assign m k r) k f = insert_or_assign m k (f r) := by
  rw [modify_eq, find_insert_or_assign, if_pos rfl, insert_or_assign_twice]
  rfl

theorem find_foldl_emplace [LinearOrder K] (ls : List K) (g : K → V) (r : StdMap K V) (k : K) :
    find (ls.foldl (fun r l => emplace r l (g l)) r) k =
      if (find r k).isSome then find r k else if k ∈ ls then some (g k) else none := by
  induction ls generalizing r with
  | nil => cases h : find r k <;> simp [h]
  | cons a t ih =>
    rw [List.foldl_cons, ih, find_emplace]
    by_cases hk : a = k
    · subst hk; cases h : find r a <;> simp
    · have hk' : ¬ k = a := fun e => hk e.symm
      cases h : find r k <;> simp [hk, hk']

theorem WF_foldl_emplace [LinearOrder K] (ls : List K) (g : K → V) (r : StdMap K V) (h : WF r) :
    WF (ls.foldl (fun r l => emplace r l (g l)) r) := by
  induction ls generalizing r with
  | nil => exact h
  | cons a t ih => exact ih _ (WF_emplace r a _ h)

theorem find_foldl_assign [LinearOrder K] (ls : List K) (g : K → V) (r : StdMap K V) (k : K) :
    find (ls.foldl (fun r l => insert_or_assign r l (g l)) r) k =
      if k ∈ ls then some (g k) else find r k := by
  induction ls generalizing r with
  | nil => simp
  | cons a t ih =>
    rw [List.foldl_cons, ih, find_insert_or_assign]
    by_cases hk : a = k
    · subst hk; simp
    · have hk' : ¬ k = a := fun e => hk e.symm
      simp [hk, hk']

theorem WF_foldl_assign [LinearOrder K] (ls : List K) (g : K → V) (r : StdMap K V) (h : WF r) :
    WF (ls.foldl (fun r l => insert_or_assign r l (g l)) r) := by
  induction ls generalizing r with
  | nil => exact h
  | cons a t ih => exact ih _ (WF_insert_or_assign r a _ h)

end MapLemmas2

section Engine
variable {SV D : Type}

theorem keys_relevance_of (sv : StdMap Nat SV) (g : Nat → List D) :
    keys (relevance_of sv g) = keys sv := by
  simp [relevance_of, keys, List.map_map, Function.comp_def]

theorem WF_relevance_of (sv : StdMap Nat SV) (g : Nat → List D) (h : WF sv) :
    WF (relevance_of sv g) := by
  unfold WF; rw [keys_relevance_of]; exact h

theorem find_relevance_of (sv : StdMap Nat SV) (g : Nat → List D) (k : Nat) :
    find (relevance_of sv g) k = if k ∈ keys sv then some (g k) else none := by
  induction sv with
  | nil => simp [relevance_of, find, keys]
  | cons e t ih =>
    obtain ⟨a, c⟩ := e
    have ih' : find (List.map (fun sv => (sv.1, g sv.1)) t) k
        = if k ∈ List.map Prod.fst t then some (g k) else none := by
      simpa [relevance_of, keys] using ih
    by_cases hk : a = k
    · subst hk; simp [relevance_of, find, keys]
    · have hk' : ¬ k = a := fun e => hk e.symm
      simp only [relevance_of, find, keys, List.map_cons, if_neg hk, List.mem_cons, hk', false_or]
      exact ih'

/-- Pre-population followed by the per-label writes, on the relevance map itself. -/
theorem assign_emplace_eq_relevance_of (sv : StdMap Nat SV) (g : Nat → List D) (init : List D)
    (lbls : List Nat) (hsv : WF sv) (hl : ∀ k, k ∈ lbls ↔ k ∈ keys sv) :
    lbls.foldl (fun r l => insert_or_assign r l (g l))
      ((keys sv).foldl (fun r l => emplace r l init) []) = relevance_of sv g := by
  apply WF_ext
  · apply WF_foldl_assign
    apply WF_foldl_emplace (keys sv) (fun _ => init)
    simp [WF, keys]
  · exact WF_relevance_of sv g hsv
  · intro k
    rw [find_foldl_assign, find_foldl_emplace (keys sv) (fun _ => init), find_relevance_of]
    by_cases hk : k ∈ keys sv
    · simp [hk, (hl k).2 hk]
    · have : k ∉ lbls := fun h => hk ((hl k).1 h)
      simp [hk, this, find]

theorem reset_weights_eq (w : StdMap std_string (relevance_map_t D)) (m : std_string) :
    reset_weights w m = insert_or_assign w m [] := by
  unfold reset_weights
  simp [modify_eq]

theorem prepopulate_eq (sv : StdMap Nat SV) (m : std_string) (init : List D)
    (w : StdMap std_string (relevance_map_t D)) (r : relevance_map_t D) :
    prepopulate sv m init (insert_or_assign w m r) =
      (keys sv, insert_or_assign w m ((keys sv).foldl (fun r l => emplace r l init) r)) := by
  unfold prepopulate
  have gen : ∀ (sv : StdMap Nat SV) (pre : List Nat) (r : relevance_map_t D),
      sv.foldl (fun (acc : List Nat × StdMap std_string (relevance_map_t D)) sv =>
          (acc.1 ++ [sv.1], StdMap.modify acc.2 m (fun r => emplace r sv.1 init)))
        (pre, insert_or_assign w m r) =
      (pre ++ keys sv,
        insert_or_assign w m ((keys sv).foldl (fun r l => emplace r l init) r)) := by
    intro sv
    induction sv with
    | nil => intro pre r; simp [keys]
    | cons e t ih =>
      intro pre r
      rw [List.foldl_cons]
      simp only [modify_insert_or_assign]
      rw [ih]
      simp [keys]
  simpa using gen sv [] r

theorem read_feature_fst (f : StdMap Nat (feature_record_t D)) (l : Nat) (m : std_string) :
    (read_feature f l m).1 = feature_at f l m := by
  unfold read_feature feature_at subscript
  cases h1 : find f l with
  | none => simp [find]; rfl
  | some r =>
    simp only [Option.getD_some]
    cases h2 : find r m with
    | none => simp; rfl
    | some x => simp

theorem read_feature_snd (f : StdMap Nat (feature_record_t D)) (l : Nat) (m : std_string) :
    (read_feature f l m).2 =
      insert_or_assign f l (subscript (record_at f l) m).2 := by
  unfold read_feature record_at
  cases h1 : find f l with
  | none => simp [subscript, h1, insert_or_assign_twice]; rfl
  | some r => simp [subscript, h1]

theorem find_subscript_snd (r : feature_record_t D) (m m' : std_string) :
    (find (subscript r m).2 m').getD [] = (find r m').getD [] := by
  unfold subscript
  cases h2 : find r m with
  | some x => simp
  | none =>
    simp only [find_insert_or_assign]
    by_cases hm : m = m'
    · subst hm; simp [h2]; rfl
    · simp [hm]

theorem feature_at_read_feature (f : StdMap Nat (feature_record_t D)) (l l' : Nat)
    (m m' : std_string) :
    feature_at (read_feature f l m).2 l' m' = feature_at f l' m' := by
  rw [read_feature_snd]
  unfold feature_at
  rw [find_insert_or_assign]
  by_cases hl : l = l'
  · subst hl
    rw [if_pos rfl, Option.getD_some, find_subscript_snd]
    rfl
  · rw [if_neg hl]

theorem per_label_eq (m : std_string) (c : Classifier (List D) D) (g : Nat → List D)
    (w : StdMap std_string (relevance_map_t D)) :
    ∀ (lbls : List Nat) (f : StdMap Nat (feature_record_t D)) (r : relevance_map_t D),
      (∀ l, feature_at f l m = g l) →
      (per_label m c lbls f (insert_or_assign w m r)).2 =
        insert_or_assign w m (lbls.foldl
          (fun r l => insert_or_assign r l (c.compute_estimation (g l))) r) := by
  intro lbls
  induction lbls with
  | nil => intro f r _; simp [per_label]
  | cons a t ih =>
    intro f r hg
    have step : per_label m c (a :: t) f (insert_or_assign w m r) =
        per_label m c t (read_feature f a m).2
          (insert_or_assign w m (insert_or_assign r a (c.compute_estimation (g a)))) := by
      unfold per_label
      rw [List.foldl_cons]
      simp only []
      rw [modify_insert_or_assign, modify_eq, read_feature_fst, hg]
    rw [step, ih]
    · rfl
    · intro l; rw [feature_at_read_feature]; exact hg l

end Engine
section Engine2
variable {SV D : Type}

theorem WF_nil {K V : Type} [LT K] : WF ([] : StdMap K V) := by
  simp [WF, keys]

theorem per_label_fst (m : std_string) (c : Classifier (List D) D) :
    ∀ (lbls : List Nat) (f : StdMap Nat (feature_record_t D))
      (w : StdMap std_string (relevance_map_t D)),
      (per_label m c lbls f w).1 = touch_features m lbls f := by
  intro lbls
  induction lbls with
  | nil => intro f w; rfl
  | cons a t ih =>
    intro f w
    have := ih (read_feature f a m).2
      (StdMap.modify w m (fun r => StdMap.modify r a
        (fun _ => c.compute_estimation (read_feature f a m).1)))
    unfold per_label touch_features at this ⊢
    rw [List.foldl_cons, List.foldl_cons]
    exact this

theorem feature_at_touch_features (m : std_string) (lbls : List Nat)
    (f : StdMap Nat (feature_record_t D)) (l : Nat) (m' : std_string) :
    feature_at (touch_features m lbls f) l m' = feature_at f l m' := by
  induction lbls generalizing f with
  | nil => rfl
  | cons a t ih =>
    unfold touch_features at ih ⊢
    rw [List.foldl_cons, ih, feature_at_read_feature]

theorem known_modality_iff (f : StdMap Nat (feature_record_t D)) (m : std_string) :
    known_modality f m = true ↔
      ∃ l first t, f = (l, first) :: t ∧ (find first m).isSome = true := by
  cases f with
  | nil => simp [known_modality]
  | cons e t =>
    obtain ⟨l, first⟩ := e
    constructor
    · intro h; exact ⟨l, first, t, rfl, h⟩
    · rintro ⟨l', first', t', he, h⟩
      cases he
      exact h

/-- The single-classifier variant on a known modality, in closed form. -/
theorem compute_weights_known [OfScientific D] (s : SurfaceOfInterest SV D) (m : std_string)
    (c : Classifier (List D) D) (hk : known_modality s._features m = true) :
    compute_weights s m c = some
      { _supervoxels := s._supervoxels
        _features := touch_features m (keys s._supervoxels) s._features
        _weights := insert_or_assign s._weights m
          ((keys s._supervoxels).foldl
            (fun r l => insert_or_assign r l
              (c.compute_estimation (feature_at s._features l m)))
            ((keys s._supervoxels).foldl
              (fun r l => emplace r l (List.replicate c.get_nbr_class (0.5 : D))) [])) } := by
  obtain ⟨l, first, t, hf, hm⟩ := (known_modality_iff _ _).1 hk
  unfold compute_weights
  rw [hf]
  have hn : (find first m).isNone = false := by
    cases h : find first m <;> simp [h] at hm ⊢
  simp only [hn, Bool.false_eq_true, if_false]
  rw [← hf, reset_weights_eq, prepopulate_eq]
  simp only [per_label_fst]
  rw [per_label_eq m c (fun l => feature_at s._features l m) _ _ _ _ (fun _ => rfl)]

/-- The single- and two-classifier variants on an unknown modality. -/
theorem compute_weights_unknown [OfScientific D] (s : SurfaceOfInterest SV D) (m : std_string)
    (c : Classifier (List D) D) (hne : s._features ≠ [])
    (hk : known_modality s._features m = false) :
    compute_weights s m c = some s := by
  unfold compute_weights
  cases hf : s._features with
  | nil => exact absurd hf hne
  | cons e t =>
    obtain ⟨l, first⟩ := e
    rw [hf] at hk
    have hn : (find first m).isNone = true := by
      cases h : find first m <;> simp [known_modality, h] at hk ⊢
    simp [hn]

end Engine2
section Product
variable {D : Type}

/-- The estimation vector after the first `j` rounds of the product loop. -/
theorem product_loop_rounds [Mul D] (ce es : List D) (hlen : es.length ≤ ce.length) :
    ∀ j, j ≤ es.length →
      (List.range j).foldlM
        (fun est k =>
          match ce[k]?, est[k]? with
          | some a, some b => some (est.set k (a * b))
          | _, _ => none) es
      = some ((List.zipWith (fun a b => a * b) ce es).take j ++ es.drop j) := by
  intro j
  induction j with
  | zero => intro _; simp
  | succ j ih =>
    intro hj
    have hj1 : j < es.length := hj
    have hj2 : j < ce.length := lt_of_lt_of_le hj1 hlen
    rw [List.range_succ, List.foldlM_append, ih (Nat.le_of_lt hj1)]
    have hz : j < (List.zipWith (fun a b => a * b) ce es).length := by
      simp [List.length_zipWith]; exact ⟨hj2, hj1⟩
    have h1 : ce[j]? = some ce[j] := List.getElem?_eq_getElem hj2
    have htl : ((List.zipWith (fun a b => a * b) ce es).take j).length = j := by
      simp [List.length_take]; exact ⟨Nat.le_of_lt hj2, Nat.le_of_lt hj1⟩
    have h2 : ((List.zipWith (fun a b => a * b) ce es).take j ++ es.drop j)[j]? = some es[j] := by
      rw [List.getElem?_append_right (by omega)]
      simp [htl, List.getElem?_drop, List.getElem?_eq_getElem hj1]
    simp only [List.foldlM_cons, List.foldlM_nil, Option.some_bind, Option.bind_eq_bind, h1, h2]
    congr 1
    apply List.ext_getElem?
    intro i
    rw [List.getElem?_set]
    by_cases hi : j = i
    · subst hi
      have hlt : j < ((List.zipWith (fun a b => a * b) ce es).take j ++ es.drop j).length := by
        simp [htl]; omega
      simp only [if_pos, hlt]
      rw [List.getElem?_append_left (by simp; omega)]
      simp [List.getElem?_take, hj1, hj2]
    · simp only [if_neg hi]
      by_cases hlt : i < j
      · rw [List.getElem?_append_left (by simp; omega),
          List.getElem?_append_left (by simp; omega)]
        simp [List.getElem?_take, hlt, Nat.lt_succ_of_lt hlt]
      · have hgt : j + 1 ≤ i := by omega
        rw [List.getElem?_append_right (by simp; omega),
          List.getElem?_append_right (by simp; omega)]
        simp only [List.getElem?_drop, List.length_take, List.length_zipWith]
        congr 1
        omega

theorem product_loop_eq [Mul D] (ce es : List D) (hlen : es.length ≤ ce.length) :
    product_loop ce es = some (List.zipWith (fun a b => a * b) ce es) := by
  unfold product_loop
  rw [product_loop_rounds ce es hlen es.length (le_refl _)]
  simp [List.take_of_length_le, List.length_zipWith, hlen]

end Product
section Comp
variable {SV D : Type}

theorem known_modality_read_feature (f : StdMap Nat (feature_record_t D)) (l : Nat)
    (m : std_string) (hk : known_modality f m = true) :
    known_modality (read_feature f l m).2 m = true := by
  obtain ⟨l0, first, t, hf, hm⟩ := (known_modality_iff _ _).1 hk
  have hsub : (find (subscript (record_at f l) m).2 m).isSome = true := by
    unfold subscript
    cases h : find (record_at f l) m with
    | none => simp [find_insert_or_assign]
    | some x => simp [h]
  rw [read_feature_snd]
  subst hf
  simp only [insert_or_assign]
  by_cases h1 : l < l0
  · simp only [if_pos h1, known_modality]; exact hsub
  · by_cases h2 : l = l0
    · simp only [if_neg h1, if_pos h2, known_modality]; exact hsub
    · simp only [if_neg h1, if_neg h2, known_modality]; exact hm

theorem known_modality_touch_features (m : std_string) (lbls : List Nat)
    (f : StdMap Nat (feature_record_t D)) (hk : known_modality f m = true) :
    known_modality (touch_features m lbls f) m = true := by
  induction lbls generalizing f with
  | nil => exact hk
  | cons a t ih =>
    unfold touch_features at ih ⊢
    rw [List.foldl_cons]
    exact ih _ (known_modality_read_feature f a m hk)

theorem per_label_comp_eq [Mul D] (m : std_string) (c comp : Classifier (List D) D)
    (g : Nat → List D) (w : StdMap std_string (relevance_map_t D)) :
    ∀ (lbls : List Nat) (f : StdMap Nat (feature_record_t D)) (r : relevance_map_t D),
      (∀ l, feature_at f l m = g l) →
      per_label_comp m c comp lbls f (insert_or_assign w m r) =
        if lbls.all (fun l =>
            (product_loop (comp.compute_estimation (g l)) (c.compute_estimation (g l))).isSome)
        then some (touch_features m (lbls.foldr (fun l acc => l :: l :: acc) []) f,
          insert_or_assign w m (lbls.foldl
            (fun r l => insert_or_assign r l
              ((product_loop (comp.compute_estimation (g l))
                (c.compute_estimation (g l))).getD [])) r))
        else none := by
  intro lbls
  induction lbls with
  | nil => intro f r _; simp [per_label_comp, touch_features]
  | cons a t ih =>
    intro f r hg
    have hg1 : ∀ l, feature_at (read_feature f a m).2 l m = g l := by
      intro l; rw [feature_at_read_feature]; exact hg l
    have hg2 : ∀ l, feature_at (read_feature (read_feature f a m).2 a m).2 l m = g l := by
      intro l; rw [feature_at_read_feature]; exact hg1 l
    have step : per_label_comp m c comp (a :: t) f (insert_or_assign w m r) =
        (product_loop (comp.compute_estimation (g a)) (c.compute_estimation (g a))).bind
          (fun v => per_label_comp m c comp t (read_feature (read_feature f a m).2 a m).2
            (insert_or_assign w m (insert_or_assign r a v))) := by
      unfold per_label_comp
      rw [List.foldlM_cons]
      simp only []
      rw [read_feature_fst f a m, hg a, read_feature_fst (read_feature f a m).2 a m, hg1 a]
      cases hp : product_loop (comp.compute_estimation (g a)) (c.compute_estimation (g a)) with
      | none => rfl
      | some v =>
        simp only [Option.some_bind, Option.bind_eq_bind]
        rw [modify_insert_or_assign, modify_eq]
    rw [step]
    cases hp : product_loop (comp.compute_estimation (g a)) (c.compute_estimation (g a)) with
    | none => simp [hp]
    | some v =>
      rw [Option.some_bind, ih _ _ hg2]
      simp [hp, touch_features]

theorem compute_weights_comp_known [OfScientific D] [Mul D] (s : SurfaceOfInterest SV D)
    (m : std_string) (c comp : Classifier (List D) D)
    (hk : known_modality s._features m = true) :
    compute_weights_comp s m c comp =
      if (keys s._supervoxels).all (fun l =>
          (product_loop (comp.compute_estimation (feature_at s._features l m))
            (c.compute_estimation (feature_at s._features l m))).isSome)
      then some
        { _supervoxels := s._supervoxels
          _features := touch_features m
            ((keys s._supervoxels).foldr (fun l acc => l :: l :: acc) []) s._features
          _weights := insert_or_assign s._weights m
            ((keys s._supervoxels).foldl
              (fun r l => insert_or_assign r l
                ((product_loop (comp.compute_estimation (feature_at s._features l m))
                  (c.compute_estimation (feature_at s._features l m))).getD []))
              ((keys s._supervoxels).foldl
                (fun r l => emplace r l (List.replicate c.get_nbr_class (0.5 : D))) [])) }
      else none := by
  obtain ⟨l, first, t, hf, hm⟩ := (known_modality_iff _ _).1 hk
  unfold compute_weights_comp
  rw [hf]
  have hn : (find first m).isNone = false := by
    cases h : find first m <;> simp [h] at hm ⊢
  simp only [hn, Bool.false_eq_true, if_false]
  rw [← hf, reset_weights_eq, prepopulate_eq]
  simp only []
  rw [per_label_comp_eq m c comp (fun l => feature_at s._features l m) _ _ _ _ (fun _ => rfl)]
  split_ifs <;> simp

theorem compute_weights_comp_unknown [OfScientific D] [Mul D] (s : SurfaceOfInterest SV D)
    (m : std_string) (c comp : Classifier (List D) D) (hne : s._features ≠ [])
    (hk : known_modality s._features m = false) :
    compute_weights_comp s m c comp = some s := by
  unfold compute_weights_comp
  cases hf : s._features with
  | nil => exact absurd hf hne
  | cons e t =>
    obtain ⟨l, first⟩ := e
    rw [hf] at hk
    have hn : (find first m).isNone = true := by
      cases h : find first m <;> simp [known_modality, h] at hk ⊢
    simp [hn]

end Comp
section Merge
variable {SV D : Type}

theorem insert_or_assign_eq_self {K V : Type} [LinearOrder K] (m : StdMap K V) (k : K) (v : V)
    (hm : WF m) (hf : find m k = some v) : insert_or_assign m k v = m := by
  apply WF_ext _ _ (WF_insert_or_assign m k v hm) hm
  intro k'
  rw [find_insert_or_assign]
  by_cases h : k = k'
  · subst h; rw [if_pos rfl, hf]
  · rw [if_neg h]

theorem find_emplaced (lbls : List Nat) (g : Nat → List D) (k : Nat) :
    find (emplaced lbls g) k = if k ∈ lbls then some (g k) else none := by
  unfold emplaced
  rw [find_foldl_emplace]
  simp [find]

theorem WF_emplaced (lbls : List Nat) (g : Nat → List D) : WF (emplaced lbls g) :=
  WF_foldl_emplace lbls g [] WF_nil

theorem emplaced_eq_relevance_of (sv : StdMap Nat SV) (g : Nat → List D) (hsv : WF sv) :
    emplaced (keys sv) g = relevance_of sv g := by
  apply WF_ext _ _ (WF_emplaced _ _) (WF_relevance_of sv g hsv)
  intro k
  rw [find_emplaced, find_relevance_of]

/-- Writing every label after a pre-population gives the map that one `emplace` per label
builds, whatever the order of the writes. -/
theorem assign_emplace_eq_emplaced (keys' lbls : List Nat) (g : Nat → List D) (init : List D)
    (hl : ∀ k, k ∈ lbls ↔ k ∈ keys') :
    lbls.foldl (fun r l => insert_or_assign r l (g l))
      (keys'.foldl (fun r l => emplace r l init) []) = emplaced keys' g := by
  apply WF_ext
  · apply WF_foldl_assign
    exact WF_foldl_emplace keys' (fun _ => init) [] WF_nil
  · exact WF_emplaced _ _
  · intro k
    rw [find_foldl_assign, find_foldl_emplace keys' (fun _ => init), find_emplaced]
    by_cases hk : k ∈ keys'
    · simp [hk, (hl k).2 hk]
    · have : k ∉ lbls := fun h => hk ((hl k).1 h)
      simp [hk, this, find]

theorem subscript_fst (f : StdMap Nat (feature_record_t D)) (l : Nat) :
    (subscript f l).1 = record_at f l := by
  unfold subscript record_at
  cases h : find f l with
  | none => rfl
  | some r => rfl

theorem record_at_subscript (f : StdMap Nat (feature_record_t D)) (l l' : Nat) :
    record_at (subscript f l).2 l' = record_at f l' := by
  unfold subscript record_at
  cases h : find f l with
  | some r => rfl
  | none =>
    simp only [find_insert_or_assign]
    by_cases hl : l = l'
    · subst hl; rw [if_pos rfl, h]; rfl
    · rw [if_neg hl]

theorem per_label_merge_eq (c : Classifier (feature_record_t D) D) (g : Nat → feature_record_t D)
    (w : StdMap std_string (relevance_map_t D)) :
    ∀ (lbls : List Nat) (f : StdMap Nat (feature_record_t D)) (r : relevance_map_t D),
      (∀ l, record_at f l = g l) →
      per_label_merge c lbls f (insert_or_assign w "merge".toList r) =
        (touch_records lbls f,
          insert_or_assign w "merge".toList (lbls.foldl
            (fun r l => insert_or_assign r l (c.compute_estimation (g l))) r)) := by
  intro lbls
  induction lbls with
  | nil => intro f r _; simp [per_label_merge, touch_records]
  | cons a t ih =>
    intro f r hg
    have step : per_label_merge c (a :: t) f (insert_or_assign w "merge".toList r) =
        per_label_merge c t (subscript f a).2
          (insert_or_assign w "merge".toList
            (insert_or_assign r a (c.compute_estimation (g a)))) := by
      unfold per_label_merge
      rw [List.foldl_cons]
      simp only []
      rw [modify_insert_or_assign, modify_eq, subscript_fst, hg]
    rw [step, ih]
    · rfl
    · intro l; rw [record_at_subscript]; exact hg l

/-- The multi-feature variant in closed form. -/
theorem compute_weights_merge_eq [Zero D] (s : SurfaceOfInterest SV D)
    (c : Classifier (feature_record_t D) D) :
    compute_weights_merge s c =
      { _supervoxels := s._supervoxels
        _features := touch_records (keys s._supervoxels) s._features
        _weights := insert_or_assign s._weights "merge".toList
          (emplaced (keys s._supervoxels)
            (fun l => c.compute_estimation (record_at s._features l))) } := by
  unfold compute_weights_merge
  simp only []
  rw [reset_weights_eq, prepopulate_eq]
  simp only []
  rw [per_label_merge_eq c (fun l => record_at s._features l) _ _ _ _ (fun _ => rfl),
    assign_emplace_eq_emplaced _ _ _ _ (fun _ => Iff.rfl)]

theorem record_at_touch_records (lbls : List Nat) (f : StdMap Nat (feature_record_t D))
    (l : Nat) : record_at (touch_records lbls f) l = record_at f l := by
  induction lbls generalizing f with
  | nil => rfl
  | cons a t ih =>
    unfold touch_records at ih ⊢
    rw [List.foldl_cons, ih, record_at_subscript]

end Merge
section MapVariant
variable {SV D : Type}

theorem map_step_fold_eq (m : std_string) (c : Classifier (List D) D) (g : Nat → List D)
    (w : StdMap std_string (relevance_map_t D)) :
    ∀ (svs : StdMap Nat SV) (f : StdMap Nat (feature_record_t D)) (r : relevance_map_t D),
      (∀ l, feature_at f l m = g l) →
      svs.foldl
        (fun (acc : StdMap Nat (feature_record_t D) × StdMap std_string (relevance_map_t D))
            (sv : Nat × SV) =>
          ((read_feature acc.1 sv.1 m).2, StdMap.modify acc.2 m
            (fun r => emplace r sv.1 (c.compute_estimation (read_feature acc.1 sv.1 m).1))))
        (f, insert_or_assign w m r) =
      (touch_features m (keys svs) f,
        insert_or_assign w m
          ((keys svs).foldl (fun r l => emplace r l (c.compute_estimation (g l))) r)) := by
  intro svs
  induction svs with
  | nil => intro f r _; simp [touch_features, keys]
  | cons e t ih =>
    intro f r hg
    rw [List.foldl_cons]
    simp only []
    rw [modify_insert_or_assign, read_feature_fst, hg, ih]
    · simp [touch_features, keys]
    · intro l; rw [feature_at_read_feature]; exact hg l

theorem compute_weights_map_step_known (s : SurfaceOfInterest SV D) (m : std_string)
    (c : Classifier (List D) D) (hk : known_modality s._features m = true) :
    compute_weights_map_step s (m, c) = some
      { _supervoxels := s._supervoxels
        _features := touch_features m (keys s._supervoxels) s._features
        _weights := insert_or_assign s._weights m
          (emplaced (keys s._supervoxels)
            (fun l => c.compute_estimation (feature_at s._features l m))) } := by
  obtain ⟨l, first, t, hf, hm⟩ := (known_modality_iff _ _).1 hk
  unfold compute_weights_map_step
  rw [hf]
  have hn : (find first m).isNone = false := by
    cases h : find first m <;> simp [h] at hm ⊢
  simp only [hn, Bool.false_eq_true, if_false]
  rw [← hf, reset_weights_eq,
    map_step_fold_eq m c (fun l => feature_at s._features l m) _ _ _ _ (fun _ => rfl)]
  rfl

theorem compute_weights_map_step_unknown (s : SurfaceOfInterest SV D) (m : std_string)
    (c : Classifier (List D) D) (hne : s._features ≠ [])
    (hk : known_modality s._features m = false) :
    compute_weights_map_step s (m, c) = some s := by
  unfold compute_weights_map_step
  cases hf : s._features with
  | nil => exact absurd hf hne
  | cons e t =>
    obtain ⟨l, first⟩ := e
    rw [hf] at hk
    have hn : (find first m).isNone = true := by
      cases h : find first m <;> simp [known_modality, h] at hk ⊢
    simp [hn]

/-- One round of the classifier-map variant is the single-classifier variant. -/
theorem compute_weights_eq_map_step [OfScientific D] (s : SurfaceOfInterest SV D)
    (m : std_string) (c : Classifier (List D) D) :
    compute_weights s m c = compute_weights_map_step s (m, c) := by
  by_cases hne : s._features = []
  · unfold compute_weights compute_weights_map_step
    rw [hne]
  · cases hk : known_modality s._features m with
    | false =>
      rw [compute_weights_unknown s m c hne hk, compute_weights_map_step_unknown s m c hne hk]
    | true =>
      rw [compute_weights_known s m c hk, compute_weights_map_step_known s m c hk,
        assign_emplace_eq_emplaced _ _ _ _ (fun _ => Iff.rfl)]

end MapVariant
section Run
variable {SV D : Type}

theorem read_feature_ne_nil (f : StdMap Nat (feature_record_t D)) (l : Nat) (m : std_string) :
    (read_feature f l m).2 ≠ [] := by
  rw [read_feature_snd]
  cases f with
  | nil => simp [insert_or_assign]
  | cons e t =>
    obtain ⟨a, b⟩ := e
    simp only [insert_or_assign]
    split_ifs <;> simp

theorem touch_features_ne_nil (m : std_string) (lbls : List Nat)
    (f : StdMap Nat (feature_record_t D)) (hne : f ≠ []) : touch_features m lbls f ≠ [] := by
  induction lbls generalizing f with
  | nil => exact hne
  | cons a t ih =>
    unfold touch_features at ih ⊢
    rw [List.foldl_cons]
    exact ih _ (read_feature_ne_nil f a m)

theorem WF_read_feature (f : StdMap Nat (feature_record_t D)) (l : Nat) (m : std_string)
    (h : WF f) : WF (read_feature f l m).2 := by
  rw [read_feature_snd]; exact WF_insert_or_assign _ _ _ h

theorem WF_touch_features (m : std_string) (lbls : List Nat)
    (f : StdMap Nat (feature_record_t D)) (h : WF f) : WF (touch_features m lbls f) := by
  induction lbls generalizing f with
  | nil => exact h
  | cons a t ih =>
    unfold touch_features at ih ⊢
    rw [List.foldl_cons]
    exact ih _ (WF_read_feature f a m h)

theorem find_subscript_other (r : feature_record_t D) (m m' : std_string) (h : m ≠ m') :
    find (subscript r m).2 m' = find r m' := by
  unfold subscript
  cases h2 : find r m with
  | some x => rfl
  | none => simp only [find_insert_or_assign, if_neg h]

/-- Reading `_features[l][m]` cannot make another modality known. -/
theorem unknown_read_feature (f : StdMap Nat (feature_record_t D)) (l : Nat)
    (m m' : std_string) (hf : WF f) (hm : m ≠ m') (hk : known_modality f m' = false) :
    known_modality (read_feature f l m).2 m' = false := by
  rw [read_feature_snd]
  cases f with
  | nil =>
    have h0 : record_at ([] : StdMap Nat (feature_record_t D)) l = [] := rfl
    rw [h0]
    simp only [insert_or_assign, known_modality]
    rw [find_subscript_other _ _ _ hm]
    rfl
  | cons e t =>
    obtain ⟨l0, first⟩ := e
    have w : (∀ x ∈ keys t, l0 < x) ∧ WF t := by
      simpa [WF, keys, List.sorted_cons] using hf
    simp only [insert_or_assign]
    by_cases h1 : l < l0
    · have hnone : find ((l0, first) :: t) l = none := by
        apply find_eq_none_of_lt
        intro x hx
        simp only [keys, List.map_cons, List.mem_cons] at hx
        rcases hx with rfl | hx
        · exact h1
        · exact lt_trans h1 (w.1 x hx)
      simp only [if_pos h1, known_modality, record_at, hnone, Option.getD_none]
      rw [find_subscript_other _ _ _ hm]
      rfl
    · by_cases h2 : l = l0
      · subst h2
        simp only [if_neg h1, if_pos, known_modality, record_at, find, Option.getD_some]
        rw [find_subscript_other _ _ _ hm]
        exact hk
      · simp only [if_neg h1, if_neg h2, known_modality]
        exact hk

theorem unknown_touch_features (m m' : std_string) (lbls : List Nat)
    (f : StdMap Nat (feature_record_t D)) (hf : WF f) (hm : m ≠ m')
    (hk : known_modality f m' = false) :
    known_modality (touch_features m lbls f) m' = false := by
  induction lbls generalizing f with
  | nil => exact hk
  | cons a t ih =>
    unfold touch_features at ih ⊢
    rw [List.foldl_cons]
    exact ih _ (WF_read_feature f a m hf) (unknown_read_feature f a m m' hf hm hk)

/-- Reading `_features[l][m]` when `l` has a record and `m` is known leaves every first-record
test as it was. -/
theorem known_read_feature_of_mem (f : StdMap Nat (feature_record_t D)) (l : Nat)
    (m m' : std_string) (hf : WF f) (hl : (find f l).isSome = true)
    (hk : known_modality f m = true) :
    known_modality (read_feature f l m).2 m' = known_modality f m' := by
  rw [read_feature_snd]
  cases f with
  | nil => simp [find] at hl
  | cons e t =>
    obtain ⟨l0, first⟩ := e
    have w : (∀ x ∈ keys t, l0 < x) ∧ WF t := by
      simpa [WF, keys, List.sorted_cons] using hf
    simp only [insert_or_assign]
    by_cases h1 : l < l0
    · exfalso
      have hnone : find ((l0, first) :: t) l = none := by
        apply find_eq_none_of_lt
        intro x hx
        simp only [keys, List.map_cons, List.mem_cons] at hx
        rcases hx with rfl | hx
        · exact h1
        · exact lt_trans h1 (w.1 x hx)
      rw [hnone] at hl
      cases hl
    · by_cases h2 : l = l0
      · subst h2
        simp only [if_neg h1, if_pos, known_modality, record_at, find, Option.getD_some]
        have hs : (subscript first m).2 = first := by
          unfold subscript
          simp only [known_modality] at hk
          cases h3 : find first m with
          | none => rw [h3] at hk; cases hk
          | some x => rfl
        rw [hs]
      · simp only [if_neg h1, if_neg h2, known_modality]

theorem find_isSome_read_feature (f : StdMap Nat (feature_record_t D)) (l L : Nat)
    (m : std_string) (h : (find f L).isSome = true) :
    (find (read_feature f l m).2 L).isSome = true := by
  rw [read_feature_snd, find_insert_or_assign]
  by_cases hl : l = L
  · rw [if_pos hl]; rfl
  · rw [if_neg hl]; exact h

theorem known_touch_features_of_mem (m m' : std_string) (lbls : List Nat)
    (f : StdMap Nat (feature_record_t D)) (hf : WF f)
    (hl : ∀ L ∈ lbls, (find f L).isSome = true) (hk : known_modality f m = true) :
    known_modality (touch_features m lbls f) m' = known_modality f m' := by
  induction lbls generalizing f with
  | nil => rfl
  | cons a t ih =>
    unfold touch_features at ih ⊢
    rw [List.foldl_cons,
      ih _ (WF_read_feature f a m hf)
        (fun L hL => find_isSome_read_feature f a L m (hl L (List.mem_cons_of_mem _ hL)))
        (known_modality_read_feature f a m hk),
      known_read_feature_of_mem f a m m' hf (hl a (List.mem_cons_self _ _)) hk]

theorem find_isSome_touch_features (m : std_string) (lbls : List Nat)
    (f : StdMap Nat (feature_record_t D)) (L : Nat) (h : (find f L).isSome = true) :
    (find (touch_features m lbls f) L).isSome = true := by
  induction lbls generalizing f with
  | nil => exact h
  | cons a t ih =>
    unfold touch_features at ih ⊢
    rw [List.foldl_cons]
    exact ih _ (find_isSome_read_feature f a L m h)

end Run
section Run2
variable {SV D : Type}

/-- What one round of the classifier-map variant does to an engine with features. -/
theorem map_step_spec (s : SurfaceOfInterest SV D) (mc : std_string × Classifier (List D) D)
    (hne : s._features ≠ []) :
    ∃ s', compute_weights_map_step s mc = some s' ∧ s'._supervoxels = s._supervoxels ∧
      s'._features ≠ [] ∧
      (∀ l m', feature_at s'._features l m' = feature_at s._features l m') ∧
      (WF s._weights → WF s'._weights) ∧ (WF s._features → WF s'._features) ∧
      (∀ m', mc.1 ≠ m' → find s'._weights m' = find s._weights m') ∧
      (WF s._features → ∀ m', mc.1 ≠ m' → known_modality s._features m' = false →
        known_modality s'._features m' = false) ∧
      (WF s._features → (∀ L ∈ keys s._supervoxels, (find s._features L).isSome = true) →
        (∀ m', known_modality s'._features m' = known_modality s._features m') ∧
        (∀ L ∈ keys s._supervoxels, (find s'._features L).isSome = true)) ∧
      (known_modality s._features mc.1 = false → s' = s) ∧
      (known_modality s._features mc.1 = true →
        s'._weights = insert_or_assign s._weights mc.1
          (emplaced (keys s._supervoxels)
            (fun l => mc.2.compute_estimation (feature_at s._features l mc.1)))) := by
  obtain ⟨m, c⟩ := mc
  cases hk : known_modality s._features m with
  | false =>
    refine ⟨s, compute_weights_map_step_unknown s m c hne hk, rfl, hne, fun _ _ => rfl,
      id, id, fun _ _ => rfl, fun _ _ _ h => h, fun _ h => ⟨fun _ => rfl, h⟩,
      fun _ => rfl, (fun h => by cases h)⟩
  | true =>
    refine ⟨_, compute_weights_map_step_known s m c hk, rfl,
      touch_features_ne_nil _ _ _ hne, fun l m' => feature_at_touch_features _ _ _ _ _,
      fun h => WF_insert_or_assign _ _ _ h, fun h => WF_touch_features _ _ _ h,
      ?_, ?_, ?_, (fun h => by cases h), fun _ => rfl⟩
    · intro m' hm
      simp only [find_insert_or_assign, if_neg hm]
    · intro hf m' hm hk'
      exact unknown_touch_features m m' _ _ hf hm hk'
    · intro hf hH
      exact ⟨fun m' => known_touch_features_of_mem m m' _ _ hf hH hk,
        fun L hL => find_isSome_touch_features m _ _ L (hH L hL)⟩

/-- What the classifier-map variant does to an engine with features. -/
theorem map_run_spec (cs : StdMap std_string (Classifier (List D) D)) :
    ∀ (s : SurfaceOfInterest SV D), s._features ≠ [] →
    ∃ s', compute_weights_map s cs = some s' ∧ s'._supervoxels = s._supervoxels ∧
      s'._features ≠ [] ∧
      (∀ l m', feature_at s'._features l m' = feature_at s._features l m') ∧
      (WF s._weights → WF s'._weights) ∧ (WF s._features → WF s'._features) ∧
      (∀ m', m' ∉ keys cs → find s'._weights m' = find s._weights m') ∧
      (WF s._features → ∀ m', m' ∉ keys cs → known_modality s._features m' = false →
        known_modality s'._features m' = false) ∧
      (WF s._features → (∀ L ∈ keys s._supervoxels, (find s._features L).isSome = true) →
        (∀ m', known_modality s'._features m' = known_modality s._features m') ∧
        (∀ L ∈ keys s._supervoxels, (find s'._features L).isSome = true)) := by
  induction cs with
  | nil =>
    intro s hne
    exact ⟨s, rfl, rfl, hne, fun _ _ => rfl, id, id, fun _ _ => rfl, fun _ _ _ h => h,
      fun _ h => ⟨fun _ => rfl, h⟩⟩
  | cons mc rest ih =>
    intro s hne
    obtain ⟨s1, h1, hsv1, hne1, hΦ1, hw1, hf1, ho1, hu1, hH1, -, -⟩ := map_step_spec s mc hne
    obtain ⟨s2, h2, hsv2, hne2, hΦ2, hw2, hf2, ho2, hu2, hH2⟩ := ih s1 hne1
    refine ⟨s2, ?_, hsv2.trans hsv1, hne2, fun l m' => (hΦ2 l m').trans (hΦ1 l m'),
      fun h => hw2 (hw1 h), fun h => hf2 (hf1 h), ?_, ?_, ?_⟩
    · unfold compute_weights_map at h2 ⊢
      rw [List.foldlM_cons, h1]
      exact h2
    · intro m' hm
      have hm1 : mc.1 ≠ m' := fun e => hm (by
        show m' ∈ mc.1 :: keys rest
        rw [e]; exact List.mem_cons_self _ _)
      have hm2 : m' ∉ keys rest := fun h => hm (List.mem_cons_of_mem _ h)
      rw [ho2 m' hm2, ho1 m' hm1]
    · intro hf m' hm hk
      have hm1 : mc.1 ≠ m' := fun e => hm (by
        show m' ∈ mc.1 :: keys rest
        rw [e]; exact List.mem_cons_self _ _)
      have hm2 : m' ∉ keys rest := fun h => hm (List.mem_cons_of_mem _ h)
      exact hu2 (hf1 hf) m' hm2 (hu1 hf m' hm1 hk)
    · intro hf hH
      obtain ⟨hk1, hH1'⟩ := hH1 hf hH
      obtain ⟨hk2, hH2'⟩ := hH2 (hf1 hf) (by rw [hsv1]; exact hH1')
      refine ⟨fun m' => (hk2 m').trans (hk1 m'), ?_⟩
      rw [hsv1] at hH2'
      exact hH2'

end Run2
section Run3
variable {SV D : Type}

theorem WF_tail {K V : Type} [LinearOrder K] (e : K × V) (t : StdMap K V) (h : WF (e :: t)) :
    e.1 ∉ keys t ∧ WF t := by
  have h' : (∀ x ∈ keys t, e.1 < x) ∧ WF t := by
    simpa [WF, keys, List.sorted_cons] using h
  exact ⟨fun hm => lt_irrefl _ (h'.1 _ hm), h'.2⟩

/-- After the classifier-map variant, every modality of the map that is known holds the
relevance map its classifier builds. -/
theorem map_run_known_entries (cs : StdMap std_string (Classifier (List D) D)) :
    ∀ (s s1 : SurfaceOfInterest SV D), s._features ≠ [] → WF s._features → WF cs →
      compute_weights_map s cs = some s1 →
      ∀ mc ∈ cs, known_modality s1._features mc.1 = true →
        find s1._weights mc.1 = some (emplaced (keys s._supervoxels)
          (fun l => mc.2.compute_estimation (feature_at s._features l mc.1))) := by
  induction cs with
  | nil => intro s s1 _ _ _ _ mc hmc; cases hmc
  | cons mc0 rest ih =>
    intro s s1 hne hf hcs hrun mc hmc hk
    obtain ⟨hnot, hrest⟩ := WF_tail mc0 rest hcs
    obtain ⟨s', h1, hsv1, hne1, hΦ1, -, hf1, -, -, -, hunk, hkn⟩ := map_step_spec s mc0 hne
    obtain ⟨s2, h2, -, -, -, -, -, ho2, hu2, -⟩ := map_run_spec rest s' hne1
    have hs2 : s2 = s1 := by
      have : compute_weights_map s (mc0 :: rest) = some s2 := by
        unfold compute_weights_map at h2 ⊢
        rw [List.foldlM_cons, h1]
        exact h2
      rw [this] at hrun
      exact Option.some.inj hrun
    subst hs2
    rcases List.mem_cons.1 hmc with rfl | hmem
    · cases hk0 : known_modality s._features mc.1 with
      | false =>
        have hs' : s' = s := hunk hk0
        have := hu2 (hf1 hf) mc.1 hnot (by rw [hs']; exact hk0)
        rw [this] at hk
        cases hk
      | true =>
        rw [ho2 mc.1 hnot, hkn hk0, find_insert_or_assign_self]
    · have := ih s' s2 hne1 (hf1 hf) hrest h2 mc hmem hk
      rw [this, hsv1]
      simp only [hΦ1]

/-- An engine in which every known modality of the map already holds the relevance map its
classifier builds keeps its `_weights` through the classifier-map variant. -/
theorem map_run_fixed (cs0 : StdMap std_string (Classifier (List D) D))
    (cs : StdMap std_string (Classifier (List D) D)) :
    ∀ (u : SurfaceOfInterest SV D), (∀ mc ∈ cs, mc ∈ cs0) → u._features ≠ [] →
      WF u._features → WF u._weights →
      (∀ mc ∈ cs0, known_modality u._features mc.1 = true →
        find u._weights mc.1 = some (emplaced (keys u._supervoxels)
          (fun l => mc.2.compute_estimation (feature_at u._features l mc.1)))) →
      ∃ u', compute_weights_map u cs = some u' ∧ u'._weights = u._weights := by
  induction cs with
  | nil => intro u _ _ _ _ _; exact ⟨u, rfl, rfl⟩
  | cons mc rest ih =>
    intro u hsub hne hf hw hU
    obtain ⟨u1, h1, hsv1, hne1, hΦ1, -, hf1, -, hu1, -, hunk, hkn⟩ := map_step_spec u mc hne
    have hw1 : u1._weights = u._weights := by
      cases hk : known_modality u._features mc.1 with
      | false => rw [hunk hk]
      | true =>
        rw [hkn hk]
        exact insert_or_assign_eq_self _ _ _ hw (hU mc (hsub mc (List.mem_cons_self _ _)) hk)
    have hU1 : ∀ mc' ∈ cs0, known_modality u1._features mc'.1 = true →
        find u1._weights mc'.1 = some (emplaced (keys u1._supervoxels)
          (fun l => mc'.2.compute_estimation (feature_at u1._features l mc'.1))) := by
      intro mc' hmc' hk'
      have hku : known_modality u._features mc'.1 = true := by
        by_cases hm : mc.1 = mc'.1
        · cases hk : known_modality u._features mc.1 with
          | false => rw [hunk hk] at hk'; exact hk'
          | true => rw [← hm]; exact hk
        · cases hk : known_modality u._features mc'.1 with
          | false => rw [hu1 hf mc'.1 hm hk] at hk'; cases hk'
          | true => rfl
      rw [hw1, hsv1, hU mc' hmc' hku]
      simp only [hΦ1]
    obtain ⟨u', h2, hw2⟩ := ih u1 (fun x hx => hsub x (List.mem_cons_of_mem _ hx)) hne1
      (hf1 hf) (by rw [hw1]; exact hw) hU1
    refine ⟨u', ?_, hw2.trans hw1⟩
    unfold compute_weights_map at h2 ⊢
    rw [List.foldlM_cons, h1]
    exact h2

end Run3
section FixedKeys
variable {SV D : Type}

theorem keys_insert_or_assign_of_mem {K V : Type} [LinearOrder K] (m : StdMap K V) (k : K)
    (v : V) (hm : WF m) (hk : k ∈ keys m) : keys (insert_or_assign m k v) = keys m := by
  induction m with
  | nil => simp [keys] at hk
  | cons e t ih =>
    obtain ⟨a, c⟩ := e
    have w : (∀ x ∈ keys t, a < x) ∧ WF t := by
      simpa [WF, keys, List.sorted_cons] using hm
    simp only [insert_or_assign]
    by_cases h1 : k < a
    · exfalso
      simp only [keys, List.map_cons, List.mem_cons] at hk
      rcases hk with rfl | hk
      · exact lt_irrefl _ h1
      · exact lt_irrefl _ (lt_trans h1 (w.1 k hk))
    · by_cases h2 : k = a
      · subst h2; simp [keys]
      · simp only [if_neg h1, if_neg h2, keys, List.map_cons, List.cons.injEq, true_and]
        simp only [keys, List.map_cons, List.mem_cons] at hk
        rcases hk with rfl | hk
        · exact absurd rfl h2
        · exact ih w.2 hk

theorem keys_foldl_assign {K V : Type} [LinearOrder K] (ls : List K) (g : K → V)
    (r : StdMap K V) (hr : WF r) (hl : ∀ l ∈ ls, l ∈ keys r) :
    keys (ls.foldl (fun r l => insert_or_assign r l (g l)) r) = keys r := by
  induction ls generalizing r with
  | nil => rfl
  | cons a t ih =>
    rw [List.foldl_cons]
    have hk := keys_insert_or_assign_of_mem r a (g a) hr (hl a (List.mem_cons_self _ _))
    rw [ih _ (WF_insert_or_assign r a _ hr)
      (fun l h => by rw [hk]; exact hl l (List.mem_cons_of_mem _ h)), hk]

theorem mem_keys_foldl_emplace (ls : List Nat) (init : List D) (k : Nat) :
    k ∈ keys (ls.foldl (fun r l => emplace r l init) ([] : relevance_map_t D)) ↔ k ∈ ls := by
  rw [← find_isSome_iff, find_foldl_emplace ls (fun _ => init)]
  by_cases h : k ∈ ls <;> simp [h, find]

end FixedKeys
section Traverse

theorem mem_grow_region (N : Nat → List Nat) (cand R : List Nat) (x : Nat) :
    x ∈ grow_region N cand R ↔ x ∈ cand ∧ (x ∈ R ∨ ∃ r ∈ R, x ∈ N r) := by
  simp [grow_region, List.mem_filter, List.any_eq_true]

theorem iterate_grow_sound (N : Nat → List Nat) (cand : List Nat) (seed : Nat)
    (hs : seed ∈ cand) :
    ∀ n x, x ∈ Nat.iterate (grow_region N cand) n [seed] →
      x ∈ cand ∧ Relation.ReflTransGen (edge_in N cand) seed x := by
  intro n
  induction n with
  | zero =>
    intro x hx
    simp only [Function.iterate_zero, id_eq, List.mem_singleton] at hx
    subst hx
    exact ⟨hs, Relation.ReflTransGen.refl⟩
  | succ n ih =>
    intro x hx
    rw [Function.iterate_succ_apply', mem_grow_region] at hx
    obtain ⟨hc, h | ⟨r, hr, hxr⟩⟩ := hx
    · exact ih x h
    · exact ⟨hc, Relation.ReflTransGen.tail (ih r hr).2 ⟨hxr, (ih r hr).1, hc⟩⟩

theorem iterate_grow_mono (N : Nat → List Nat) (cand : List Nat) (seed : Nat)
    (hs : seed ∈ cand) (n : Nat) (x : Nat)
    (hx : x ∈ Nat.iterate (grow_region N cand) n [seed]) :
    x ∈ Nat.iterate (grow_region N cand) (n + 1) [seed] := by
  rw [Function.iterate_succ_apply', mem_grow_region]
  exact ⟨(iterate_grow_sound N cand seed hs n x hx).1, Or.inl hx⟩

theorem seed_mem_iterate_grow (N : Nat → List Nat) (cand : List Nat) (seed : Nat)
    (hs : seed ∈ cand) (n : Nat) : seed ∈ Nat.iterate (grow_region N cand) n [seed] := by
  induction n with
  | zero => simp
  | succ n ih => exact iterate_grow_mono N cand seed hs n seed ih

theorem length_filter_lt_of_imp {α : Type} (p q : α → Bool) (l : List α)
    (himp : ∀ x ∈ l, p x = true → q x = true)
    (hnew : ∃ x ∈ l, q x = true ∧ p x = false) :
    (l.filter p).length < (l.filter q).length := by
  induction l with
  | nil => obtain ⟨x, hx, _⟩ := hnew; cases hx
  | cons a t ih =>
    have hle : (t.filter p).length ≤ (t.filter q).length := by
      clear ih hnew
      induction t with
      | nil => simp
      | cons b u ihu =>
        have hb := himp b (List.mem_cons_of_mem _ (List.mem_cons_self _ _))
        have hu := ihu (fun x hx => himp x (by
          rcases List.mem_cons.1 hx with rfl | h
          · exact List.mem_cons_self _ _
          · exact List.mem_cons_of_mem _ (List.mem_cons_of_mem _ h)))
        cases hpb : p b
        · cases hqb : q b <;> simp [List.filter, hpb, hqb] <;> omega
        · simp [List.filter, hpb, hb hpb]; exact hu
    obtain ⟨x, hx, hqx, hpx⟩ := hnew
    rcases List.mem_cons.1 hx with rfl | hxt
    · simp [List.filter, hqx, hpx]; omega
    · have := ih (fun y hy => himp y (List.mem_cons_of_mem _ hy)) ⟨x, hxt, hqx, hpx⟩
      have ha := himp a (List.mem_cons_self _ _)
      cases hpa : p a
      · cases hqa : q a <;> simp [List.filter, hpa, hqa] <;> omega
      · simp [List.filter, hpa, ha hpa]; exact this

/-- After as many rounds as there are candidates the region is closed under growth. -/
theorem iterate_grow_closed (N : Nat → List Nat) (cand : List Nat) (seed : Nat)
    (hs : seed ∈ cand) :
    ∀ x, x ∈ grow_region N cand (Nat.iterate (grow_region N cand) cand.length [seed]) →
      x ∈ Nat.iterate (grow_region N cand) cand.length [seed] := by
  have key : ∀ n,
      (∀ x, x ∈ grow_region N cand (Nat.iterate (grow_region N cand) n [seed]) →
        x ∈ Nat.iterate (grow_region N cand) n [seed]) ∨
      n + 1 ≤ (cand.filter
        (fun x => decide (x ∈ Nat.iterate (grow_region N cand) n [seed]))).length := by
    intro n
    induction n with
    | zero =>
      right
      have : 0 < (cand.filter (fun x => decide (x ∈ Nat.iterate (grow_region N cand) 0
          [seed]))).length := by
        apply List.length_pos_of_mem (a := seed)
        simp [List.mem_filter, hs]
      omega
    | succ n ih =>
      rcases ih with hcl | hcnt
      · left
        intro x hx
        rw [mem_grow_region] at hx
        rw [Function.iterate_succ_apply', mem_grow_region]
        obtain ⟨hc, h | ⟨r, hr, hxr⟩⟩ := hx
        · rw [Function.iterate_succ_apply'] at h
          exact ⟨hc, Or.inl (hcl x h)⟩
        · rw [Function.iterate_succ_apply'] at hr
          exact ⟨hc, Or.inr ⟨r, hcl r hr, hxr⟩⟩
      · by_cases hcl : ∀ x, x ∈ grow_region N cand
            (Nat.iterate (grow_region N cand) n [seed]) →
            x ∈ Nat.iterate (grow_region N cand) n [seed]
        · left
          intro x hx
          rw [mem_grow_region] at hx
          rw [Function.iterate_succ_apply', mem_grow_region]
          obtain ⟨hc, h | ⟨r, hr, hxr⟩⟩ := hx
          · rw [Function.iterate_succ_apply'] at h
            exact ⟨hc, Or.inl (hcl x h)⟩
          · rw [Function.iterate_succ_apply'] at hr
            exact ⟨hc, Or.inr ⟨r, hcl r hr, hxr⟩⟩
        · right
          push_neg at hcl
          obtain ⟨x, hx, hnx⟩ := hcl
          have hlt := length_filter_lt_of_imp
            (fun x => decide (x ∈ Nat.iterate (grow_region N cand) n [seed]))
            (fun x => decide (x ∈ Nat.iterate (grow_region N cand) (n + 1) [seed])) cand
            (fun y _ hy => by
              simp only [decide_eq_true_eq] at hy ⊢
              exact iterate_grow_mono N cand seed hs n y hy)
            ⟨x, ((mem_grow_region N cand _ x).1 hx).1, by
              simp only [decide_eq_true_eq, decide_eq_false_iff_not]
              exact ⟨by rw [Function.iterate_succ_apply']; exact hx, hnx⟩⟩
          omega
  rcases key cand.length with h | h
  · exact h
  · have := List.length_filter_le
      (fun x => decide (x ∈ Nat.iterate (grow_region N cand) cand.length [seed])) cand
    omega

/-- The region of a seed is the set of candidates reachable from it through candidates. -/
theorem mem_traverse_iff (N : Nat → List Nat) (cand : List Nat) (seed : Nat)
    (hs : seed ∈ cand) (x : Nat) :
    x ∈ traverse N cand seed ↔ Relation.ReflTransGen (edge_in N cand) seed x := by
  unfold traverse
  constructor
  · exact fun hx => (iterate_grow_sound N cand seed hs _ x hx).2
  · intro h
    induction h with
    | refl => exact seed_mem_iterate_grow N cand seed hs _
    | tail _ hyz ih =>
      apply iterate_grow_closed N cand seed hs
      rw [mem_grow_region]
      exact ⟨hyz.2.2, Or.inr ⟨_, ih, hyz.1⟩⟩

theorem traverse_subset (N : Nat → List Nat) (cand : List Nat) (seed : Nat)
    (hs : seed ∈ cand) (x : Nat) (hx : x ∈ traverse N cand seed) : x ∈ cand :=
  (iterate_grow_sound N cand seed hs _ x hx).1

theorem seed_mem_traverse (N : Nat → List Nat) (cand : List Nat) (seed : Nat)
    (hs : seed ∈ cand) : seed ∈ traverse N cand seed :=
  seed_mem_iterate_grow N cand seed hs _

/-- Every label of the region is joined to the seed by edges between labels of the region. -/
theorem traverse_connected (N : Nat → List Nat) (cand : List Nat) (seed : Nat)
    (hs : seed ∈ cand) (x : Nat) (hx : x ∈ traverse N cand seed) :
    Relation.ReflTransGen (edge_in N (traverse N cand seed)) seed x := by
  have h := (mem_traverse_iff N cand seed hs x).1 hx
  induction h with
  | refl => exact Relation.ReflTransGen.refl
  | tail hy hyz ih =>
    have hy' := (mem_traverse_iff N cand seed hs _).2 hy
    have hz' := (mem_traverse_iff N cand seed hs _).2 (Relation.ReflTransGen.tail hy hyz)
    exact Relation.ReflTransGen.tail (ih hy') ⟨hyz.1, hy', hz'⟩

end Traverse
section RegionsLoop

theorem any_mem_iff (regions : List (List Nat)) (x : Nat) :
    regions.any (fun R => decide (x ∈ R)) = true ↔ ∃ R ∈ regions, x ∈ R := by
  simp [List.any_eq_true]

theorem mem_unvisited (sal : List Nat) (regions : List (List Nat)) (x : Nat) :
    x ∈ sal.filter (fun x => !regions.any (fun R => decide (x ∈ R))) ↔
      x ∈ sal ∧ ¬ ∃ R ∈ regions, x ∈ R := by
  rw [List.mem_filter, ← any_mem_iff]
  simp

/-- What the loop of `extract_regions` maintains, whatever the adjacency. -/
theorem regions_loop_inv (N : Nat → List Nat) (sal : List Nat) :
    ∀ (ls : List Nat) (regions : List (List Nat)), (∀ l ∈ ls, l ∈ sal) →
      (∀ R ∈ regions, ∀ x ∈ R, x ∈ sal) →
      regions.Pairwise (fun R R' => ∀ x ∈ R, x ∉ R') →
      (∀ R ∈ regions, ∃ seed ∈ R, ∀ x ∈ R, Relation.ReflTransGen (edge_in N R) seed x) →
      (∀ R ∈ ls.foldl
          (fun regions l =>
            if regions.any (fun R => decide (l ∈ R)) then regions
            else regions ++ [traverse N
              (sal.filter (fun x => !regions.any (fun R => decide (x ∈ R)))) l])
          regions, ∀ x ∈ R, x ∈ sal) ∧
      (ls.foldl
          (fun regions l =>
            if regions.any (fun R => decide (l ∈ R)) then regions
            else regions ++ [traverse N
              (sal.filter (fun x => !regions.any (fun R => decide (x ∈ R)))) l])
          regions).Pairwise (fun R R' => ∀ x ∈ R, x ∉ R') ∧
      (∀ R ∈ ls.foldl
          (fun regions l =>
            if regions.any (fun R => decide (l ∈ R)) then regions
            else regions ++ [traverse N
              (sal.filter (fun x => !regions.any (fun R => decide (x ∈ R)))) l])
          regions, ∃ seed ∈ R, ∀ x ∈ R, Relation.ReflTransGen (edge_in N R) seed x) ∧
      (∀ R ∈ regions, R ∈ ls.foldl
          (fun regions l =>
            if regions.any (fun R => decide (l ∈ R)) then regions
            else regions ++ [traverse N
              (sal.filter (fun x => !regions.any (fun R => decide (x ∈ R)))) l])
          regions) ∧
      (∀ l ∈ ls, ∃ R ∈ ls.foldl
          (fun regions l =>
            if regions.any (fun R => decide (l ∈ R)) then regions
            else regions ++ [traverse N
              (sal.filter (fun x => !regions.any (fun R => decide (x ∈ R)))) l])
          regions, l ∈ R) := by
  intro ls
  induction ls with
  | nil =>
    intro regions _ h1 h3 h4
    exact ⟨h1, h3, h4, fun R hR => hR, fun l hl => by cases hl⟩
  | cons l rest ih =>
    intro regions hls h1 h3 h4
    rw [List.foldl_cons]
    have hrest : ∀ x ∈ rest, x ∈ sal := fun x hx => hls x (List.mem_cons_of_mem _ hx)
    by_cases hcov : regions.any (fun R => decide (l ∈ R)) = true
    · rw [if_pos hcov]
      obtain ⟨a1, a3, a4, a5, a6⟩ := ih regions hrest h1 h3 h4
      refine ⟨a1, a3, a4, a5, ?_⟩
      intro x hx
      rcases List.mem_cons.1 hx with rfl | hx
      · obtain ⟨R, hR, hxR⟩ := (any_mem_iff regions x).1 hcov
        exact ⟨R, a5 R hR, hxR⟩
      · exact a6 x hx
    · rw [if_neg hcov]
      have hl : l ∈ sal := hls l (List.mem_cons_self _ _)
      have hseed : l ∈ sal.filter (fun x => !regions.any (fun R => decide (x ∈ R))) := by
        rw [mem_unvisited, ← any_mem_iff]
        exact ⟨hl, hcov⟩
      have hsub : ∀ x ∈ traverse N
          (sal.filter (fun x => !regions.any (fun R => decide (x ∈ R)))) l,
          x ∈ sal ∧ ¬ ∃ R ∈ regions, x ∈ R :=
        fun x hx => (mem_unvisited sal regions x).1 (traverse_subset N _ l hseed x hx)
      obtain ⟨a1, a3, a4, a5, a6⟩ := ih
        (regions ++ [traverse N
          (sal.filter (fun x => !regions.any (fun R => decide (x ∈ R)))) l]) hrest
        (by
          intro R hR x hx
          rcases List.mem_append.1 hR with hR | hR
          · exact h1 R hR x hx
          · rw [List.mem_singleton] at hR
            subst hR
            exact (hsub x hx).1)
        (by
          rw [List.pairwise_append]
          refine ⟨h3, List.pairwise_singleton _ _, ?_⟩
          intro R hR R' hR' x hx hx'
          rw [List.mem_singleton] at hR'
          subst hR'
          exact (hsub x hx').2 ⟨R, hR, hx⟩)
        (by
          intro R hR
          rcases List.mem_append.1 hR with hR | hR
          · exact h4 R hR
          · rw [List.mem_singleton] at hR
            subst hR
            exact ⟨l, seed_mem_traverse N _ l hseed,
              fun x hx => traverse_connected N _ l hseed x hx⟩)
      refine ⟨a1, a3, a4, fun R hR => a5 R (List.mem_append_left _ hR), ?_⟩
      intro x hx
      rcases List.mem_cons.1 hx with rfl | hx
      · exact ⟨_, a5 _ (List.mem_append_right _ (List.mem_singleton_self _)),
          seed_mem_traverse N _ x hseed⟩
      · exact a6 x hx

/-- With an undirected adjacency, every region the loop of `extract_regions` holds is closed
under the edges between qualifying labels. -/
theorem regions_loop_closed (N : Nat → List Nat) (sal : List Nat)
    (hsym : ∀ a b, b ∈ N a → a ∈ N b) :
    ∀ (ls : List Nat) (regions : List (List Nat)), (∀ l ∈ ls, l ∈ sal) →
      (∀ R ∈ regions, ∀ a ∈ R, ∀ b ∈ N a, b ∈ sal → b ∈ R) →
      (∀ R ∈ ls.foldl
          (fun regions l =>
            if regions.any (fun R => decide (l ∈ R)) then regions
            else regions ++ [traverse N
              (sal.filter (fun x => !regions.any (fun R => decide (x ∈ R)))) l])
          regions, ∀ a ∈ R, ∀ b ∈ N a, b ∈ sal → b ∈ R) := by
  intro ls
  induction ls with
  | nil => intro regions _ h5; exact h5
  | cons l rest ih =>
    intro regions hls h5
    rw [List.foldl_cons]
    have hrest : ∀ x ∈ rest, x ∈ sal := fun x hx => hls x (List.mem_cons_of_mem _ hx)
    by_cases hcov : regions.any (fun R => decide (l ∈ R)) = true
    · rw [if_pos hcov]
      exact ih regions hrest h5
    · rw [if_neg hcov]
      have hl : l ∈ sal := hls l (List.mem_cons_self _ _)
      have hseed : l ∈ sal.filter (fun x => !regions.any (fun R => decide (x ∈ R))) := by
        rw [mem_unvisited, ← any_mem_iff]
        exact ⟨hl, hcov⟩
      apply ih _ hrest
      intro R hR a ha b hb hbs
      rcases List.mem_append.1 hR with hR | hR
      · exact h5 R hR a ha b hb hbs
      · rw [List.mem_singleton] at hR
        subst hR
        have hac := traverse_subset N _ l hseed a ha
        have ha' := (mem_unvisited sal regions a).1 hac
        by_cases hbc : ∃ R ∈ regions, b ∈ R
        · exfalso
          obtain ⟨R, hR, hbR⟩ := hbc
          exact ha'.2 ⟨R, hR, h5 R hR b hbR a (hsym a b hb) ha'.1⟩
        · have hbcand : b ∈ sal.filter
              (fun x => !regions.any (fun R => decide (x ∈ R))) :=
            (mem_unvisited sal regions b).2 ⟨hbs, hbc⟩
          rw [mem_traverse_iff N _ l hseed]
          exact Relation.ReflTransGen.tail ((mem_traverse_iff N _ l hseed a).1 ha)
            ⟨hb, hac, hbcand⟩

end RegionsLoop
section RegionsSpec
variable {SV D : Type}

theorem mem_salient_labels [LinearOrder D] (s : SurfaceOfInterest SV D) (m : std_string)
    (thr : D) (cls : Nat) (l : Nat) :
    l ∈ salient_labels s m thr cls ↔
      l ∈ keys s._supervoxels ∧ ∃ w, weight_of s._weights m cls l = some w ∧ thr ≤ w := by
  unfold salient_labels
  rw [List.mem_filter]
  cases h : weight_of s._weights m cls l <;> simp

theorem mem_extract_background [LinearOrder D] (s : SurfaceOfInterest SV D) (m : std_string)
    (thr : D) (cls : Nat) (l : Nat) :
    l ∈ extract_background s m thr cls ↔
      l ∈ keys s._supervoxels ∧ ∃ w, weight_of s._weights m cls l = some w ∧ w < thr := by
  unfold extract_background
  rw [List.mem_filter]
  cases h : weight_of s._weights m cls l <;> simp

/-- The regions of `extract_regions`: made of qualifying labels, pairwise disjoint, each joined
to a seed by its own edges, and covering the qualifying labels. -/
theorem extract_regions_inv [LinearOrder D] (N : Nat → List Nat) (s : SurfaceOfInterest SV D)
    (m : std_string) (thr : D) (cls : Nat) :
    (∀ R ∈ extract_regions N s m thr cls, ∀ x ∈ R, x ∈ salient_labels s m thr cls) ∧
    (extract_regions N s m thr cls).Pairwise (fun R R' => ∀ x ∈ R, x ∉ R') ∧
    (∀ R ∈ extract_regions N s m thr cls, ∃ seed ∈ R, ∀ x ∈ R,
      Relation.ReflTransGen (edge_in N R) seed x) ∧
    (∀ l ∈ salient_labels s m thr cls, ∃ R ∈ extract_regions N s m thr cls, l ∈ R) := by
  obtain ⟨a1, a3, a4, -, a6⟩ := regions_loop_inv N (salient_labels s m thr cls)
    (salient_labels s m thr cls) [] (fun _ h => h) (fun R hR => by cases hR)
    List.Pairwise.nil (fun R hR => by cases hR)
  exact ⟨a1, a3, a4, a6⟩

theorem extract_regions_closed [LinearOrder D] (N : Nat → List Nat)
    (s : SurfaceOfInterest SV D) (m : std_string) (thr : D) (cls : Nat)
    (hsym : ∀ a b, b ∈ N a → a ∈ N b) :
    ∀ R ∈ extract_regions N s m thr cls, ∀ a ∈ R, ∀ b ∈ N a,
      b ∈ salient_labels s m thr cls → b ∈ R :=
  regions_loop_closed N (salient_labels s m thr cls) hsym (salient_labels s m thr cls) []
    (fun _ h => h) (fun R hR => by cases hR)

theorem edge_in_symm (N : Nat → List Nat) (S : List Nat) (hsym : ∀ a b, b ∈ N a → a ∈ N b) :
    Symmetric (edge_in N S) :=
  fun a b h => ⟨hsym a b h.1, h.2.2, h.2.1⟩

end RegionsSpec
section FirstMin
variable {SV D : Type}

theorem foldl_min_spec {α : Type} [LinearOrder D] :
    ∀ (t p1 p2 : List (α × D)) (x : α × D),
      (∀ y ∈ p1, x.2 < y.2) → (∀ y ∈ p2, x.2 ≤ y.2) →
      ∃ q1 q2, p1 ++ x :: p2 ++ t =
          q1 ++ t.foldl (fun best y => if y.2 < best.2 then y else best) x :: q2 ∧
        (∀ y ∈ q1, (t.foldl (fun best y => if y.2 < best.2 then y else best) x).2 < y.2) ∧
        (∀ y ∈ q2, (t.foldl (fun best y => if y.2 < best.2 then y else best) x).2 ≤ y.2) := by
  intro t
  induction t with
  | nil =>
    intro p1 p2 x h1 h2
    exact ⟨p1, p2, by simp, h1, h2⟩
  | cons y t ih =>
    intro p1 p2 x h1 h2
    rw [List.foldl_cons]
    by_cases hy : y.2 < x.2
    · rw [if_pos hy]
      obtain ⟨q1, q2, he, hq1, hq2⟩ := ih (p1 ++ x :: p2) [] y
        (by
          intro z hz
          rcases List.mem_append.1 hz with hz | hz
          · exact lt_trans hy (h1 z hz)
          · rcases List.mem_cons.1 hz with rfl | hz
            · exact hy
            · exact lt_of_lt_of_le hy (h2 z hz))
        (by intro z hz; cases hz)
      exact ⟨q1, q2, by rw [← he]; simp, hq1, hq2⟩
    · rw [if_neg hy]
      obtain ⟨q1, q2, he, hq1, hq2⟩ := ih p1 (p2 ++ [y]) x h1
        (by
          intro z hz
          rcases List.mem_append.1 hz with hz | hz
          · exact h2 z hz
          · rw [List.mem_singleton] at hz
            subst hz
            exact not_lt.1 hy)
      exact ⟨q1, q2, by rw [← he]; simp, hq1, hq2⟩

/-- The entry `first_min` returns: no entry has a smaller value and every entry before it has
a larger one. -/
theorem first_min_spec {α : Type} [LinearOrder D] (l : List (α × D)) (hl : l ≠ []) :
    ∃ b q1 q2, first_min l = some b ∧ l = q1 ++ b :: q2 ∧
      (∀ y ∈ q1, b.2 < y.2) ∧ (∀ y ∈ l, b.2 ≤ y.2) := by
  cases l with
  | nil => exact absurd rfl hl
  | cons x t =>
    obtain ⟨q1, q2, he, hq1, hq2⟩ := foldl_min_spec t [] [] x
      (by intro z hz; cases hz) (by intro z hz; cases hz)
    refine ⟨_, q1, q2, rfl, by simpa using he, hq1, ?_⟩
    intro y hy
    have : y ∈ q1 ++ t.foldl (fun best y => if y.2 < best.2 then y else best) x :: q2 := by
      rw [← he]; simpa using hy
    rcases List.mem_append.1 this with h | h
    · exact (hq1 y h).le
    · rcases List.mem_cons.1 h with rfl | h
      · exact le_rfl
      · exact hq2 y h

theorem first_min_nil {α : Type} [LinearOrder D] : first_min ([] : List (α × D)) = none := rfl

end FirstMin
section Merge
variable {K A V : Type}

theorem find_foldl_emplace_entries [LinearOrder K] (h : K × A → V) :
    ∀ (es : StdMap K A) (r : StdMap K V) (k : K),
    find (es.foldl (fun acc e => emplace acc e.1 (h e)) r) k =
      if (find r k).isSome then find r k else (find es k).map (fun a => h (k, a))
  | [], r, k => by
    cases hr : find r k <;> simp [find, hr]
  | (k', a) :: t, r, k => by
    rw [List.foldl_cons, find_foldl_emplace_entries h t, find_emplace]
    cases hr : find r k with
    | some v => simp
    | none =>
      by_cases hk : k' = k
      · subst hk
        simp [find]
      · simp [find, hk]

theorem WF_foldl_of_step [LinearOrder K] (f : StdMap K V → K × A → StdMap K V)
    (hf : ∀ acc e, WF acc → WF (f acc e)) :
    ∀ (es : List (K × A)) (r : StdMap K V), WF r → WF (es.foldl f r)
  | [], _, hr => hr
  | e :: t, r, hr => by
    rw [List.foldl_cons]
    exact WF_foldl_of_step f hf t _ (hf r e hr)

theorem emplace_of_isSome [LinearOrder K] (m : StdMap K V) (k : K) (v : V)
    (h : (find m k).isSome = true) : emplace m k v = m := by
  unfold emplace
  cases hm : find m k with
  | none => rw [hm] at h; cases h
  | some w => rfl

theorem merge_rgbd_set_eq {T Mat : Type} [LinearOrder T] [Inhabited Mat]
    (rgb_set depth_set : StdMap T Mat) (rgbd_set : StdMap T (Mat × Mat)) :
    merge_rgbd_set rgb_set depth_set rgbd_set =
      depth_set.foldl
        (fun acc e => emplace acc e.1 ((fun (p : T × Mat) => ((default : Mat), p.2)) e))
        (rgb_set.foldl
          (fun acc e => emplace acc e.1
            ((fun (p : T × Mat) => (p.2, (find depth_set p.1).getD default)) e))
          rgbd_set) := by
  unfold merge_rgbd_set
  have h1 : ∀ (acc : StdMap T (Mat × Mat)) (itr : T × Mat),
      (if (find acc itr.1).isSome then acc else emplace acc itr.1 (default, itr.2)) =
        emplace acc itr.1 (default, itr.2) := by
    intro acc itr
    by_cases hs : (find acc itr.1).isSome = true
    · rw [if_pos hs, emplace_of_isSome _ _ _ hs]
    · rw [if_neg hs]
  have h2 : ∀ (itr : T × Mat),
      (if (find depth_set itr.1).isSome then (subscript depth_set itr.1).1 else default) =
        (find depth_set itr.1).getD default := by
    intro itr
    unfold subscript
    cases hd : find depth_set itr.1 <;> simp
  simp only [h1, h2]

end Merge
/-! ## The claims on the relevance-map engine -/
section Claims
variable {SV D : Type}

/-- C1: when the first feature record contains modality `m`, `compute_weights(m, classifier)`
returns and the relevance map stored under `m` has exactly the supervoxel labels as keys, one
entry per label, whatever `_weights` held before the call. -/
theorem compute_weights_keys [OfScientific D] (s : SurfaceOfInterest SV D) (m : std_string)
    (c : Classifier (List D) D) (hk : known_modality s._features m = true)
    (hsv : WF s._supervoxels) :
    ∃ s' r, compute_weights s m c = some s' ∧ find s'._weights m = some r ∧
      keys r = keys s._supervoxels := by
  refine ⟨_, _, compute_weights_known s m c hk, find_insert_or_assign_self _ _ _, ?_⟩
  rw [assign_emplace_eq_relevance_of s._supervoxels _ _ _ hsv (fun _ => Iff.rfl),
    keys_relevance_of]

theorem compute_weights_keys_witness :
    known_modality scene._features "a".toList = true ∧ WF scene._supervoxels ∧
    ∃ s' r, compute_weights scene "a".toList cons_classifier = some s' ∧
      find s'._weights "a".toList = some r ∧ keys r = [1, 2] :=
  ⟨by decide, by decide,
    compute_weights_keys scene "a".toList cons_classifier (by decide) (by decide)⟩

/-- C2: on a known modality, after `compute_weights(m, classifier)` every supervoxel label `L`
holds exactly `classifier.compute_estimation(_features[L][m])`; a classifier answering
`[0.3, 0.7]` for every feature leaves `[0.3, 0.7]` at every label. -/
theorem compute_weights_values [OfScientific D] (s : SurfaceOfInterest SV D) (m : std_string)
    (c : Classifier (List D) D) (hk : known_modality s._features m = true) :
    ∃ s' r, compute_weights s m c = some s' ∧ find s'._weights m = some r ∧
      (∀ L ∈ keys s._supervoxels,
        find r L = some (c.compute_estimation (feature_at s._features L m))) ∧
      ((∀ x, c.compute_estimation x = [0.3, 0.7]) →
        ∀ L ∈ keys s._supervoxels, find r L = some [0.3, 0.7]) := by
  have hv : ∀ L ∈ keys s._supervoxels,
      find ((keys s._supervoxels).foldl
        (fun r l => insert_or_assign r l (c.compute_estimation (feature_at s._features l m)))
        ((keys s._supervoxels).foldl
          (fun r l => emplace r l (List.replicate c.get_nbr_class (0.5 : D))) [])) L
      = some (c.compute_estimation (feature_at s._features L m)) := by
    intro L hL
    rw [find_foldl_assign, if_pos hL]
  refine ⟨_, _, compute_weights_known s m c hk, find_insert_or_assign_self _ _ _, hv, ?_⟩
  intro hc L hL
  rw [hv L hL, hc]

theorem compute_weights_values_witness :
    known_modality scene._features "a".toList = true ∧
    ∃ s' r, compute_weights scene "a".toList const_classifier = some s' ∧
      find s'._weights "a".toList = some r ∧
      (∀ L ∈ keys scene._supervoxels,
        find r L = some (const_classifier.compute_estimation (feature_at scene._features L "a".toList))) ∧
      ((∀ x, const_classifier.compute_estimation x = [0.3, 0.7]) →
        ∀ L ∈ keys scene._supervoxels, find r L = some [0.3, 0.7]) :=
  ⟨by decide, compute_weights_values scene "a".toList const_classifier (by decide)⟩

end Claims
section Claims2
variable {SV D : Type}

/-- C3: on a known modality, when the two classifiers return vectors of the same length for
the feature of every supervoxel, `compute_weights(m, primary, secondary)` returns and the weight
of label `L` for class `k` is `primary.compute_estimation(f)[k] * secondary.compute_estimation(f)[k]`
with `f = _features[L][m]`. -/
theorem compute_weights_comp_values [OfScientific D] [CommMagma D] (s : SurfaceOfInterest SV D)
    (m : std_string) (primary secondary : Classifier (List D) D)
    (hk : known_modality s._features m = true)
    (hlen : ∀ L ∈ keys s._supervoxels,
      (primary.compute_estimation (feature_at s._features L m)).length =
        (secondary.compute_estimation (feature_at s._features L m)).length) :
    ∃ s' r, compute_weights_comp s m primary secondary = some s' ∧
      find s'._weights m = some r ∧
      ∀ L ∈ keys s._supervoxels, ∃ v, find r L = some v ∧
        v.length = (primary.compute_estimation (feature_at s._features L m)).length ∧
        ∀ (k : Nat) (a b : D), (primary.compute_estimation (feature_at s._features L m))[k]? = some a →
          (secondary.compute_estimation (feature_at s._features L m))[k]? = some b →
          v[k]? = some (a * b) := by
  have hp : ∀ L ∈ keys s._supervoxels,
      product_loop (secondary.compute_estimation (feature_at s._features L m))
        (primary.compute_estimation (feature_at s._features L m)) =
      some (List.zipWith (fun a b => a * b)
        (secondary.compute_estimation (feature_at s._features L m))
        (primary.compute_estimation (feature_at s._features L m))) :=
    fun L hL => product_loop_eq _ _ (le_of_eq (hlen L hL))
  have hall : (keys s._supervoxels).all (fun l =>
      (product_loop (secondary.compute_estimation (feature_at s._features l m))
        (primary.compute_estimation (feature_at s._features l m))).isSome) = true := by
    rw [List.all_eq_true]
    intro L hL
    rw [hp L hL]; rfl
  have h := compute_weights_comp_known s m primary secondary hk
  rw [if_pos hall] at h
  refine ⟨_, _, h, find_insert_or_assign_self _ _ _, ?_⟩
  intro L hL
  refine ⟨List.zipWith (fun a b => a * b)
    (secondary.compute_estimation (feature_at s._features L m))
    (primary.compute_estimation (feature_at s._features L m)), ?_, ?_, ?_⟩
  · rw [find_foldl_assign, if_pos hL, hp L hL]; rfl
  · simp [List.length_zipWith, hlen L hL]
  · intro k a b ha hb
    simp only [List.getElem?_zipWith, hb, ha, Option.map_some', Option.some_bind,
      Option.bind_eq_bind]
    rw [mul_comm]

theorem compute_weights_comp_values_witness :
    known_modality scene._features "a".toList = true ∧
    (∀ L ∈ keys scene._supervoxels,
      (cons_classifier.compute_estimation (feature_at scene._features L "a".toList)).length =
        (const_classifier.compute_estimation (feature_at scene._features L "a".toList)).length) ∧
    ∃ s' r, compute_weights_comp scene "a".toList cons_classifier const_classifier = some s' ∧
      find s'._weights "a".toList = some r ∧
      ∀ L ∈ keys scene._supervoxels, ∃ v, find r L = some v ∧
        v.length =
          (cons_classifier.compute_estimation (feature_at scene._features L "a".toList)).length ∧
        ∀ (k : Nat) (a b : ℚ),
          (cons_classifier.compute_estimation (feature_at scene._features L "a".toList))[k]?
            = some a →
          (const_classifier.compute_estimation (feature_at scene._features L "a".toList))[k]?
            = some b →
          v[k]? = some (a * b) :=
  ⟨by decide, by decide,
    compute_weights_comp_values scene "a".toList cons_classifier const_classifier
      (by decide) (by decide)⟩

/-- C4: when the first feature record does not contain the requested modality, the
single-classifier and the two-classifier `compute_weights` return with the engine, and so the
whole of `_weights`, exactly as before the call. -/
theorem compute_weights_unknown_noop [OfScientific D] [Mul D] (s : SurfaceOfInterest SV D)
    (m : std_string) (c comp : Classifier (List D) D) (hne : s._features ≠ [])
    (hk : known_modality s._features m = false) :
    (∃ s', compute_weights s m c = some s' ∧ s'._weights = s._weights ∧ s' = s) ∧
    (∃ s', compute_weights_comp s m c comp = some s' ∧ s'._weights = s._weights ∧ s' = s) :=
  ⟨⟨s, compute_weights_unknown s m c hne hk, rfl, rfl⟩,
    ⟨s, compute_weights_comp_unknown s m c comp hne hk, rfl, rfl⟩⟩

theorem compute_weights_unknown_noop_witness :
    scene._features ≠ [] ∧ known_modality scene._features "c".toList = false ∧
    (∃ s', compute_weights scene "c".toList cons_classifier = some s' ∧
      s'._weights = [("a".toList, [(9, [1, 1])])] ∧ s' = scene) ∧
    (∃ s', compute_weights_comp scene "c".toList cons_classifier const_classifier = some s' ∧
      s'._weights = [("a".toList, [(9, [1, 1])])] ∧ s' = scene) :=
  ⟨by decide, by decide,
    compute_weights_unknown_noop scene "c".toList cons_classifier const_classifier
      (by decide) (by decide)⟩

end Claims2
section Claims3
variable {SV D : Type}

/-- C8: after the multi-feature `compute_weights(classifier)` the relevance map "merge" has
exactly the supervoxel labels as keys and label `L` holds
`classifier.compute_estimation(_features[L])`, the classifier applied to the whole feature
record of `L`; no zero vector of the pre-population is left. -/
theorem compute_weights_merge_values [Zero D] (s : SurfaceOfInterest SV D)
    (c : Classifier (feature_record_t D) D) (hsv : WF s._supervoxels) :
    ∃ r, find (compute_weights_merge s c)._weights "merge".toList = some r ∧
      keys r = keys s._supervoxels ∧
      ∀ L ∈ keys s._supervoxels,
        find r L = some (c.compute_estimation (record_at s._features L)) := by
  rw [compute_weights_merge_eq]
  refine ⟨_, find_insert_or_assign_self _ _ _, ?_, ?_⟩
  · rw [emplaced_eq_relevance_of _ _ hsv, keys_relevance_of]
  · intro L hL
    rw [find_emplaced, if_pos hL]

theorem compute_weights_merge_values_witness :
    WF scene._supervoxels ∧
    ∃ r, find (compute_weights_merge scene merge_classifier)._weights "merge".toList = some r ∧
      keys r = [1, 2] ∧
      ∀ L ∈ keys scene._supervoxels,
        find r L = some (merge_classifier.compute_estimation (record_at scene._features L)) :=
  ⟨by decide, compute_weights_merge_values scene merge_classifier (by decide)⟩

/-- C9: when `computeSupervoxel(workspace)` reports failure, the learning-policy `generate`
returns false and `_weights` is what it was before the call. -/
theorem generate_failure [OfScientific D] {W : Type}
    (computeSupervoxel : SupervoxelSet SV D → W → Bool × SupervoxelSet SV D)
    (s : SurfaceOfInterest SV D) (m : std_string) (c : Classifier (List D) D)
    (workspace : W) (init_val : D)
    (hfail : (computeSupervoxel s.toSupervoxelSet workspace).1 = false) :
    ∃ s', generate computeSupervoxel s m c workspace init_val = some (false, s') ∧
      s'._weights = s._weights := by
  unfold generate
  simp [hfail]

theorem generate_failure_witness :
    ((fun (b : SupervoxelSet Unit ℚ) (_ : Unit) => (false, b)) scene.toSupervoxelSet ()).1 = false ∧
    ∃ s', generate (fun (b : SupervoxelSet Unit ℚ) (_ : Unit) => (false, b)) scene "a".toList
        cons_classifier () 1 = some (false, s') ∧
      s'._weights = scene._weights :=
  ⟨rfl, generate_failure (fun (b : SupervoxelSet Unit ℚ) (_ : Unit) => (false, b)) scene
    "a".toList cons_classifier () 1 rfl⟩

end Claims3
section Claims4
variable {SV D : Type}

theorem all_congr_of_mem_iff {α : Type} (p : α → Bool) (l₁ l₂ : List α)
    (h : ∀ k, k ∈ l₁ ↔ k ∈ l₂) : l₁.all p = l₂.all p := by
  rw [Bool.eq_iff_iff, List.all_eq_true, List.all_eq_true]
  exact ⟨fun H x hx => H x ((h x).2 hx), fun H x hx => H x ((h x).1 hx)⟩

/-- C10: the per-label phase gives the same relevance maps whatever the order in which the
labels are visited: running the per-label writes of the single-classifier, two-classifier
and multi-feature variants over any permutation `lbls'` of the label list `lbls` collected
by the pre-population yields the same `_weights` as running them over `lbls` itself. -/
theorem per_label_order_independent [OfScientific D] [Zero D] [Mul D]
    (s : SurfaceOfInterest SV D) (m : std_string) (c comp : Classifier (List D) D)
    (cm : Classifier (feature_record_t D) D) (lbls' : List Nat)
    (hperm : lbls'.Perm (keys s._supervoxels)) :
    (prepopulate s._supervoxels m (List.replicate c.get_nbr_class (0.5 : D))
      (reset_weights s._weights m)).1 = keys s._supervoxels ∧
    (per_label m c lbls' s._features
      (prepopulate s._supervoxels m (List.replicate c.get_nbr_class (0.5 : D))
        (reset_weights s._weights m)).2).2 =
    (per_label m c (keys s._supervoxels) s._features
      (prepopulate s._supervoxels m (List.replicate c.get_nbr_class (0.5 : D))
        (reset_weights s._weights m)).2).2 ∧
    (per_label_comp m c comp lbls' s._features
      (prepopulate s._supervoxels m (List.replicate c.get_nbr_class (0.5 : D))
        (reset_weights s._weights m)).2).map Prod.snd =
    (per_label_comp m c comp (keys s._supervoxels) s._features
      (prepopulate s._supervoxels m (List.replicate c.get_nbr_class (0.5 : D))
        (reset_weights s._weights m)).2).map Prod.snd ∧
    (prepopulate s._supervoxels "merge".toList (List.replicate cm.get_nbr_class (0 : D))
      (reset_weights s._weights "merge".toList)).1 = keys s._supervoxels ∧
    (per_label_merge cm lbls' s._features
      (prepopulate s._supervoxels "merge".toList (List.replicate cm.get_nbr_class (0 : D))
        (reset_weights s._weights "merge".toList)).2).2 =
    (per_label_merge cm (keys s._supervoxels) s._features
      (prepopulate s._supervoxels "merge".toList (List.replicate cm.get_nbr_class (0 : D))
        (reset_weights s._weights "merge".toList)).2).2 := by
  have hmem : ∀ k, k ∈ lbls' ↔ k ∈ keys s._supervoxels := fun k => hperm.mem_iff
  simp only [reset_weights_eq, prepopulate_eq]
  refine ⟨trivial, ?_, ?_, trivial, ?_⟩
  · rw [per_label_eq m c (fun l => feature_at s._features l m) _ _ _ _ (fun _ => rfl),
      per_label_eq m c (fun l => feature_at s._features l m) _ _ _ _ (fun _ => rfl),
      assign_emplace_eq_emplaced _ _ _ _ hmem,
      assign_emplace_eq_emplaced _ _ _ _ (fun _ => Iff.rfl)]
  · rw [per_label_comp_eq m c comp (fun l => feature_at s._features l m) _ _ _ _ (fun _ => rfl),
      per_label_comp_eq m c comp (fun l => feature_at s._features l m) _ _ _ _ (fun _ => rfl),
      assign_emplace_eq_emplaced _ _ _ _ hmem,
      assign_emplace_eq_emplaced _ _ _ _ (fun _ => Iff.rfl),
      all_congr_of_mem_iff _ _ _ hmem]
    split_ifs <;> rfl
  · rw [per_label_merge_eq cm (fun l => record_at s._features l) _ _ _ _ (fun _ => rfl),
      per_label_merge_eq cm (fun l => record_at s._features l) _ _ _ _ (fun _ => rfl),
      assign_emplace_eq_emplaced _ _ _ _ hmem,
      assign_emplace_eq_emplaced _ _ _ _ (fun _ => Iff.rfl)]

theorem per_label_order_independent_witness :
    [2, 1].Perm (keys scene._supervoxels) ∧
    (per_label "a".toList cons_classifier [2, 1] scene._features
      (prepopulate scene._supervoxels "a".toList
        (List.replicate cons_classifier.get_nbr_class (0.5 : ℚ))
        (reset_weights scene._weights "a".toList)).2).2 =
    (per_label "a".toList cons_classifier (keys scene._supervoxels) scene._features
      (prepopulate scene._supervoxels "a".toList
        (List.replicate cons_classifier.get_nbr_class (0.5 : ℚ))
        (reset_weights scene._weights "a".toList)).2).2 :=
  ⟨by decide,
    (per_label_order_independent scene "a".toList cons_classifier const_classifier
      merge_classifier [2, 1] (by decide)).2.1⟩

end Claims4
section Claims5
variable {SV D : Type}

/-- C7: the classifier-map variant is the single-classifier procedure repeated per modality:
`compute_weights(classifiers)` returns exactly what calling `compute_weights(m, c)` for each
entry `(m, c)` of the map in key order returns (the same engine, hence the same `_weights`),
although it emplaces the estimations directly instead of pre-populating `0.5`. -/
theorem compute_weights_map_eq_repeat [OfScientific D] (s : SurfaceOfInterest SV D)
    (classifiers : StdMap std_string (Classifier (List D) D)) :
    compute_weights_map s classifiers =
      classifiers.foldlM (fun s classi => compute_weights s classi.1 classi.2) s := by
  unfold compute_weights_map
  congr 1
  funext s classi
  exact (compute_weights_eq_map_step s classi.1 classi.2).symm

end Claims5
section Claims6
variable {SV D : Type}

end Claims6
section Claims7
variable {SV D : Type}

/-- C5: idempotence. On a known modality, a second `compute_weights(m, classifier)` right
after the first returns with `_weights` equal to what the first call left; the same holds for
the two-classifier variant (the product loop staying in bounds), for the multi-feature variant
and for the classifier-map variant. -/
theorem compute_weights_idempotent [OfScientific D] [Zero D] [Mul D]
    (s : SurfaceOfInterest SV D) (m : std_string) (c comp : Classifier (List D) D)
    (cm : Classifier (feature_record_t D) D)
    (cs : StdMap std_string (Classifier (List D) D))
    (hk : known_modality s._features m = true)
    (hlen : ∀ L ∈ keys s._supervoxels,
      (c.compute_estimation (feature_at s._features L m)).length ≤
        (comp.compute_estimation (feature_at s._features L m)).length)
    (hw : WF s._weights) (hf : WF s._features) (hcs : WF cs) :
    (∃ s1 s2, compute_weights s m c = some s1 ∧ compute_weights s1 m c = some s2 ∧
      s2._weights = s1._weights) ∧
    (∃ s1 s2, compute_weights_comp s m c comp = some s1 ∧
      compute_weights_comp s1 m c comp = some s2 ∧ s2._weights = s1._weights) ∧
    (compute_weights_merge (compute_weights_merge s cm) cm)._weights =
      (compute_weights_merge s cm)._weights ∧
    (∃ s1 s2, compute_weights_map s cs = some s1 ∧ compute_weights_map s1 cs = some s2 ∧
      s2._weights = s1._weights) := by
  have hne : s._features ≠ [] := by
    intro h; rw [h] at hk; cases hk
  refine ⟨?_, ?_, ?_, ?_⟩
  · refine ⟨_, _, compute_weights_known s m c hk,
      compute_weights_known _ m c (known_modality_touch_features m _ _ hk), ?_⟩
    simp only [feature_at_touch_features, insert_or_assign_twice]
  · have hall : (keys s._supervoxels).all (fun l =>
        (product_loop (comp.compute_estimation (feature_at s._features l m))
          (c.compute_estimation (feature_at s._features l m))).isSome) = true := by
      rw [List.all_eq_true]
      intro L hL
      rw [product_loop_eq _ _ (hlen L hL)]; rfl
    have h1 := compute_weights_comp_known s m c comp hk
    rw [if_pos hall] at h1
    obtain ⟨s1, hs1⟩ : ∃ s1, compute_weights_comp s m c comp = some s1 := ⟨_, h1⟩
    have e := Option.some.inj (h1.symm.trans hs1)
    have hk1 : known_modality s1._features m = true := by
      rw [← e]; exact known_modality_touch_features m _ _ hk
    have h2 := compute_weights_comp_known s1 m c comp hk1
    have hsv : s1._supervoxels = s._supervoxels := by rw [← e]
    have hΦ : ∀ l, feature_at s1._features l m = feature_at s._features l m := by
      intro l; rw [← e]; exact feature_at_touch_features _ _ _ _ _
    simp only [hsv, hΦ] at h2
    rw [if_pos hall] at h2
    refine ⟨s1, _, hs1, h2, ?_⟩
    rw [← e]
    simp only [insert_or_assign_twice]
  · simp only [compute_weights_merge_eq, record_at_touch_records, insert_or_assign_twice]
  · obtain ⟨s1, h1, hsv1, hne1, hΦ1, hw1, hf1, -, -, -⟩ := map_run_spec cs s hne
    have hU := map_run_known_entries cs s s1 hne hf hcs h1
    obtain ⟨s2, h2, hw2⟩ := map_run_fixed cs cs s1 (fun _ h => h) hne1 (hf1 hf) (hw1 hw)
      (by
        intro mc hmc hk'
        rw [hU mc hmc hk', hsv1]
        simp only [hΦ1])
    exact ⟨s1, s2, h1, h2, hw2⟩

theorem compute_weights_idempotent_witness :
    known_modality scene._features "a".toList = true ∧
    (∀ L ∈ keys scene._supervoxels,
      (cons_classifier.compute_estimation (feature_at scene._features L "a".toList)).length ≤
        (const_classifier.compute_estimation (feature_at scene._features L "a".toList)).length) ∧
    WF scene._weights ∧ WF scene._features ∧ WF classifier_map ∧
    (∃ s1 s2, compute_weights scene "a".toList cons_classifier = some s1 ∧
      compute_weights s1 "a".toList cons_classifier = some s2 ∧ s2._weights = s1._weights) ∧
    (∃ s1 s2, compute_weights_comp scene "a".toList cons_classifier const_classifier = some s1 ∧
      compute_weights_comp s1 "a".toList cons_classifier const_classifier = some s2 ∧
      s2._weights = s1._weights) ∧
    (compute_weights_merge (compute_weights_merge scene merge_classifier)
      merge_classifier)._weights = (compute_weights_merge scene merge_classifier)._weights ∧
    (∃ s1 s2, compute_weights_map scene classifier_map = some s1 ∧
      compute_weights_map s1 classifier_map = some s2 ∧ s2._weights = s1._weights) :=
  ⟨by decide, by decide, by decide, by decide, by decide,
    compute_weights_idempotent scene "a".toList cons_classifier const_classifier
      merge_classifier classifier_map (by decide) (by decide) (by decide) (by decide)
      (by decide)⟩

end Claims7
section Claims8
variable {SV D : Type}

/-- C11: fixed keys during the per-label phase. In the single-classifier, two-classifier and
multi-feature variants every label collected in `lbls` is a key of the modality's relevance
map once the pre-population is done, and after the first `k` per-label writes, for every `k`,
the keys of that relevance map are the keys the pre-population left: no write inserts or
erases a key. -/
theorem per_label_fixed_keys [OfScientific D] [Zero D] [Mul D] (s : SurfaceOfInterest SV D)
    (m : std_string) (c comp : Classifier (List D) D)
    (cm : Classifier (feature_record_t D) D) (k : Nat) :
    (∀ l ∈ (prepopulate s._supervoxels m (List.replicate c.get_nbr_class (0.5 : D))
        (reset_weights s._weights m)).1,
      l ∈ keys ((find (prepopulate s._supervoxels m (List.replicate c.get_nbr_class (0.5 : D))
        (reset_weights s._weights m)).2 m).getD [])) ∧
    keys ((find (per_label m c
        ((prepopulate s._supervoxels m (List.replicate c.get_nbr_class (0.5 : D))
          (reset_weights s._weights m)).1.take k) s._features
        (prepopulate s._supervoxels m (List.replicate c.get_nbr_class (0.5 : D))
          (reset_weights s._weights m)).2).2 m).getD []) =
      keys ((find (prepopulate s._supervoxels m (List.replicate c.get_nbr_class (0.5 : D))
        (reset_weights s._weights m)).2 m).getD []) ∧
    (∀ r, per_label_comp m c comp
        ((prepopulate s._supervoxels m (List.replicate c.get_nbr_class (0.5 : D))
          (reset_weights s._weights m)).1.take k) s._features
        (prepopulate s._supervoxels m (List.replicate c.get_nbr_class (0.5 : D))
          (reset_weights s._weights m)).2 = some r →
      keys ((find r.2 m).getD []) =
        keys ((find (prepopulate s._supervoxels m (List.replicate c.get_nbr_class (0.5 : D))
          (reset_weights s._weights m)).2 m).getD [])) ∧
    (∀ l ∈ (prepopulate s._supervoxels "merge".toList
        (List.replicate cm.get_nbr_class (0 : D))
        (reset_weights s._weights "merge".toList)).1,
      l ∈ keys ((find (prepopulate s._supervoxels "merge".toList
        (List.replicate cm.get_nbr_class (0 : D))
        (reset_weights s._weights "merge".toList)).2 "merge".toList).getD [])) ∧
    keys ((find (per_label_merge cm
        ((prepopulate s._supervoxels "merge".toList (List.replicate cm.get_nbr_class (0 : D))
          (reset_weights s._weights "merge".toList)).1.take k) s._features
        (prepopulate s._supervoxels "merge".toList (List.replicate cm.get_nbr_class (0 : D))
          (reset_weights s._weights "merge".toList)).2).2 "merge".toList).getD []) =
      keys ((find (prepopulate s._supervoxels "merge".toList
        (List.replicate cm.get_nbr_class (0 : D))
        (reset_weights s._weights "merge".toList)).2 "merge".toList).getD []) := by
  have hWF : ∀ init : List D,
      WF ((keys s._supervoxels).foldl (fun r l => emplace r l init) ([] : relevance_map_t D)) :=
    fun init => WF_foldl_emplace _ (fun _ => init) [] WF_nil
  have hmem : ∀ (init : List D), ∀ l ∈ (keys s._supervoxels).take k,
      l ∈ keys ((keys s._supervoxels).foldl (fun r l => emplace r l init)
        ([] : relevance_map_t D)) :=
    fun init l hl => (mem_keys_foldl_emplace _ init l).2 (List.mem_of_mem_take hl)
  simp only [reset_weights_eq, prepopulate_eq, find_insert_or_assign_self, Option.getD_some]
  refine ⟨fun l hl => (mem_keys_foldl_emplace _ _ l).2 hl, ?_, ?_,
    fun l hl => (mem_keys_foldl_emplace _ _ l).2 hl, ?_⟩
  · rw [per_label_eq m c (fun l => feature_at s._features l m) _ _ _ _ (fun _ => rfl),
      find_insert_or_assign_self, Option.getD_some]
    exact keys_foldl_assign _ _ _ (hWF _) (hmem _)
  · intro r hr
    rw [per_label_comp_eq m c comp (fun l => feature_at s._features l m) _ _ _ _
      (fun _ => rfl)] at hr
    split_ifs at hr
    cases hr
    rw [find_insert_or_assign_self, Option.getD_some]
    exact keys_foldl_assign _ _ _ (hWF _) (hmem _)
  · rw [per_label_merge_eq cm (fun l => record_at s._features l) _ _ _ _ (fun _ => rfl),
      find_insert_or_assign_self, Option.getD_some]
    exact keys_foldl_assign _ _ _ (hWF _) (hmem _)

/-- C12: frame. `compute_weights(m, classifier)` and `compute_weights(m, primary, secondary)`
leave the entry of every modality name other than `m` as it was, present or absent, with the
same contents; the multi-feature variant leaves every entry other than "merge" as it was. -/
theorem compute_weights_frame [OfScientific D] [Zero D] [Mul D] (s : SurfaceOfInterest SV D)
    (m m' : std_string) (c comp : Classifier (List D) D)
    (cm : Classifier (feature_record_t D) D) (hne : s._features ≠ []) (hm : m ≠ m')
    (hlen : ∀ L ∈ keys s._supervoxels,
      (c.compute_estimation (feature_at s._features L m)).length ≤
        (comp.compute_estimation (feature_at s._features L m)).length) :
    (∃ s', compute_weights s m c = some s' ∧ find s'._weights m' = find s._weights m') ∧
    (∃ s', compute_weights_comp s m c comp = some s' ∧
      find s'._weights m' = find s._weights m') ∧
    ("merge".toList ≠ m' →
      find (compute_weights_merge s cm)._weights m' = find s._weights m') := by
  refine ⟨?_, ?_, ?_⟩
  · cases hk : known_modality s._features m with
    | false => exact ⟨s, compute_weights_unknown s m c hne hk, rfl⟩
    | true =>
      refine ⟨_, compute_weights_known s m c hk, ?_⟩
      simp only [find_insert_or_assign, if_neg hm]
  · cases hk : known_modality s._features m with
    | false => exact ⟨s, compute_weights_comp_unknown s m c comp hne hk, rfl⟩
    | true =>
      have hall : (keys s._supervoxels).all (fun l =>
          (product_loop (comp.compute_estimation (feature_at s._features l m))
            (c.compute_estimation (feature_at s._features l m))).isSome) = true := by
        rw [List.all_eq_true]
        intro L hL
        rw [product_loop_eq _ _ (hlen L hL)]; rfl
      have h := compute_weights_comp_known s m c comp hk
      rw [if_pos hall] at h
      refine ⟨_, h, ?_⟩
      simp only [find_insert_or_assign, if_neg hm]
  · intro hmerge
    rw [compute_weights_merge_eq]
    simp only [find_insert_or_assign, if_neg hmerge]

theorem compute_weights_frame_witness :
    scene._features ≠ [] ∧ "b".toList ≠ "a".toList ∧
    (∀ L ∈ keys scene._supervoxels,
      (cons_classifier.compute_estimation (feature_at scene._features L "b".toList)).length ≤
        (const_classifier.compute_estimation (feature_at scene._features L "b".toList)).length) ∧
    (∃ s', compute_weights scene "b".toList cons_classifier = some s' ∧
      find s'._weights "a".toList = find scene._weights "a".toList) ∧
    (∃ s', compute_weights_comp scene "b".toList cons_classifier const_classifier = some s' ∧
      find s'._weights "a".toList = find scene._weights "a".toList) ∧
    ("merge".toList ≠ "a".toList →
      find (compute_weights_merge scene merge_classifier)._weights "a".toList =
        find scene._weights "a".toList) :=
  ⟨by decide, by decide, by decide,
    compute_weights_frame scene "b".toList "a".toList cons_classifier const_classifier
      merge_classifier (by decide) (by decide) (by decide)⟩

end Claims8
section Claims9
variable {SV D : Type}

/-- C13: on a populated relevance map (every supervoxel label has a weight for the class), the
regions of `extract_regions` together with the set of `extract_background` make up the
supervoxel labels, the regions are pairwise disjoint, no label of a region is in the
background, the background holds exactly the labels whose weight is below the threshold and
the regions exactly those whose weight is at or above it. -/
theorem regions_background_partition [LinearOrder D] (N : Nat → List Nat)
    (s : SurfaceOfInterest SV D) (m : std_string) (thr : D) (cls : Nat)
    (hpop : ∀ l ∈ keys s._supervoxels, (weight_of s._weights m cls l).isSome = true) :
    (∀ l, l ∈ keys s._supervoxels ↔
      (∃ R ∈ extract_regions N s m thr cls, l ∈ R) ∨ l ∈ extract_background s m thr cls) ∧
    (extract_regions N s m thr cls).Pairwise (fun R R' => ∀ x ∈ R, x ∉ R') ∧
    (∀ R ∈ extract_regions N s m thr cls, ∀ l ∈ R, l ∉ extract_background s m thr cls) ∧
    (∀ l, l ∈ extract_background s m thr cls ↔
      l ∈ keys s._supervoxels ∧ ∃ w, weight_of s._weights m cls l = some w ∧ w < thr) ∧
    (∀ l, (∃ R ∈ extract_regions N s m thr cls, l ∈ R) ↔
      l ∈ keys s._supervoxels ∧ ∃ w, weight_of s._weights m cls l = some w ∧ thr ≤ w) := by
  obtain ⟨a1, a3, -, a6⟩ := extract_regions_inv N s m thr cls
  have hreg : ∀ l, (∃ R ∈ extract_regions N s m thr cls, l ∈ R) ↔
      l ∈ salient_labels s m thr cls :=
    fun l => ⟨fun ⟨R, hR, hl⟩ => a1 R hR l hl, fun h => a6 l h⟩
  refine ⟨?_, a3, ?_, fun l => mem_extract_background s m thr cls l, ?_⟩
  · intro l
    rw [hreg, mem_salient_labels, mem_extract_background]
    constructor
    · intro hl
      obtain ⟨w, hw⟩ := Option.isSome_iff_exists.1 (hpop l hl)
      rcases le_or_lt thr w with h | h
      · exact Or.inl ⟨hl, w, hw, h⟩
      · exact Or.inr ⟨hl, w, hw, h⟩
    · rintro (h | h) <;> exact h.1
  · intro R hR l hl hb
    obtain ⟨-, w, hw, hle⟩ := (mem_salient_labels s m thr cls l).1 (a1 R hR l hl)
    obtain ⟨-, w', hw', hlt⟩ := (mem_extract_background s m thr cls l).1 hb
    rw [hw] at hw'
    cases hw'
    exact absurd hlt (not_lt.2 hle)
  · intro l
    rw [hreg, mem_salient_labels]

theorem regions_background_partition_witness :
    (∀ l ∈ keys four._supervoxels,
      (weight_of four._weights "m".toList 0 l).isSome = true) ∧
    (∀ l, l ∈ keys four._supervoxels ↔
      (∃ R ∈ extract_regions four_neighbors four "m".toList 0.5 0, l ∈ R) ∨
        l ∈ extract_background four "m".toList 0.5 0) ∧
    (extract_regions four_neighbors four "m".toList 0.5 0).Pairwise
      (fun R R' => ∀ x ∈ R, x ∉ R') :=
  ⟨by decide,
    (regions_background_partition four_neighbors four "m".toList 0.5 0 (by decide)).1,
    (regions_background_partition four_neighbors four "m".toList 0.5 0 (by decide)).2.1⟩

/-- C14: with an undirected adjacency the regions of `extract_regions` are the connected
components of the adjacency graph restricted to the qualifying labels. No region is empty; a
region holds, with any of its labels, exactly the labels joined to it through qualifying
labels; two labels of a region are joined by edges between labels of that region; every
qualifying label is in a region, alone in it when none of its neighbours qualifies. On the
four-supervoxel scenario the result is `[{1,2},{4}]` and the background is `{3}`. -/
theorem regions_are_components [LinearOrder D] (N : Nat → List Nat)
    (s : SurfaceOfInterest SV D) (m : std_string) (thr : D) (cls : Nat)
    (hsym : ∀ a b, b ∈ N a → a ∈ N b) :
    (∀ R ∈ extract_regions N s m thr cls, R ≠ []) ∧
    (∀ R ∈ extract_regions N s m thr cls, ∀ x ∈ R, ∀ y,
      y ∈ R ↔ Relation.ReflTransGen (edge_in N (salient_labels s m thr cls)) x y) ∧
    (∀ R ∈ extract_regions N s m thr cls, ∀ x ∈ R, ∀ y ∈ R,
      Relation.ReflTransGen (edge_in N R) x y) ∧
    (∀ l ∈ salient_labels s m thr cls, ∃ R ∈ extract_regions N s m thr cls, l ∈ R) ∧
    (∀ l ∈ salient_labels s m thr cls,
      (∀ b ∈ N l, b ∈ salient_labels s m thr cls → b = l) →
      ∃ R ∈ extract_regions N s m thr cls, ∀ y, y ∈ R ↔ y = l) ∧
    extract_regions four_neighbors four "m".toList 0.5 0 = [[1, 2], [4]] ∧
    extract_background four "m".toList 0.5 0 = [3] := by
  obtain ⟨a1, -, a4, a6⟩ := extract_regions_inv N s m thr cls
  have a5 := extract_regions_closed N s m thr cls hsym
  have hconn : ∀ R ∈ extract_regions N s m thr cls, ∀ x ∈ R, ∀ y ∈ R,
      Relation.ReflTransGen (edge_in N R) x y := by
    intro R hR x hx y hy
    obtain ⟨seed, -, hseed⟩ := a4 R hR
    exact Relation.ReflTransGen.trans
      (Relation.ReflTransGen.symmetric (edge_in_symm N R hsym) (hseed x hx)) (hseed y hy)
  have hclosed : ∀ R ∈ extract_regions N s m thr cls, ∀ x ∈ R, ∀ y,
      Relation.ReflTransGen (edge_in N (salient_labels s m thr cls)) x y → y ∈ R := by
    intro R hR x hx y hxy
    induction hxy with
    | refl => exact hx
    | tail _ hbc ih => exact a5 R hR _ ih _ hbc.1 hbc.2.2
  refine ⟨?_, ?_, hconn, a6, ?_, ?_, ?_⟩
  · intro R hR hnil
    obtain ⟨seed, hs, -⟩ := a4 R hR
    rw [hnil] at hs
    cases hs
  · intro R hR x hx y
    constructor
    · intro hy
      exact Relation.ReflTransGen.mono
        (fun a b h => ⟨h.1, a1 R hR a h.2.1, a1 R hR b h.2.2⟩) (hconn R hR x hx y hy)
    · exact hclosed R hR x hx y
  · intro l hl hiso
    obtain ⟨R, hR, hlR⟩ := a6 l hl
    refine ⟨R, hR, fun y => ⟨fun hy => ?_, fun hy => hy ▸ hlR⟩⟩
    have hpath := hconn R hR l hlR y hy
    induction hpath with
    | refl => rfl
    | tail _ hbc ih =>
      have hb := ih hbc.2.1
      subst hb
      exact hiso _ hbc.1 (a1 R hR _ hbc.2.2)
  · have h : salient_labels four "m".toList 0.5 0 = [1, 2, 4] := by
      simp [salient_labels, four, keys, weight_of, find]
      norm_num [List.filter]
    unfold extract_regions
    rw [h]
    decide
  · simp [extract_background, four, keys, weight_of, find]
    norm_num [List.filter]

theorem regions_are_components_witness :
    (∀ a b, b ∈ four_neighbors a → a ∈ four_neighbors b) ∧
    (∀ R ∈ extract_regions four_neighbors four "m".toList 0.5 0, R ≠ []) ∧
    (∀ R ∈ extract_regions four_neighbors four "m".toList 0.5 0, ∀ x ∈ R, ∀ y ∈ R,
      Relation.ReflTransGen (edge_in four_neighbors R) x y) :=
  have hsym : ∀ a b, b ∈ four_neighbors a → a ∈ four_neighbors b := by
    intro a b h
    unfold four_neighbors at h
    split at h <;> simp at h
    · subst h; simp [four_neighbors]
    · rcases h with rfl | rfl <;> simp [four_neighbors]
    · subst h; simp [four_neighbors]
  ⟨hsym, (regions_are_components four_neighbors four "m".toList 0.5 0 hsym).1,
    (regions_are_components four_neighbors four "m".toList 0.5 0 hsym).2.2.1⟩

end Claims9
section Claims10
variable {SV D : Type}

/-- C15: on a non-empty supervoxel set whose labels all have a weight in the relevance map of
the modality, `choice_of_soi_by_uncertainty` returns true with a label `L` whose
`|weight - 0.5|` is at most that of every supervoxel label, and strictly below that of every
label met before `L` in iteration order. -/
theorem choice_by_uncertainty_minimal [LinearOrderedField D] (s : SurfaceOfInterest SV D)
    (m : std_string) (cls : Nat) (supervoxel : SV) (lbl : Nat)
    (hne : s._supervoxels ≠ [])
    (hpop : ∀ l ∈ keys s._supervoxels, (weight_of s._weights m cls l).isSome = true) :
    ∃ pre L h post w, s._supervoxels = pre ++ (L, h) :: post ∧
      choice_of_soi_by_uncertainty s m cls supervoxel lbl = (true, h, L) ∧
      weight_of s._weights m cls L = some w ∧
      (∀ L' ∈ keys s._supervoxels, ∀ w', weight_of s._weights m cls L' = some w' →
        |w - 0.5| ≤ |w' - 0.5|) ∧
      (∀ e ∈ pre, ∀ w', weight_of s._weights m cls e.1 = some w' →
        |w - 0.5| < |w' - 0.5|) := by
  have hmem : ∀ e ∈ s._supervoxels, ∀ w', weight_of s._weights m cls e.1 = some w' →
      (e, |w' - 0.5|) ∈ s._supervoxels.filterMap (fun sv =>
        (weight_of s._weights m cls sv.1).map (fun w => (sv, |w - 0.5|))) := by
    intro e he w' hw'
    rw [List.mem_filterMap]
    exact ⟨e, he, by simp [hw']⟩
  have hl : s._supervoxels.filterMap (fun sv =>
      (weight_of s._weights m cls sv.1).map (fun w => (sv, |w - 0.5|))) ≠ [] := by
    cases hsv : s._supervoxels with
    | nil => exact absurd hsv hne
    | cons e t =>
      have he : e ∈ s._supervoxels := by rw [hsv]; exact List.mem_cons_self _ _
      have hk : e.1 ∈ keys s._supervoxels := List.mem_map_of_mem Prod.fst he
      obtain ⟨w', hw'⟩ := Option.isSome_iff_exists.1 (hpop e.1 hk)
      rw [← hsv]
      exact List.ne_nil_of_mem (hmem e he w' hw')
  obtain ⟨b, q1, q2, hfm, hdec, hq1, hmin⟩ := first_min_spec _ hl
  obtain ⟨l1, l2, hsv, hl1, hl2⟩ := List.filterMap_eq_append_iff.1 hdec
  obtain ⟨l1', a, l2', hl2e, hnone, hfa, -⟩ := List.filterMap_eq_cons_iff.1 hl2
  obtain ⟨w, hw, hb⟩ : ∃ w, weight_of s._weights m cls a.1 = some w ∧ b = (a, |w - 0.5|) := by
    cases hwa : weight_of s._weights m cls a.1 with
    | none => simp [hwa] at hfa
    | some w => exact ⟨w, rfl, by simpa [hwa] using hfa.symm⟩
  subst hb
  refine ⟨l1 ++ l1', a.1, a.2, l2', w, ?_, ?_, hw, ?_, ?_⟩
  · rw [hsv, hl2e]; simp
  · unfold choice_of_soi_by_uncertainty
    rw [hfm]
  · intro L' hL' w' hw'
    obtain ⟨e, he, rfl⟩ := List.mem_map.1 hL'
    exact hmin _ (hmem e he w' hw')
  · intro e he w' hw'
    rcases List.mem_append.1 he with h | h
    · apply hq1 (e, |w' - 0.5|)
      rw [← hl1, List.mem_filterMap]
      exact ⟨e, h, by simp [hw']⟩
    · have := hnone e h
      simp [hw'] at this

theorem choice_by_uncertainty_minimal_witness :
    four._supervoxels ≠ [] ∧
    (∀ l ∈ keys four._supervoxels,
      (weight_of four._weights "m".toList 0 l).isSome = true) ∧
    ∃ pre L h post w, four._supervoxels = pre ++ (L, h) :: post ∧
      choice_of_soi_by_uncertainty four "m".toList 0 () 0 = (true, h, L) ∧
      weight_of four._weights "m".toList 0 L = some w ∧
      (∀ L' ∈ keys four._supervoxels, ∀ w',
        weight_of four._weights "m".toList 0 L' = some w' → |w - 0.5| ≤ |w' - 0.5|) ∧
      (∀ e ∈ pre, ∀ w', weight_of four._weights "m".toList 0 e.1 = some w' →
        |w - 0.5| < |w' - 0.5|) :=
  ⟨by decide, by decide,
    choice_by_uncertainty_minimal four "m".toList 0 () 0 (by decide) (by decide)⟩

end Claims10
section Claims11
variable {SV D : Type}

theorem to_size_t_neg_one : to_size_t (-1) = 2 ^ 64 - 1 := by
  unfold to_size_t
  norm_num
  rfl

theorem to_size_t_of_lt (i : Nat) (h : i < 2 ^ 64) : to_size_t (i : Int) = i := by
  unfold to_size_t
  rw [Int.emod_eq_of_lt (Int.natCast_nonneg i) (by exact_mod_cast h)]
  exact Int.toNat_natCast i

/-- C16: on an empty vector of regions `get_closest_region` returns `-1` as a `size_t`
(`2^64 - 1`), which is an index into no vector; on a non-empty vector it returns an index below
`regions.size()` whose region centroid is at minimal Euclidean distance from `center`. -/
theorem get_closest_region_spec (centroid : SV → ℝ × ℝ × ℝ) (s : SurfaceOfInterest SV D)
    (regions : List (List Nat)) (center : ℝ × ℝ × ℝ) :
    (regions = [] →
      get_closest_region centroid s regions center = to_size_t (-1) ∧
      to_size_t (-1) = 2 ^ 64 - 1 ∧
      ∀ v : List (List Nat), v.length < 2 ^ 64 → ¬ to_size_t (-1) < v.length) ∧
    (regions ≠ [] → regions.length < 2 ^ 64 →
      get_closest_region centroid s regions center < regions.length ∧
      ∀ j, j < regions.length →
        Real.sqrt (sq_dist (region_centroid centroid s._supervoxels
          (regions.getD (get_closest_region centroid s regions center) [])) center) ≤
        Real.sqrt (sq_dist (region_centroid centroid s._supervoxels
          (regions.getD j [])) center)) := by
  constructor
  · intro hnil
    subst hnil
    refine ⟨rfl, to_size_t_neg_one, ?_⟩
    intro v hv
    rw [to_size_t_neg_one]
    omega
  · intro hne hlen
    have hl : (List.range regions.length).map (fun i =>
        (i, sq_dist (region_centroid centroid s._supervoxels (regions.getD i [])) center))
        ≠ [] := by
      intro h
      rw [List.map_eq_nil_iff, List.range_eq_nil] at h
      exact hne (List.length_eq_zero.1 h)
    obtain ⟨b, q1, q2, hfm, -, -, hmin⟩ := first_min_spec _ hl
    have hb : b ∈ (List.range regions.length).map (fun i =>
        (i, sq_dist (region_centroid centroid s._supervoxels (regions.getD i [])) center)) := by
      cases hc : (List.range regions.length).map (fun i =>
        (i, sq_dist (region_centroid centroid s._supervoxels (regions.getD i [])) center)) with
      | nil => exact absurd hc hl
      | cons x t =>
        rw [hc] at hfm
        simp only [first_min, Option.some.injEq] at hfm
        obtain ⟨q1', q2', he, -, -⟩ := foldl_min_spec t [] [] x
          (by intro z hz; cases hz) (by intro z hz; cases hz)
        rw [hfm] at he
        have : b ∈ q1' ++ b :: q2' := by simp
        rw [← he] at this
        simpa using this
    obtain ⟨i, hi, rfl⟩ := List.mem_map.1 hb
    rw [List.mem_range] at hi
    have hres : get_closest_region centroid s regions center = i := by
      unfold get_closest_region
      rw [hfm]
      exact to_size_t_of_lt i (lt_trans hi hlen)
    rw [hres]
    refine ⟨hi, ?_⟩
    intro j hj
    apply Real.sqrt_le_sqrt
    exact hmin (j, sq_dist (region_centroid centroid s._supervoxels (regions.getD j [])) center)
      (List.mem_map.2 ⟨j, List.mem_range.2 hj, rfl⟩)

/-- C17: when no supervoxel has a weight of at least 0.5 for the class, in particular when
there is no supervoxel, `choice_of_soi` returns false and leaves `supervoxel` and `lbl` as they
were; when it returns true, `lbl` is a key of the supervoxel set, `supervoxel` is its handle and
its weight is at least 0.5; it returns true as soon as one supervoxel qualifies. -/
theorem choice_of_soi_spec [LinearOrderedField D] (s : SurfaceOfInterest SV D)
    (m : std_string) (cls : Nat) (draw : Nat) (supervoxel : SV) (lbl : Nat) :
    ((∀ l ∈ keys s._supervoxels, ∀ w, weight_of s._weights m cls l = some w → ¬ 0.5 ≤ w) →
      choice_of_soi s m cls draw supervoxel lbl = (false, supervoxel, lbl)) ∧
    (s._supervoxels = [] →
      choice_of_soi s m cls draw supervoxel lbl = (false, supervoxel, lbl)) ∧
    (∀ h L, choice_of_soi s m cls draw supervoxel lbl = (true, h, L) →
      (L, h) ∈ s._supervoxels ∧ L ∈ keys s._supervoxels ∧
      ∃ w, weight_of s._weights m cls L = some w ∧ 0.5 ≤ w) ∧
    ((∃ l ∈ keys s._supervoxels, ∃ w, weight_of s._weights m cls l = some w ∧ 0.5 ≤ w) →
      (choice_of_soi s m cls draw supervoxel lbl).1 = true) := by
  have hmem : ∀ e, e ∈ s._supervoxels.filter
      (fun sv => is_interesting s._weights m cls sv.1) ↔
      e ∈ s._supervoxels ∧ ∃ w, weight_of s._weights m cls e.1 = some w ∧ 0.5 ≤ w := by
    intro e
    rw [List.mem_filter]
    unfold is_interesting
    cases h : weight_of s._weights m cls e.1 <;> simp
  have hnone : (∀ l ∈ keys s._supervoxels, ∀ w, weight_of s._weights m cls l = some w →
      ¬ 0.5 ≤ w) → choice_of_soi s m cls draw supervoxel lbl = (false, supervoxel, lbl) := by
    intro hno
    have hnil : s._supervoxels.filter
        (fun sv => is_interesting s._weights m cls sv.1) = [] := by
      rw [List.eq_nil_iff_forall_not_mem]
      intro e he
      obtain ⟨hes, w, hw, hle⟩ := (hmem e).1 he
      exact hno e.1 (List.mem_map_of_mem Prod.fst hes) w hw hle
    unfold choice_of_soi
    simp only [hnil]
    rfl
  refine ⟨hnone, ?_, ?_, ?_⟩
  · intro hnil
    apply hnone
    intro l hl
    rw [hnil] at hl
    cases hl
  · intro h L hres
    unfold choice_of_soi at hres
    simp only at hres
    split at hres
    · cases hres
    · rename_i sv hsv
      have he := (hmem sv).1 (List.getElem?_mem hsv)
      simp only [Prod.mk.injEq, true_and] at hres
      obtain ⟨rfl, rfl⟩ := hres
      exact ⟨he.1, List.mem_map_of_mem Prod.fst he.1, he.2⟩
  · rintro ⟨l, hl, w, hw, hle⟩
    obtain ⟨e, he, rfl⟩ := List.mem_map.1 hl
    have hin := (hmem e).2 ⟨he, w, hw, hle⟩
    have hpos := List.length_pos_of_mem hin
    unfold choice_of_soi
    simp only
    rw [List.getElem?_eq_getElem (Nat.mod_lt _ hpos)]

end Claims11
section Claims12
variable {SV D : Type}

/-- C25: the single-classifier, the two-classifier and the classifier-map `compute_weights`
look for the modality in the first feature record only. On an engine whose `_features` starts
with the record `first`, whatever the other records hold: when `first` contains the modality
the call goes on and the relevance map of the modality gets an entry for every supervoxel
label and for no other label; when `first` lacks it the call returns the engine unchanged; and
when the modality had no relevance map before, it has one afterwards exactly when `first`
contains it. On an empty `_features` the test dereferences `begin()` of an empty map. -/
theorem first_record_decides [OfScientific D] [Mul D] (s : SurfaceOfInterest SV D)
    (m : std_string) (c comp : Classifier (List D) D) (l₀ : Nat) (first : feature_record_t D)
    (rest : StdMap Nat (feature_record_t D)) (hf : s._features = (l₀, first) :: rest) :
    ((find first m).isSome = true →
      (∃ s' r, compute_weights s m c = some s' ∧ find s'._weights m = some r ∧
        ∀ L, find r L = if L ∈ keys s._supervoxels
          then some (c.compute_estimation (feature_at s._features L m)) else none) ∧
      ((∀ L ∈ keys s._supervoxels,
          (product_loop (comp.compute_estimation (feature_at s._features L m))
            (c.compute_estimation (feature_at s._features L m))).isSome = true) →
        ∃ s' r, compute_weights_comp s m c comp = some s' ∧ find s'._weights m = some r ∧
          ∀ L, (find r L).isSome = true ↔ L ∈ keys s._supervoxels) ∧
      (∃ s' r, compute_weights_map_step s (m, c) = some s' ∧
        compute_weights_map s [(m, c)] = some s' ∧ find s'._weights m = some r ∧
        ∀ L, find r L = if L ∈ keys s._supervoxels
          then some (c.compute_estimation (feature_at s._features L m)) else none)) ∧
    ((find first m).isSome = false →
      compute_weights s m c = some s ∧ compute_weights_comp s m c comp = some s ∧
      compute_weights_map_step s (m, c) = some s ∧ compute_weights_map s [(m, c)] = some s) ∧
    (find s._weights m = none →
      (∀ s', compute_weights s m c = some s' →
        ((find s'._weights m).isSome = true ↔ (find first m).isSome = true)) ∧
      (∀ s', compute_weights_comp s m c comp = some s' →
        ((find s'._weights m).isSome = true ↔ (find first m).isSome = true)) ∧
      (∀ s', compute_weights_map s [(m, c)] = some s' →
        ((find s'._weights m).isSome = true ↔ (find first m).isSome = true))) ∧
    (∀ t : SurfaceOfInterest SV D, t._features = [] →
      compute_weights t m c = none ∧ compute_weights_comp t m c comp = none ∧
      compute_weights_map t [(m, c)] = none) := by
  have hne : s._features ≠ [] := by rw [hf]; exact List.cons_ne_nil _ _
  have hkn : known_modality s._features m = (find first m).isSome := by
    rw [hf]; rfl
  have hone : ∀ t : SurfaceOfInterest SV D,
      compute_weights_map t [(m, c)] = compute_weights_map_step t (m, c) := by
    intro t
    simp [compute_weights_map, List.foldlM]
  have hfind : ∀ L, find ((keys s._supervoxels).foldl
        (fun r l => insert_or_assign r l (c.compute_estimation (feature_at s._features l m)))
        ((keys s._supervoxels).foldl
          (fun r l => emplace r l (List.replicate c.get_nbr_class (0.5 : D))) [])) L =
      if L ∈ keys s._supervoxels
        then some (c.compute_estimation (feature_at s._features L m)) else none := by
    intro L
    rw [find_foldl_assign]
    by_cases hL : L ∈ keys s._supervoxels
    · rw [if_pos hL, if_pos hL]
    · rw [if_neg hL, if_neg hL, find_foldl_emplace]
      simp [find, hL]
  have hyes : (find first m).isSome = true →
      (∃ s' r, compute_weights s m c = some s' ∧ find s'._weights m = some r ∧
        ∀ L, find r L = if L ∈ keys s._supervoxels
          then some (c.compute_estimation (feature_at s._features L m)) else none) ∧
      ((∀ L ∈ keys s._supervoxels,
          (product_loop (comp.compute_estimation (feature_at s._features L m))
            (c.compute_estimation (feature_at s._features L m))).isSome = true) →
        ∃ s' r, compute_weights_comp s m c comp = some s' ∧ find s'._weights m = some r ∧
          ∀ L, (find r L).isSome = true ↔ L ∈ keys s._supervoxels) ∧
      (∃ s' r, compute_weights_map_step s (m, c) = some s' ∧
        compute_weights_map s [(m, c)] = some s' ∧ find s'._weights m = some r ∧
        ∀ L, find r L = if L ∈ keys s._supervoxels
          then some (c.compute_estimation (feature_at s._features L m)) else none) := by
    intro h1
    have hk : known_modality s._features m = true := by rw [hkn]; exact h1
    refine ⟨⟨_, _, compute_weights_known s m c hk, find_insert_or_assign_self _ _ _, hfind⟩,
      ?_, ?_⟩
    · intro hp
      have hall : (keys s._supervoxels).all (fun l =>
          (product_loop (comp.compute_estimation (feature_at s._features l m))
            (c.compute_estimation (feature_at s._features l m))).isSome) = true := by
        rw [List.all_eq_true]
        exact hp
      have h := compute_weights_comp_known s m c comp hk
      rw [if_pos hall] at h
      refine ⟨_, _, h, find_insert_or_assign_self _ _ _, ?_⟩
      intro L
      rw [find_foldl_assign]
      by_cases hL : L ∈ keys s._supervoxels
      · simp [hL]
      · rw [if_neg hL, find_foldl_emplace]
        simp [find, hL]
    · have h := compute_weights_known s m c hk
      rw [compute_weights_eq_map_step] at h
      refine ⟨_, _, h, ?_, find_insert_or_assign_self _ _ _, hfind⟩
      rw [hone, h]
  have hno : (find first m).isSome = false →
      compute_weights s m c = some s ∧ compute_weights_comp s m c comp = some s ∧
      compute_weights_map_step s (m, c) = some s ∧ compute_weights_map s [(m, c)] = some s := by
    intro h0
    have hk : known_modality s._features m = false := by rw [hkn]; exact h0
    have h := compute_weights_unknown s m c hne hk
    have h' := h
    rw [compute_weights_eq_map_step] at h'
    refine ⟨h, compute_weights_comp_unknown s m c comp hne hk, h', ?_⟩
    rw [hone, h']
  refine ⟨hyes, hno, ?_, ?_⟩
  · intro hw
    have key : ∀ (f : SurfaceOfInterest SV D → Option (SurfaceOfInterest SV D)),
        ((find first m).isSome = true → ∀ s', f s = some s' →
          (find s'._weights m).isSome = true) →
        ((find first m).isSome = false → f s = some s) →
        ∀ s', f s = some s' →
          ((find s'._weights m).isSome = true ↔ (find first m).isSome = true) := by
      intro f h1 h0 s' hs'
      cases hb : (find first m).isSome with
      | true => simp [h1 hb s' hs']
      | false =>
        have := h0 hb
        rw [this] at hs'
        cases hs'
        simp [hw]
    refine ⟨key (fun s => compute_weights s m c) ?_ (fun h => (hno h).1),
      key (fun s => compute_weights_comp s m c comp) ?_ (fun h => (hno h).2.1),
      key (fun s => compute_weights_map s [(m, c)]) ?_ (fun h => (hno h).2.2.2)⟩
    · intro h1 s' hs'
      obtain ⟨⟨s1, r, e1, e2, -⟩, -, -⟩ := hyes h1
      have hs'' : compute_weights s m c = some s' := hs'
      rw [e1] at hs''
      cases hs''
      rw [e2]; rfl
    · intro h1 s' hs'
      have hk : known_modality s._features m = true := by rw [hkn]; exact h1
      have hs'' : compute_weights_comp s m c comp = some s' := hs'
      rw [compute_weights_comp_known s m c comp hk] at hs''
      split at hs''
      · cases hs''
        simp only []
        rw [find_insert_or_assign_self]; rfl
      · cases hs''
    · intro h1 s' hs'
      obtain ⟨-, -, s1, r, -, e1, e2, -⟩ := hyes h1
      have hs'' : compute_weights_map s [(m, c)] = some s' := hs'
      rw [e1] at hs''
      cases hs''
      rw [e2]; rfl
  · intro t ht
    refine ⟨?_, ?_, ?_⟩
    · simp [compute_weights, ht]
    · simp [compute_weights_comp, ht]
    · rw [hone]
      simp [compute_weights_map_step, ht]

theorem first_record_decides_witness :
    lopsided._features =
      (1, [("a".toList, [1])]) :: [(2, [("b".toList, [6])]), (3, [("b".toList, [7])])] ∧
    (∃ s' r, compute_weights lopsided "a".toList cons_classifier = some s' ∧
      find s'._weights "a".toList = some r ∧
      ∀ L, find r L = if L ∈ keys lopsided._supervoxels
        then some (cons_classifier.compute_estimation
          (feature_at lopsided._features L "a".toList)) else none) ∧
    compute_weights lopsided "b".toList cons_classifier = some lopsided :=
  ⟨rfl,
    ((first_record_decides lopsided "a".toList cons_classifier cons_classifier 1
      [("a".toList, [1])] [(2, [("b".toList, [6])]), (3, [("b".toList, [7])])] rfl).1
      (by decide)).1,
    ((first_record_decides lopsided "b".toList cons_classifier cons_classifier 1
      [("a".toList, [1])] [(2, [("b".toList, [6])]), (3, [("b".toList, [7])])] rfl).2.1
      (by decide)).1⟩

/-- C26: the learning-policy `generate` returns the very boolean `computeSupervoxel(workspace)`
returned, for every modality and classifier (the supervoxel set being non-empty of features
when it succeeds); for a modality the first feature record lacks it returns true and the
engine is the one `init_weights` left, `compute_weights` having changed nothing. -/
theorem generate_result [OfScientific D] {W : Type}
    (computeSupervoxel : SupervoxelSet SV D → W → Bool × SupervoxelSet SV D)
    (s : SurfaceOfInterest SV D) (m : std_string) (c : Classifier (List D) D)
    (workspace : W) (init_val : D)
    (hne : (computeSupervoxel s.toSupervoxelSet workspace).1 = true →
      (computeSupervoxel s.toSupervoxelSet workspace).2._features ≠ []) :
    (∃ s', generate computeSupervoxel s m c workspace init_val =
      some ((computeSupervoxel s.toSupervoxelSet workspace).1, s')) ∧
    (∀ b s', generate computeSupervoxel s m c workspace init_val = some (b, s') →
      (b = true ↔ (computeSupervoxel s.toSupervoxelSet workspace).1 = true)) ∧
    ((computeSupervoxel s.toSupervoxelSet workspace).1 = true →
      known_modality (computeSupervoxel s.toSupervoxelSet workspace).2._features m = false →
      generate computeSupervoxel s m c workspace init_val =
        some (true, init_weights
          { s with toSupervoxelSet := (computeSupervoxel s.toSupervoxelSet workspace).2 }
          m c.get_nbr_class init_val) ∧
      compute_weights (init_weights
          { s with toSupervoxelSet := (computeSupervoxel s.toSupervoxelSet workspace).2 }
          m c.get_nbr_class init_val) m c =
        some (init_weights
          { s with toSupervoxelSet := (computeSupervoxel s.toSupervoxelSet workspace).2 }
          m c.get_nbr_class init_val)) := by
  have hex : ∃ s', generate computeSupervoxel s m c workspace init_val =
      some ((computeSupervoxel s.toSupervoxelSet workspace).1, s') := by
    cases hb : (computeSupervoxel s.toSupervoxelSet workspace).1 with
    | false =>
      unfold generate
      simp [hb]
    | true =>
      have hfe := hne hb
      unfold generate
      simp only [hb, Bool.not_true, Bool.false_eq_true, if_false]
      cases hk : known_modality (computeSupervoxel s.toSupervoxelSet workspace).2._features m with
      | true =>
        rw [compute_weights_known _ m c (by simpa [init_weights] using hk)]
        exact ⟨_, rfl⟩
      | false =>
        rw [compute_weights_unknown _ m c (by simpa [init_weights] using hfe)
          (by simpa [init_weights] using hk)]
        exact ⟨_, rfl⟩
  refine ⟨hex, ?_, ?_⟩
  · intro b s' h
    obtain ⟨s1, h1⟩ := hex
    rw [h1] at h
    simp only [Option.some.injEq, Prod.mk.injEq] at h
    rw [← h.1]
  · intro hb hk
    have hfe := hne hb
    have hcw := compute_weights_unknown (init_weights
          { s with toSupervoxelSet := (computeSupervoxel s.toSupervoxelSet workspace).2 }
          m c.get_nbr_class init_val) m c (by simpa [init_weights] using hfe)
          (by simpa [init_weights] using hk)
    refine ⟨?_, hcw⟩
    unfold generate
    simp only [hb, Bool.not_true, Bool.false_eq_true, if_false]
    rw [hcw]
    rfl

theorem generate_result_witness :
    ((computeSupervoxel_ok lopsided.toSupervoxelSet ()).1 = true →
      (computeSupervoxel_ok lopsided.toSupervoxelSet ()).2._features ≠ []) ∧
    (∃ s', generate computeSupervoxel_ok lopsided "b".toList cons_classifier () 1 =
      some (true, s')) :=
  ⟨fun _ => by decide,
    (generate_result computeSupervoxel_ok lopsided "b".toList cons_classifier () 1
      (fun _ => by decide)).1⟩

end Claims12
section Claims13

/-- C27, on a frame of two pixels with one rectangle around each pixel: `extract_cloud` returns
the timestamp of the frame and two clouds, and the first cloud holds the one point of the first
rectangle; but the second cloud holds that point too, before the one point that
`rgbd_to_pointcloud` produces from the sub-images of the second rectangle, because every call
appends to the same `cloud_tmp`. -/
theorem extract_cloud_second_cloud_accumulates :
    extract_cloud unit_camera two_pixel_frame two_rects =
      some (7, [⟨1, 1, [⟨0, 0, 1, 30, 20, 10, 255⟩]⟩,
        ⟨2, 1, [⟨0, 0, 1, 30, 20, 10, 255⟩, ⟨0, 0, 2, 60, 50, 40, 255⟩]⟩]) ∧
    (two_pixel_frame.2.1.roi ⟨1, 0, 1, 1⟩).bind (fun rgb =>
      (two_pixel_frame.2.2.roi ⟨1, 0, 1, 1⟩).bind (fun depth =>
        rgbd_to_pointcloud unit_camera rgb depth default)) =
      some ⟨1, 1, [⟨0, 0, 2, 60, 50, 40, 255⟩]⟩ ∧
    two_rects.2 = [⟨0, 0, 1, 1⟩, ⟨1, 0, 1, 1⟩] ∧
    ([⟨0, 0, 1, 30, 20, 10, 255⟩, ⟨0, 0, 2, 60, 50, 40, 255⟩] : List (PointT ℚ)) ≠
      [⟨0, 0, 2, 60, 50, 40, 255⟩] := by
  refine ⟨?_, ?_, rfl, ?_⟩
  · simp [extract_cloud, two_pixel_frame, two_rects, unit_camera, rgbd_to_pointcloud, Mat.roi,
      List.range, List.range.loop, PointCloudT.push_back, instInhabitedPointCloudT]
  · simp [two_pixel_frame, unit_camera, rgbd_to_pointcloud, Mat.roi, List.range,
      List.range.loop, PointCloudT.push_back, instInhabitedPointCloudT]
  · simp

/-- C28, on a dataset with the folders of iterations 1 and 2, all of which load:
`load_dataset(0)` returns true with the keys 1 and 2 in `_per_iter_rect_set` and in
`_per_iter_rgbd_set`, but with the single key 0 in `_per_iter_arm_traj`, holding the
trajectories of iteration 1; `load_dataset(1)` gives the three maps the single key 1. -/
theorem load_dataset_all_arm_traj_key :
    load_dataset tag_loader two_folders 0 =
      (true,
        { _iterations_folders := [(1, "iteration_1".toList), (2, "iteration_2".toList)]
          _per_iter_rect_set := [(1, ["iteration_1".toList]), (2, ["iteration_2".toList])]
          _per_iter_rgbd_set := [(1, ["iteration_1".toList]), (2, ["iteration_2".toList])]
          _per_iter_arm_traj := [(0, ["iteration_1".toList])] }) ∧
    keys (load_dataset tag_loader two_folders 0).2._per_iter_rect_set = [1, 2] ∧
    keys (load_dataset tag_loader two_folders 0).2._per_iter_rgbd_set = [1, 2] ∧
    keys (load_dataset tag_loader two_folders 0).2._per_iter_arm_traj = [0] ∧
    load_dataset tag_loader two_folders 1 =
      (true,
        { _iterations_folders := [(1, "iteration_1".toList), (2, "iteration_2".toList)]
          _per_iter_rect_set := [(1, ["iteration_1".toList])]
          _per_iter_rgbd_set := [(1, ["iteration_1".toList])]
          _per_iter_arm_traj := [(1, ["iteration_1".toList])] }) := by
  refine ⟨?_, ?_, ?_, ?_, ?_⟩ <;> decide

/-- C29: started from an empty `rgbd_set`, the merge step of `_load_rgbd_images` produces a
well-formed map (one entry per key) whose keys are the timestamps of `rgb_set` and those of
`depth_set`; a timestamp of both maps to `(rgb, depth)`, a timestamp of `rgb_set` only to
`(rgb, cv::Mat())` and a timestamp of `depth_set` only to `(cv::Mat(), depth)`. -/
theorem merge_rgbd_set_spec {T Mat : Type} [LinearOrder T] [Inhabited Mat]
    (rgb_set depth_set : StdMap T Mat) :
    WF (merge_rgbd_set rgb_set depth_set []) ∧
    (keys (merge_rgbd_set rgb_set depth_set [])).Nodup ∧
    (∀ t, t ∈ keys (merge_rgbd_set rgb_set depth_set []) ↔
      t ∈ keys rgb_set ∨ t ∈ keys depth_set) ∧
    (∀ t rgb depth, find rgb_set t = some rgb → find depth_set t = some depth →
      find (merge_rgbd_set rgb_set depth_set []) t = some (rgb, depth)) ∧
    (∀ t rgb, find rgb_set t = some rgb → find depth_set t = none →
      find (merge_rgbd_set rgb_set depth_set []) t = some (rgb, default)) ∧
    (∀ t depth, find rgb_set t = none → find depth_set t = some depth →
      find (merge_rgbd_set rgb_set depth_set []) t = some (default, depth)) ∧
    (∀ t, find rgb_set t = none → find depth_set t = none →
      find (merge_rgbd_set rgb_set depth_set []) t = none) := by
  have hfind : ∀ t, find (merge_rgbd_set rgb_set depth_set []) t =
      match find rgb_set t, find depth_set t with
      | some rgb, some depth => some (rgb, depth)
      | some rgb, none => some (rgb, default)
      | none, some depth => some (default, depth)
      | none, none => none := by
    intro t
    rw [merge_rgbd_set_eq, find_foldl_emplace_entries, find_foldl_emplace_entries]
    cases hr : find rgb_set t <;> cases hd : find depth_set t <;> simp [find, hd]
  have hwf : WF (merge_rgbd_set rgb_set depth_set []) := by
    rw [merge_rgbd_set_eq]
    apply WF_foldl_of_step _ (fun acc e h => WF_emplace acc _ _ h)
    apply WF_foldl_of_step _ (fun acc e h => WF_emplace acc _ _ h)
    exact WF_nil
  refine ⟨hwf, ?_, ?_, ?_, ?_, ?_, ?_⟩
  · exact (List.Sorted.nodup hwf)
  · intro t
    rw [← find_isSome_iff, ← find_isSome_iff, ← find_isSome_iff, hfind]
    cases hr : find rgb_set t <;> cases hd : find depth_set t <;> simp
  · intro t rgb depth hr hd
    rw [hfind, hr, hd]
  · intro t rgb hr hd
    rw [hfind, hr, hd]
  · intro t depth hr hd
    rw [hfind, hr, hd]
  · intro t hr hd
    rw [hfind, hr, hd]

end Claims13

end image_processing

namespace robotsthatdream

/-! ## The claims on the rotation angles -/

theorem atan2_mul_sin_cos (r θ : ℝ) (hr : 0 < r) (h1 : -Real.pi < θ) (h2 : θ ≤ Real.pi) :
    atan2 (r * Real.sin θ) (r * Real.cos θ) = θ := by
  unfold atan2
  have h : (⟨r * Real.cos θ, r * Real.sin θ⟩ : ℂ) =
      (r : ℂ) * (Complex.cos θ + Complex.sin θ * Complex.I) := by
    apply Complex.ext
    · simp [← Complex.ofReal_cos, ← Complex.ofReal_sin]
    · simp [← Complex.ofReal_cos, ← Complex.ofReal_sin]
  rw [h]
  exact Complex.arg_mul_cos_add_sin_mul_I hr ⟨h1, h2⟩

theorem atan2_sin_cos (θ : ℝ) (h1 : -Real.pi < θ) (h2 : θ ≤ Real.pi) :
    atan2 (Real.sin θ) (Real.cos θ) = θ := by
  have := atan2_mul_sin_cos 1 θ one_pos h1 h2
  simpa using this

theorem atan2_zero_of_nonneg (x : ℝ) (hx : 0 ≤ x) : atan2 0 x = 0 := by
  unfold atan2
  rw [Complex.arg_eq_zero_iff]
  exact ⟨hx, rfl⟩

theorem hypot_sin_cos (θ : ℝ) : hypot (Real.sin θ) (Real.cos θ) = 1 := by
  unfold hypot
  rw [Real.sin_sq_add_cos_sq, Real.sqrt_one]


theorem angles_to_matrix_2_0 (y p r : ℝ) : angles_to_matrix y p r 2 0 = Real.sin p := by
  simp [angles_to_matrix, AngleAxisf_UnitZ, AngleAxisf_UnitY, AngleAxisf_UnitX,
    Matrix.mul_apply, Fin.sum_univ_three, Matrix.vecHead, Matrix.vecTail]

theorem angles_to_matrix_2_1 (y p r : ℝ) :
    angles_to_matrix y p r 2 1 = Real.cos p * Real.sin r := by
  simp [angles_to_matrix, AngleAxisf_UnitZ, AngleAxisf_UnitY, AngleAxisf_UnitX,
    Matrix.mul_apply, Fin.sum_univ_three, Matrix.vecHead, Matrix.vecTail]

theorem angles_to_matrix_2_2 (y p r : ℝ) :
    angles_to_matrix y p r 2 2 = Real.cos p * Real.cos r := by
  simp [angles_to_matrix, AngleAxisf_UnitZ, AngleAxisf_UnitY, AngleAxisf_UnitX,
    Matrix.mul_apply, Fin.sum_univ_three, Matrix.vecHead, Matrix.vecTail]

theorem angles_to_matrix_0_0 (y p r : ℝ) :
    angles_to_matrix y p r 0 0 = Real.cos y * Real.cos p := by
  simp [angles_to_matrix, AngleAxisf_UnitZ, AngleAxisf_UnitY, AngleAxisf_UnitX,
    Matrix.mul_apply, Fin.sum_univ_three, Matrix.vecHead, Matrix.vecTail]

theorem angles_to_matrix_1_0 (y p r : ℝ) :
    angles_to_matrix y p r 1 0 = Real.sin y * Real.cos p := by
  simp [angles_to_matrix, AngleAxisf_UnitZ, AngleAxisf_UnitY, AngleAxisf_UnitX,
    Matrix.mul_apply, Fin.sum_univ_three, Matrix.vecHead, Matrix.vecTail]

theorem Angles_ext (a b : Angles) (h1 : a.yaw = b.yaw) (h2 : a.pitch = b.pitch)
    (h3 : a.roll = b.roll) : a = b := by
  cases a; cases b; simp only [Angles.mk.injEq]; exact ⟨h1, h2, h3⟩


theorem atan2_scale (k y x : ℝ) (hk : 0 < k) : atan2 (k * y) (k * x) = atan2 y x := by
  unfold atan2
  have h : (⟨k * x, k * y⟩ : ℂ) = (k : ℂ) * ⟨x, y⟩ := by
    apply Complex.ext <;> simp
  rw [h, Complex.arg_real_mul _ hk]

theorem hypot_scale (k x y : ℝ) (hk : 0 < k) : hypot (k * x) (k * y) = k * hypot x y := by
  unfold hypot
  have h : (k * x) ^ 2 + (k * y) ^ 2 = k ^ 2 * (x ^ 2 + y ^ 2) := by ring
  rw [h, Real.sqrt_mul (sq_nonneg k), Real.sqrt_sq hk.le]

theorem hypot_nonneg (x y : ℝ) : 0 ≤ hypot x y := Real.sqrt_nonneg _

theorem hypot_zero_left (y : ℝ) (hy : 0 ≤ y) : hypot 0 y = y := by
  unfold hypot
  simp [Real.sqrt_sq hy]

theorem atan2_abs_le_of_nonneg (y x : ℝ) (hx : 0 ≤ x) : |atan2 y x| ≤ Real.pi / 2 := by
  unfold atan2
  rw [Complex.abs_arg_le_pi_div_two_iff]
  exact hx

theorem atan2_pi (x : ℝ) (hx : x < 0) : atan2 0 x = Real.pi := by
  unfold atan2
  rw [Complex.arg_eq_pi_iff]
  exact ⟨hx, rfl⟩

theorem atan2_diag (x : ℝ) (hx : 0 < x) : atan2 x x = Real.pi / 4 := by
  have hpi := Real.pi_pos
  have h := atan2_mul_sin_cos (x * Real.sqrt 2) (Real.pi / 4)
    (mul_pos hx (Real.sqrt_pos.2 two_pos)) (by linarith) (by linarith)
  rw [Real.sin_pi_div_four, Real.cos_pi_div_four] at h
  have e : x * Real.sqrt 2 * (Real.sqrt 2 / 2) = x := by
    have := Real.mul_self_sqrt (show (0 : ℝ) ≤ 2 by norm_num)
    nlinarith
  rwa [e] at h

theorem atan2_neg_diag (x : ℝ) (hx : 0 < x) : atan2 (-x) x = -(Real.pi / 4) := by
  have hpi := Real.pi_pos
  have h := atan2_mul_sin_cos (x * Real.sqrt 2) (-(Real.pi / 4))
    (mul_pos hx (Real.sqrt_pos.2 two_pos)) (by linarith) (by linarith)
  rw [Real.sin_neg, Real.cos_neg, Real.sin_pi_div_four, Real.cos_pi_div_four] at h
  have e : x * Real.sqrt 2 * (Real.sqrt 2 / 2) = x := by
    have := Real.mul_self_sqrt (show (0 : ℝ) ≤ 2 by norm_num)
    nlinarith
  have e' : x * Real.sqrt 2 * -(Real.sqrt 2 / 2) = -x := by
    rw [mul_neg, e]
  rwa [e, e'] at h


/-- C19: pure yaw. For every angle `t` in `(-π, π]` the counter-clockwise rotation by `t` about
the Z axis gives yaw `t`, pitch `0` and roll `0`; the identity gives `(0, 0, 0)`, the quarter
turn gives yaw `π/2` and the eighth turn gives yaw `π/4`. -/
theorem matrix_to_angles_pure_yaw (t : ℝ) (h1 : -Real.pi < t) (h2 : t ≤ Real.pi) :
    matrix_to_angles (Matrix.of ![![Real.cos t, -Real.sin t, 0],
      ![Real.sin t, Real.cos t, 0], ![0, 0, 1]]) = ⟨t, 0, 0⟩ ∧
    matrix_to_angles (Matrix.of ![![1, 0, 0], ![0, 1, 0], ![0, 0, 1]]) = ⟨0, 0, 0⟩ ∧
    matrix_to_angles (Matrix.of ![![0, -1, 0], ![1, 0, 0], ![0, 0, 1]]) =
      ⟨Real.pi / 2, 0, 0⟩ ∧
    matrix_to_angles (Matrix.of ![![Real.cos (Real.pi / 4), -Real.sin (Real.pi / 4), 0],
      ![Real.sin (Real.pi / 4), Real.cos (Real.pi / 4), 0], ![0, 0, 1]]) =
      ⟨Real.pi / 4, 0, 0⟩ := by
  have hyp1 : hypot 0 1 = 1 := by simp [hypot]
  have gen : ∀ t : ℝ, -Real.pi < t → t ≤ Real.pi →
      matrix_to_angles (Matrix.of ![![Real.cos t, -Real.sin t, 0],
        ![Real.sin t, Real.cos t, 0], ![0, 0, 1]]) = ⟨t, 0, 0⟩ := by
    intro t h1 h2
    apply Angles_ext
    · simp [matrix_to_angles, Matrix.vecHead, Matrix.vecTail, atan2_sin_cos t h1 h2]
    · simp [matrix_to_angles, Matrix.vecHead, Matrix.vecTail, atan2_zero_of_nonneg]
    · simp [matrix_to_angles, Matrix.vecHead, Matrix.vecTail, hyp1, atan2_zero_of_nonneg]
  have hpi := Real.pi_pos
  refine ⟨gen t h1 h2, ?_, ?_, gen (Real.pi / 4) (by linarith) (by linarith)⟩
  · have := gen 0 (by linarith) (by linarith)
    simpa using this
  · have := gen (Real.pi / 2) (by linarith) (by linarith)
    simpa using this

theorem matrix_to_angles_pure_yaw_witness :
    -Real.pi < 0 ∧ (0 : ℝ) ≤ Real.pi ∧
    matrix_to_angles (Matrix.of ![![Real.cos 0, -Real.sin 0, 0],
      ![Real.sin 0, Real.cos 0, 0], ![0, 0, 1]]) = ⟨0, 0, 0⟩ :=
  ⟨by linarith [Real.pi_pos], Real.pi_pos.le,
    (matrix_to_angles_pure_yaw 0 (by linarith [Real.pi_pos]) Real.pi_pos.le).1⟩

/-- C20: pure pitch. For every angle `p` in `[-π/2, π/2]` the matrix with rows
`(cos p, 0, -sin p)`, `(0, 1, 0)`, `(sin p, 0, cos p)` gives yaw `0`, pitch `p` and roll `0`,
also at `p = π/2` where yaw is `atan2(0, 0) = 0`. -/
theorem matrix_to_angles_pure_pitch (p : ℝ) (h1 : -(Real.pi / 2) ≤ p) (h2 : p ≤ Real.pi / 2) :
    matrix_to_angles (Matrix.of ![![Real.cos p, 0, -Real.sin p],
      ![0, 1, 0], ![Real.sin p, 0, Real.cos p]]) = ⟨0, p, 0⟩ ∧
    atan2 0 0 = 0 := by
  have hpi := Real.pi_pos
  have hc : 0 ≤ Real.cos p := Real.cos_nonneg_of_mem_Icc ⟨h1, h2⟩
  refine ⟨?_, atan2_zero_of_nonneg 0 le_rfl⟩
  apply Angles_ext
  · simp [matrix_to_angles, Matrix.vecHead, Matrix.vecTail, atan2_zero_of_nonneg _ hc]
  · simp [matrix_to_angles, Matrix.vecHead, Matrix.vecTail,
      atan2_sin_cos p (by linarith) (by linarith)]
  · simp [matrix_to_angles, Matrix.vecHead, Matrix.vecTail, hypot_sin_cos,
      atan2_zero_of_nonneg]

theorem matrix_to_angles_pure_pitch_witness :
    -(Real.pi / 2) ≤ Real.pi / 2 ∧ Real.pi / 2 ≤ Real.pi / 2 ∧
    matrix_to_angles (Matrix.of ![![Real.cos (Real.pi / 2), 0, -Real.sin (Real.pi / 2)],
      ![0, 1, 0], ![Real.sin (Real.pi / 2), 0, Real.cos (Real.pi / 2)]]) =
      ⟨0, Real.pi / 2, 0⟩ :=
  ⟨by linarith [Real.pi_pos], le_rfl,
    (matrix_to_angles_pure_pitch (Real.pi / 2) (by linarith [Real.pi_pos]) le_rfl).1⟩


/-- C18, at the grid point yaw 0, pitch 1, roll 1 of the round-trip test: the roll that
`matrix_to_angles` reads back from `angles_to_matrix(0, 1, 1)` has sine `cos 1 * sin 1`, so it is
at most `π/6` and further than `1e-5` from the roll `1` that was put in. -/
theorem round_trip_fails_at_0_1_1 :
    Real.sin (matrix_to_angles (angles_to_matrix 0 1 1)).roll = Real.cos 1 * Real.sin 1 ∧
    (matrix_to_angles (angles_to_matrix 0 1 1)).roll ≤ Real.pi / 6 ∧
    ¬ |(matrix_to_angles (angles_to_matrix 0 1 1)).roll - 1| ≤ 1e-5 := by
  have hpi3 := Real.pi_gt_three
  have hs : 0 < Real.sin 1 := Real.sin_pos_of_pos_of_lt_pi one_pos (by linarith)
  have hsc := Real.sin_sq_add_cos_sq 1
  set c := Real.cos 1 with hc
  set s := Real.sin 1 with hs'
  have hh : 0 < hypot s (c * c) := by
    unfold hypot
    apply Real.sqrt_pos.2
    positivity
  have hh2 : hypot s (c * c) ^ 2 = s ^ 2 + (c * c) ^ 2 := by
    unfold hypot
    rw [Real.sq_sqrt (by positivity)]
  have hroll : (matrix_to_angles (angles_to_matrix 0 1 1)).roll =
      Complex.arg ⟨hypot s (c * c), c * s⟩ := by
    simp only [matrix_to_angles, angles_to_matrix_2_0, angles_to_matrix_2_1,
      angles_to_matrix_2_2, atan2]
  have habs : Complex.abs ⟨hypot s (c * c), c * s⟩ = 1 := by
    rw [Complex.abs_apply, Complex.normSq_mk, Real.sqrt_eq_one]
    nlinarith [hh2, hsc]
  have hsin : Real.sin (Complex.arg ⟨hypot s (c * c), c * s⟩) = c * s := by
    rw [Complex.sin_arg, habs]
    simp
  have hlt : |Complex.arg ⟨hypot s (c * c), c * s⟩| < Real.pi / 2 := by
    rw [Complex.abs_arg_lt_pi_div_two_iff]
    exact Or.inl hh
  have hcs : c * s ≤ 1 / 2 := by nlinarith [sq_nonneg (c - s), hsc]
  have hle : Complex.arg ⟨hypot s (c * c), c * s⟩ ≤ Real.pi / 6 := by
    by_contra hcon
    push_neg at hcon
    have := Real.sin_lt_sin_of_lt_of_le_pi_div_two (by linarith) (abs_lt.1 hlt).2.le hcon
    rw [Real.sin_pi_div_six, hsin] at this
    linarith
  rw [hroll]
  refine ⟨hsin, hle, ?_⟩
  have hpi := Real.pi_lt_d2
  intro habs1
  have := (abs_le.1 habs1).1
  norm_num at this
  linarith


/-- C21: pure roll. For every angle `a` in `[-π/2, π/2]` the matrix with rows `(1, 0, 0)`,
`(0, cos a, sin a)`, `(0, -sin a, cos a)` gives yaw `0`, pitch `0` and roll `-a`; the quarter
turn gives roll `-π/2`, the eighth turn gives roll `-π/4`, and so does the matrix of the
eighth-turn test, whose entries are `√2`. -/
theorem matrix_to_angles_pure_roll (a : ℝ) (h1 : -(Real.pi / 2) ≤ a) (h2 : a ≤ Real.pi / 2) :
    matrix_to_angles (Matrix.of ![![1, 0, 0],
      ![0, Real.cos a, Real.sin a], ![0, -Real.sin a, Real.cos a]]) = ⟨0, 0, -a⟩ ∧
    matrix_to_angles (Matrix.of ![![1, 0, 0], ![0, 0, 1], ![0, -1, 0]]) =
      ⟨0, 0, -(Real.pi / 2)⟩ ∧
    matrix_to_angles (Matrix.of ![![1, 0, 0],
      ![0, Real.cos (Real.pi / 4), Real.sin (Real.pi / 4)],
      ![0, -Real.sin (Real.pi / 4), Real.cos (Real.pi / 4)]]) = ⟨0, 0, -(Real.pi / 4)⟩ ∧
    matrix_to_angles (Matrix.of ![![1, 0, 0],
      ![0, Real.sqrt 2, Real.sqrt 2], ![0, -Real.sqrt 2, Real.sqrt 2]]) =
      ⟨0, 0, -(Real.pi / 4)⟩ := by
  have hpi := Real.pi_pos
  have gen : ∀ a : ℝ, -(Real.pi / 2) ≤ a → a ≤ Real.pi / 2 →
      matrix_to_angles (Matrix.of ![![1, 0, 0],
        ![0, Real.cos a, Real.sin a], ![0, -Real.sin a, Real.cos a]]) = ⟨0, 0, -a⟩ := by
    intro a h1 h2
    have hc : 0 ≤ Real.cos a := Real.cos_nonneg_of_mem_Icc ⟨h1, h2⟩
    have hr : atan2 (-Real.sin a) (Real.cos a) = -a := by
      have := atan2_sin_cos (-a) (by linarith) (by linarith)
      rwa [Real.sin_neg, Real.cos_neg] at this
    apply Angles_ext
    · simp [matrix_to_angles, Matrix.vecHead, Matrix.vecTail, atan2_zero_of_nonneg]
    · simp [matrix_to_angles, Matrix.vecHead, Matrix.vecTail, atan2_zero_of_nonneg _ hc]
    · simp [matrix_to_angles, Matrix.vecHead, Matrix.vecTail, hypot_zero_left _ hc, hr]
  have hs2 : (0 : ℝ) < Real.sqrt 2 := Real.sqrt_pos.2 two_pos
  refine ⟨gen a h1 h2, ?_, gen (Real.pi / 4) (by linarith) (by linarith), ?_⟩
  · have := gen (Real.pi / 2) (by linarith) le_rfl
    simpa using this
  · apply Angles_ext
    · simp [matrix_to_angles, Matrix.vecHead, Matrix.vecTail, atan2_zero_of_nonneg]
    · simp [matrix_to_angles, Matrix.vecHead, Matrix.vecTail, atan2_zero_of_nonneg _ hs2.le]
    · simp [matrix_to_angles, Matrix.vecHead, Matrix.vecTail, hypot_zero_left _ hs2.le,
        atan2_neg_diag _ hs2]

theorem matrix_to_angles_pure_roll_witness :
    -(Real.pi / 2) ≤ Real.pi / 2 ∧ Real.pi / 2 ≤ Real.pi / 2 ∧
    matrix_to_angles (Matrix.of ![![1, 0, 0],
      ![0, Real.cos (Real.pi / 2), Real.sin (Real.pi / 2)],
      ![0, -Real.sin (Real.pi / 2), Real.cos (Real.pi / 2)]]) = ⟨0, 0, -(Real.pi / 2)⟩ :=
  ⟨by linarith [Real.pi_pos], le_rfl,
    (matrix_to_angles_pure_roll (Real.pi / 2) (by linarith [Real.pi_pos]) le_rfl).1⟩

/-- C22: for every matrix `m` the roll that `matrix_to_angles` returns lies in `[-π/2, π/2]`:
the second argument of its `atan2` is a `hypot`, which is never negative. -/
theorem roll_in_range (m : Matrix3f) :
    -(Real.pi / 2) ≤ (matrix_to_angles m).roll ∧ (matrix_to_angles m).roll ≤ Real.pi / 2 := by
  have h : |(matrix_to_angles m).roll| ≤ Real.pi / 2 :=
    atan2_abs_le_of_nonneg _ _ (hypot_nonneg _ _)
  exact abs_le.1 h

/-- C30: `matrix_to_angles` is invariant under positive scaling of the matrix; the two
eighth-turn tests, whose matrices have entries `√2` where a rotation has `√2/2`, give yaw `π/4`
and pitch `π/4`. -/
theorem matrix_to_angles_scale (m : Matrix3f) (k : ℝ) (hk : 0 < k) :
    matrix_to_angles (k • m) = matrix_to_angles m ∧
    matrix_to_angles (Matrix.of ![![Real.sqrt 2, -Real.sqrt 2, 0],
      ![Real.sqrt 2, Real.sqrt 2, 0], ![0, 0, 1]]) = ⟨Real.pi / 4, 0, 0⟩ ∧
    matrix_to_angles (Matrix.of ![![Real.sqrt 2, 0, -Real.sqrt 2],
      ![0, 1, 0], ![Real.sqrt 2, 0, Real.sqrt 2]]) = ⟨0, Real.pi / 4, 0⟩ := by
  have hs2 : (0 : ℝ) < Real.sqrt 2 := Real.sqrt_pos.2 two_pos
  refine ⟨?_, ?_, ?_⟩
  · apply Angles_ext
    · simp only [matrix_to_angles, Matrix.smul_apply, smul_eq_mul]
      exact atan2_scale k _ _ hk
    · simp only [matrix_to_angles, Matrix.smul_apply, smul_eq_mul]
      exact atan2_scale k _ _ hk
    · simp only [matrix_to_angles, Matrix.smul_apply, smul_eq_mul]
      rw [hypot_scale k _ _ hk]
      exact atan2_scale k _ _ hk
  · apply Angles_ext
    · simp [matrix_to_angles, Matrix.vecHead, Matrix.vecTail, atan2_diag _ hs2]
    · simp [matrix_to_angles, Matrix.vecHead, Matrix.vecTail, atan2_zero_of_nonneg]
    · simp [matrix_to_angles, Matrix.vecHead, Matrix.vecTail, atan2_zero_of_nonneg,
        hypot_nonneg]
  · apply Angles_ext
    · simp [matrix_to_angles, Matrix.vecHead, Matrix.vecTail, atan2_zero_of_nonneg _ hs2.le]
    · simp [matrix_to_angles, Matrix.vecHead, Matrix.vecTail, atan2_diag _ hs2]
    · simp [matrix_to_angles, Matrix.vecHead, Matrix.vecTail, atan2_zero_of_nonneg,
        hypot_nonneg]

theorem matrix_to_angles_scale_witness :
    (0 : ℝ) < 2 ∧
    matrix_to_angles ((2 : ℝ) • angles_to_matrix 1 1 0) =
      matrix_to_angles (angles_to_matrix 1 1 0) :=
  ⟨two_pos, (matrix_to_angles_scale (angles_to_matrix 1 1 0) 2 two_pos).1⟩


/-- C23, at the half turn about the X axis: the matrix is orthogonal with determinant `1`, it
is the matrix `angles_to_matrix(0, 0, π)` builds, and `matrix_to_angles` returns the pitch `π`
for it, which is outside `[-π/2, π/2]`. -/
theorem pitch_out_of_range_at_half_turn :
    half_turn_about_X * half_turn_about_X.transpose = 1 ∧
    half_turn_about_X.det = 1 ∧
    angles_to_matrix 0 0 Real.pi = half_turn_about_X ∧
    (matrix_to_angles half_turn_about_X).pitch = Real.pi ∧
    ¬ (matrix_to_angles half_turn_about_X).pitch ≤ Real.pi / 2 := by
  have hpitch : (matrix_to_angles half_turn_about_X).pitch = Real.pi := by
    simp [matrix_to_angles, half_turn_about_X, Matrix.vecHead, Matrix.vecTail, atan2_pi]
  refine ⟨?_, ?_, ?_, hpitch, ?_⟩
  · ext i j
    fin_cases i <;> fin_cases j <;>
      simp [half_turn_about_X, Matrix.mul_apply, Fin.sum_univ_three, Matrix.vecHead,
        Matrix.vecTail]
  · simp [half_turn_about_X, Matrix.det_fin_three, Matrix.vecHead, Matrix.vecTail]
  · ext i j
    fin_cases i <;> fin_cases j <;>
      simp [angles_to_matrix, AngleAxisf_UnitZ, AngleAxisf_UnitY, AngleAxisf_UnitX,
        half_turn_about_X, Matrix.mul_apply, Fin.sum_univ_three, Matrix.vecHead,
        Matrix.vecTail]
  · rw [hpitch]
    linarith [Real.pi_pos]

/-- C24, at yaw 0, pitch 1, roll 1: the entry `m(2,2)` of the matrix `angles_to_matrix` builds
is `cos(pitch) * cos(roll) = cos 1 * cos 1`, which is below `cos(pitch) = cos 1`. -/
theorem angles_to_matrix_2_2_at_0_1_1 :
    angles_to_matrix 0 1 1 2 2 = Real.cos 1 * Real.cos 1 ∧
    angles_to_matrix 0 1 1 2 2 < Real.cos 1 ∧
    angles_to_matrix 0 1 1 2 2 ≠ Real.cos 1 := by
  have hpi := Real.pi_gt_three
  have hpos : 0 < Real.cos 1 :=
    Real.cos_pos_of_mem_Ioo ⟨by linarith, by linarith⟩
  have hlt : Real.cos 1 < 1 := by
    have := Real.cos_lt_cos_of_nonneg_of_le_pi_div_two (le_refl (0 : ℝ))
      (show (1 : ℝ) ≤ Real.pi / 2 by linarith) one_pos
    rwa [Real.cos_zero] at this
  have h : angles_to_matrix 0 1 1 2 2 < Real.cos 1 := by
    rw [angles_to_matrix_2_2]
    nlinarith
  exact ⟨angles_to_matrix_2_2 0 1 1, h, ne_of_lt h⟩

end robotsthatdream
